import Mathlib

/-!
# Currency-rates converter (task-3): XML records to sorted JSON

Shallow embedding of `task-3/cmd/service/main.go` together with the parts of the
Go standard library the program's behaviour is decided by.

* `service`: the program itself, `FloatValue.UnmarshalXML`, `Record`, `RawRecords`,
  `parseXML`, `saveAsJSON` and `main`, with the file system and the command line as
  an explicit environment and the writes of a run as a list of effects.
* `sort`: `sort.Slice` as the standard library implements it since Go 1.19, the
  pattern-defeating quicksort `pdqsort_func` of `zsortfunc.go` with its insertion
  sort, heap sort, partitions and pivot choice. Each loop carries a step count, an
  upper bound of the iterations the loop of the source can make.
* `strings`, `strconv`: `strings.ReplaceAll` and `strconv.ParseFloat(s, 64)`, the
  latter by the grammar of `readFloat` and `special` and by exact rounding to the
  nearest binary64, ties to even, which is what its conversion computes.
* `xml`: what `(*xml.Decoder).Decode` does with the document, read as the sequence of
  elements the decoder meets.
* `json`: `json.MarshalIndent` on a slice of records, with the encoders of the scalar
  fields left as parameters.
* `float64`: a value as its IEEE-754 binary64 bit pattern.

The definitions named `Spec.*` render the wording of the specification; those named
`Example.*` are concrete inputs.
-/

namespace sort

variable {α : Type}

/-- The call `data.Less(i, j)` of `sort.lessSwap`: the user comparison applied to
the elements currently stored at positions `i` and `j`. -/
def Less (lt : α → α → Bool) (d : List α) (i j : Nat) : Bool :=
  match d[i]?, d[j]? with
  | some x, some y => lt x y
  | _, _ => false

/-- The call `data.Swap(i, j)` (`reflectlite.Swapper`): exchanges the two elements. -/
def Swap (d : List α) (i j : Nat) : List α :=
  match d[i]?, d[j]? with
  | some x, some y => (d.set i y).set j x
  | _, _ => d

/-- Inner loop of `insertionSort_func`:
`for j := i; j > a && data.Less(j, j-1); j-- { data.Swap(j, j-1) }`. -/
def insertionSort_inner (lt : α → α → Bool) (a : Nat) : Nat → List α → List α
  | 0, d => d
  | j + 1, d =>
    if a < j + 1 && Less lt d (j + 1) j then
      insertionSort_inner lt a j (Swap d (j + 1) j)
    else d

/-- Outer loop of `insertionSort_func`: `for i := a + 1; i < b; i++`. -/
def insertionSort_outer (lt : α → α → Bool) (a b : Nat) : Nat → Nat → List α → List α
  | 0, _, d => d
  | n + 1, i, d =>
    if i < b then insertionSort_outer lt a b n (i + 1) (insertionSort_inner lt a i d)
    else d

/-- The function `insertionSort_func(data, a, b)` sorts `data[a:b]`. -/
def insertionSort_func (lt : α → α → Bool) (d : List α) (a b : Nat) : List α :=
  insertionSort_outer lt a b (b - (a + 1)) (a + 1) d

/-- Loop of `siftDown_func(data, lo, hi, first)`, `root` being the loop variable. -/
def siftDown_loop (lt : α → α → Bool) (hi first : Nat) : Nat → Nat → List α → List α
  | 0, _, d => d
  | n + 1, root, d =>
    let child := 2 * root + 1
    if child ≥ hi then d
    else
      let child := if child + 1 < hi && Less lt d (first + child) (first + child + 1)
        then child + 1 else child
      if !Less lt d (first + root) (first + child) then d
      else siftDown_loop lt hi first n child (Swap d (first + root) (first + child))

/-- The function `siftDown_func(data, lo, hi, first)`. -/
def siftDown_func (lt : α → α → Bool) (d : List α) (lo hi first : Nat) : List α :=
  siftDown_loop lt hi first hi lo d

/-- First loop of `heapSort_func`: `for i := (hi - 1) / 2; i >= 0; i--`; the argument
counts the iterations left, so the current `i` is one less. -/
def heapSort_build (lt : α → α → Bool) (hi first : Nat) : Nat → List α → List α
  | 0, d => d
  | i + 1, d => heapSort_build lt hi first i (siftDown_func lt d i hi first)

/-- Second loop of `heapSort_func`: `for i := hi - 1; i >= 0; i--`. -/
def heapSort_pop (lt : α → α → Bool) (lo first : Nat) : Nat → List α → List α
  | 0, d => d
  | i + 1, d => heapSort_pop lt lo first i (siftDown_func lt (Swap d first (first + i)) lo i first)

/-- The function `heapSort_func(data, a, b)`. -/
def heapSort_func (lt : α → α → Bool) (d : List α) (a b : Nat) : List α :=
  let first := a
  let lo := 0
  let hi := b - a
  heapSort_pop lt lo first hi (heapSort_build lt hi first ((hi - 1) / 2 + 1) d)

/-- The loop `for i <= j && p(i) { i++ }`; returns the final `i`. -/
def scanUp (p : Nat → Bool) (j : Nat) : Nat → Nat → Nat
  | 0, i => i
  | n + 1, i => if i ≤ j && p i then scanUp p j n (i + 1) else i

/-- The loop `for i <= j && p(j) { j-- }`; returns the final `j`. It is only run
with `i ≥ 1`, so `j` never goes below zero. -/
def scanDown (p : Nat → Bool) (i : Nat) : Nat → Nat
  | 0 => 0
  | j + 1 => if i ≤ j + 1 && p (j + 1) then scanDown p i j else j + 1

/-- Main loop of `partition_func` (the `for { ... }` after the first exchange);
returns the data and the final `j`. -/
def partition_loop (lt : α → α → Bool) (a : Nat) : Nat → List α → Nat → Nat → List α × Nat
  | 0, d, _, j => (d, j)
  | n + 1, d, i, j =>
    let i := scanUp (fun k => Less lt d k a) j (j + 1 - i) i
    let j := scanDown (fun k => !Less lt d k a) i j
    if i > j then (d, j)
    else partition_loop lt a n (Swap d i j) (i + 1) (j - 1)

/-- The function `partition_func(data, a, b, pivot)`; returns the data, `newpivot`
and `alreadyPartitioned`. -/
def partition_func (lt : α → α → Bool) (d : List α) (a b pivot : Nat) : List α × Nat × Bool :=
  let d := Swap d a pivot
  let i := a + 1
  let j := b - 1
  let i := scanUp (fun k => Less lt d k a) j (j + 1 - i) i
  let j := scanDown (fun k => !Less lt d k a) i j
  if i > j then (Swap d j a, j, true)
  else
    let d := Swap d i j
    let r := partition_loop lt a (b - a) d (i + 1) (j - 1)
    (Swap r.1 r.2 a, r.2, false)

/-- Loop of `partitionEqual_func`; returns the data and the final `i`. -/
def partitionEqual_loop (lt : α → α → Bool) (a : Nat) : Nat → List α → Nat → Nat → List α × Nat
  | 0, d, i, _ => (d, i)
  | n + 1, d, i, j =>
    let i := scanUp (fun k => !Less lt d a k) j (j + 1 - i) i
    let j := scanDown (fun k => Less lt d a k) i j
    if i > j then (d, i)
    else partitionEqual_loop lt a n (Swap d i j) (i + 1) (j - 1)

/-- The function `partitionEqual_func(data, a, b, pivot)`; returns the data and
`newpivot`. -/
def partitionEqual_func (lt : α → α → Bool) (d : List α) (a b pivot : Nat) : List α × Nat :=
  let d := Swap d a pivot
  partitionEqual_loop lt a (b - a) d (a + 1) (b - 1)

/-- The loop `for j := i - 1; j >= 1; j--` of `partialInsertionSort_func`, which
shifts the smaller element to the left; the argument is the current `j`. -/
def shiftLeft_loop (lt : α → α → Bool) : Nat → List α → List α
  | 0, d => d
  | j + 1, d =>
    if !Less lt d (j + 1) j then d
    else shiftLeft_loop lt j (Swap d (j + 1) j)

/-- The loop `for j := i + 1; j < b; j++` of `partialInsertionSort_func`, which
shifts the greater element to the right. -/
def shiftRight_loop (lt : α → α → Bool) (b : Nat) : Nat → Nat → List α → List α
  | 0, _, d => d
  | n + 1, j, d =>
    if j < b then
      if !Less lt d j (j - 1) then d
      else shiftRight_loop lt b n (j + 1) (Swap d j (j - 1))
    else d

/-- Outer loop `for j := 0; j < maxSteps; j++` of `partialInsertionSort_func`; the
first argument counts the steps left. -/
def partialInsertionSort_loop (lt : α → α → Bool) (a b : Nat) :
    Nat → Nat → List α → List α × Bool
  | 0, _, d => (d, false)
  | s + 1, i, d =>
    let i := scanUp (fun k => !Less lt d k (k - 1)) (b - 1) (b - i) i
    if i = b then (d, true)
    else if b - a < 50 then (d, false)
    else
      let d := Swap d i (i - 1)
      let d := if i - a ≥ 2 then shiftLeft_loop lt (i - 1) d else d
      let d := if b - i ≥ 2 then shiftRight_loop lt b (b - (i + 1)) (i + 1) d else d
      partialInsertionSort_loop lt a b s i d

/-- The function `partialInsertionSort_func(data, a, b)` (`maxSteps = 5`,
`shortestShifting = 50`); the Boolean tells whether the slice is sorted at the end. -/
def partialInsertionSort_func (lt : α → α → Bool) (d : List α) (a b : Nat) : List α × Bool :=
  partialInsertionSort_loop lt a b 5 (a + 1) d

/-- The function `bits.Len(x)` for a 64-bit `x`: the number of bits needed to write `x`. -/
def bitsLen_loop : Nat → Nat → Nat
  | 0, _ => 0
  | f + 1, x => if x = 0 then 0 else bitsLen_loop f (x / 2) + 1

/-- The function `bits.Len(uint(x))`. -/
def bitsLen (x : Nat) : Nat := bitsLen_loop 64 (x % 2 ^ 64)

/-- The method `(*xorshift).Next`, on the 64-bit state. -/
def xorshift_Next (r : Nat) : Nat :=
  let r := r ^^^ ((r <<< 13) % 2 ^ 64)
  let r := r ^^^ (r >>> 7)
  let r := r ^^^ ((r <<< 17) % 2 ^ 64)
  r

/-- The function `nextPowerOfTwo(length)`. -/
def nextPowerOfTwo (length : Nat) : Nat := (1 <<< bitsLen length) % 2 ^ 64

/-- The loop `for i := 0; i < 3; i++` of `breakPatterns_func`, which exchanges the
three elements at `idx`, `idx + 1` and `idx + 2`, those around the middle of the
range, with elements at pseudo-random places of the range. -/
def breakPatterns_loop (a length modulus idx : Nat) : Nat → Nat → Nat → List α → List α
  | 0, _, _, d => d
  | n + 1, i, random, d =>
    let random := xorshift_Next random
    let other := random &&& (modulus - 1)
    let other := if other ≥ length then other - length else other
    breakPatterns_loop a length modulus idx n (i + 1) random (Swap d (idx + i) (a + other))

/-- The function `breakPatterns_func(data, a, b)`; `idx` is the place before the
middle `a + (length / 4) * 2` of the range. -/
def breakPatterns_func (d : List α) (a b : Nat) : List α :=
  let length := b - a
  if length ≥ 8 then
    let random := length
    let modulus := nextPowerOfTwo length
    let idx := a + (length / 4) * 2 - 1
    breakPatterns_loop a length modulus idx 3 0 random d
  else d

/-- The type `sortedHint`. -/
inductive sortedHint
  | unknownHint
  | increasingHint
  | decreasingHint
  deriving DecidableEq, Repr

/-- The function `order2_func(data, a, b, swaps)`; returns the two indices and the
updated swap counter. -/
def order2_func (lt : α → α → Bool) (d : List α) (a b swaps : Nat) : Nat × Nat × Nat :=
  if Less lt d b a then (b, a, swaps + 1) else (a, b, swaps)

/-- The function `median_func(data, a, b, c, swaps)`; returns the index of the
median and the updated swap counter. -/
def median_func (lt : α → α → Bool) (d : List α) (a b c swaps : Nat) : Nat × Nat :=
  let r := order2_func lt d a b swaps
  let a := r.1
  let b := r.2.1
  let r := order2_func lt d b c r.2.2
  let b := r.1
  let r := order2_func lt d a b r.2.2
  (r.2.1, r.2.2)

/-- The function `medianAdjacent_func(data, a, swaps)`. -/
def medianAdjacent_func (lt : α → α → Bool) (d : List α) (a swaps : Nat) : Nat × Nat :=
  median_func lt d (a - 1) a (a + 1) swaps

/-- The function `choosePivot_func(data, a, b)` (`shortestNinther = 50`,
`maxSwaps = 4 * 3`). -/
def choosePivot_func (lt : α → α → Bool) (d : List α) (a b : Nat) : Nat × sortedHint :=
  let l := b - a
  let swaps := 0
  let i := a + l / 4 * 1
  let j := a + l / 4 * 2
  let k := a + l / 4 * 3
  let r : Nat × Nat :=
    if l ≥ 8 then
      if l ≥ 50 then
        let ri := medianAdjacent_func lt d i swaps
        let rj := medianAdjacent_func lt d j ri.2
        let rk := medianAdjacent_func lt d k rj.2
        median_func lt d ri.1 rj.1 rk.1 rk.2
      else median_func lt d i j k swaps
    else (j, swaps)
  if r.2 = 0 then (r.1, sortedHint.increasingHint)
  else if r.2 = 4 * 3 then (r.1, sortedHint.decreasingHint)
  else (r.1, sortedHint.unknownHint)

/-- Loop of `reverseRange_func`: `for i < j { data.Swap(i, j); i++; j-- }`. -/
def reverseRange_loop : Nat → Nat → Nat → List α → List α
  | 0, _, _, d => d
  | n + 1, i, j, d => if i < j then reverseRange_loop n (i + 1) (j - 1) (Swap d i j) else d

/-- The function `reverseRange_func(data, a, b)`. -/
def reverseRange_func (d : List α) (a b : Nat) : List α :=
  reverseRange_loop (b - a) a (b - 1) d

/-- In a round of `pdqsort_func`: `if !wasBalanced { breakPatterns_func(data, a, b);
limit-- }`; returns the data and `limit`. -/
def pdqsort_break (d : List α) (a b limit : Nat) (wasBalanced : Bool) : List α × Nat :=
  if !wasBalanced then (breakPatterns_func d a b, limit - 1) else (d, limit)

/-- In a round of `pdqsort_func`: `choosePivot_func`, and on `decreasingHint` the
reversal of the range with the pivot index and the hint adjusted; returns the data,
`pivot` and `hint`. -/
def pdqsort_pivot (lt : α → α → Bool) (d : List α) (a b : Nat) : List α × Nat × sortedHint :=
  let ph := choosePivot_func lt d a b
  if ph.2 = sortedHint.decreasingHint then
    (reverseRange_func d a b, (b - 1) - (ph.1 - a), sortedHint.increasingHint)
  else (d, ph.1, ph.2)

/-- In a round of `pdqsort_func`: `if wasBalanced && wasPartitioned && hint ==
increasingHint { if partialInsertionSort_func(data, a, b) { return } }`; returns the
data and whether the function returns here. -/
def pdqsort_presorted (lt : α → α → Bool) (d : List α) (a b : Nat)
    (wasBalanced wasPartitioned : Bool) (hint : sortedHint) : List α × Bool :=
  if wasBalanced && wasPartitioned && hint = sortedHint.increasingHint then
    partialInsertionSort_func lt d a b
  else (d, false)

/-- State after the part of a round of `pdqsort_func` that precedes the
partitioning. -/
structure pdqsortRound (α : Type) where
  data : List α
  limit : Nat
  pivot : Nat
  sorted : Bool

/-- The part of a round of `pdqsort_func` between the two early returns and the
partitioning. -/
def pdqsort_round (lt : α → α → Bool) (d : List α) (a b limit : Nat)
    (wasBalanced wasPartitioned : Bool) : pdqsortRound α :=
  let s1 := pdqsort_break d a b limit wasBalanced
  let s2 := pdqsort_pivot lt s1.1 a b
  let s3 := pdqsort_presorted lt s2.1 a b wasBalanced wasPartitioned s2.2.2
  ⟨s3.1, s1.2, s2.2.1, s3.2⟩

/-- The function `pdqsort_func(data, a, b, limit)` (`maxInsertion = 12`). The first
argument bounds the number of loop rounds and nested calls; `wasBalanced` and
`wasPartitioned` are the two local flags, both `true` on entry. -/
def pdqsort_loop (lt : α → α → Bool) :
    Nat → List α → Nat → Nat → Nat → Bool → Bool → List α
  | 0, d, _, _, _, _, _ => d
  | n + 1, d, a, b, limit, wasBalanced, wasPartitioned =>
    if b - a ≤ 12 then insertionSort_func lt d a b
    else if limit = 0 then heapSort_func lt d a b
    else
      let r := pdqsort_round lt d a b limit wasBalanced wasPartitioned
      if r.sorted then r.data
      else if 0 < a && !Less lt r.data (a - 1) r.pivot then
        let e := partitionEqual_func lt r.data a b r.pivot
        pdqsort_loop lt n e.1 e.2 b r.limit wasBalanced wasPartitioned
      else
        let p := partition_func lt r.data a b r.pivot
        if p.2.1 - a < b - p.2.1 then
          pdqsort_loop lt n (pdqsort_loop lt n p.1 a p.2.1 r.limit true true)
            (p.2.1 + 1) b r.limit (decide (p.2.1 - a ≥ (b - a) / 8)) p.2.2
        else
          pdqsort_loop lt n (pdqsort_loop lt n p.1 (p.2.1 + 1) b r.limit true true)
            a p.2.1 r.limit (decide (b - p.2.1 ≥ (b - a) / 8)) p.2.2

/-- The function `pdqsort_func(data, a, b, limit)` as called from outside. -/
def pdqsort_func (lt : α → α → Bool) (d : List α) (a b limit : Nat) : List α :=
  pdqsort_loop lt (b - a + 1) d a b limit true true

/-- The function `sort.Slice(x, less)` where `less(i, j)` compares the elements at
`i` and `j` by `lt`. -/
def Slice (lt : α → α → Bool) (x : List α) : List α :=
  let length := x.length
  let limit := bitsLen length
  pdqsort_func lt x 0 length limit

end sort

/-- The Go type `float64`, given by its IEEE-754 binary64 bit pattern as
`math.Float64bits` returns it: bit 63 is the sign, bits 62..52 the biased exponent,
bits 51..0 the fraction. -/
structure float64 where
  bits : Nat
  deriving DecidableEq, Repr

namespace float64

/-- Biased exponent field. -/
def exponent (x : float64) : Nat := x.bits / 2 ^ 52 % 2 ^ 11

/-- Fraction field. -/
def fraction (x : float64) : Nat := x.bits % 2 ^ 52

/-- Sign bit. -/
def signbit (x : float64) : Bool := x.bits / 2 ^ 63 % 2 = 1

/-- Sign-magnitude reading of the bit pattern; on values that are not NaN it is
monotone in the number denoted and sends both zeros to `0`. -/
def key (x : float64) : Int :=
  if x.signbit then -((x.bits % 2 ^ 63 : Nat) : Int) else ((x.bits % 2 ^ 63 : Nat) : Int)

end float64

namespace math

/-- The function `math.IsNaN`. -/
def IsNaN (x : float64) : Bool := x.exponent = 2047 && x.fraction ≠ 0

/-- The function `math.IsInf(x, 0)`. -/
def IsInf (x : float64) : Bool := x.exponent = 2047 && x.fraction = 0

/-- The function `math.NaN()`. -/
def NaN : float64 := ⟨0x7FF8000000000001⟩

/-- The function `math.Inf(sign)`; `neg` stands for `sign < 0`. -/
def Inf (neg : Bool) : float64 := if neg then ⟨0xFFF0000000000000⟩ else ⟨0x7FF0000000000000⟩

end math

namespace float64

/-- The Go comparison `x > y` on `float64`: false when either side is NaN. -/
def gt (x y : float64) : Bool := !math.IsNaN x && !math.IsNaN y && decide (y.key < x.key)

/-- The Go comparison `x >= y` on `float64`: false when either side is NaN. -/
def ge (x y : float64) : Bool := !math.IsNaN x && !math.IsNaN y && decide (y.key ≤ x.key)

/-- The Go comparison `x == y` on `float64`: false when either side is NaN, true
for the two zeros. -/
def eq (x y : float64) : Bool := !math.IsNaN x && !math.IsNaN y && decide (x.key = y.key)

/-- A finite value: neither an infinity nor a NaN. -/
def isFinite (x : float64) : Bool := !math.IsInf x && !math.IsNaN x

end float64

namespace strings

/-- The function `strings.ReplaceAll(s, old, new)` for a non-empty `old`, on the
characters of `s`: every non-overlapping occurrence of `old`, from the left, is
replaced by `new`. The first argument bounds the recursion by the length of `s`. -/
def replaceAll_loop (old new : List Char) : Nat → List Char → List Char
  | 0, s => s
  | _ + 1, [] => []
  | n + 1, c :: cs =>
    if old.isPrefixOf (c :: cs) then new ++ replaceAll_loop old new n ((c :: cs).drop old.length)
    else c :: replaceAll_loop old new n cs

/-- The function `strings.ReplaceAll(s, old, new)` for a non-empty `old`. -/
def ReplaceAll (s old new : String) : String :=
  String.mk (replaceAll_loop old.toList new.toList s.length s.toList)

end strings

namespace strconv

/-- The two error values `strconv.ErrSyntax` and `strconv.ErrRange`. -/
inductive Err
  | ErrSyntax
  | ErrRange
  deriving DecidableEq, Repr

/-- The type `strconv.NumError`: function name, offending input, and cause. -/
structure NumError where
  Func : String
  Num : String
  Err : Err
  deriving DecidableEq, Repr

/-- The function `lower(c)`: `c | ('x' - 'X')`, as a code. -/
def lower (c : Char) : Nat := c.toNat ||| ('x'.toNat - 'X'.toNat)

/-- The function `commonPrefixLenIgnoreCase(s, prefix)`. -/
def commonPrefixLenIgnoreCase : List Char → List Char → Nat
  | c :: s, p :: pre =>
    let c := if 'A'.toNat ≤ c.toNat ∧ c.toNat ≤ 'Z'.toNat
      then c.toNat + ('a'.toNat - 'A'.toNat) else c.toNat
    if c ≠ p.toNat then 0 else commonPrefixLenIgnoreCase s pre + 1
  | _, _ => 0

/-- The part of `special` shared by the sign and the `i`, `I` cases. -/
def special_inf (s : List Char) (neg : Bool) (nsign : Nat) : Option (float64 × Nat) :=
  let n := commonPrefixLenIgnoreCase s "infinity".toList
  let n := if 3 < n ∧ n < 8 then 3 else n
  if n = 3 ∨ n = 8 then some (math.Inf neg, nsign + n) else none

/-- The function `special(s)`: the value and consumed length when a prefix of `s` is
a possibly signed `inf`, `infinity`, or an unsigned `nan`, in any letter case. -/
def special (s : List Char) : Option (float64 × Nat) :=
  match s with
  | [] => none
  | c :: cs =>
    if c = '+' ∨ c = '-' then special_inf cs (c = '-') 1
    else if c = 'i' ∨ c = 'I' then special_inf (c :: cs) false 0
    else if c = 'n' ∨ c = 'N' then
      if commonPrefixLenIgnoreCase (c :: cs) "nan".toList = 3 then some (math.NaN, 3) else none
    else none

/-- Loop of `underscoreOK`, with `saw` the last character class seen and `hex`
telling whether hexadecimal digits count as digits. -/
def underscoreOK_loop (hex : Bool) : List Char → Char → Bool
  | [], saw => saw ≠ '_'
  | c :: cs, saw =>
    if ('0' ≤ c ∧ c ≤ '9') ∨ (hex ∧ 'a'.toNat ≤ lower c ∧ lower c ≤ 'f'.toNat) then
      underscoreOK_loop hex cs '0'
    else if c = '_' then
      if saw ≠ '0' then false else underscoreOK_loop hex cs '_'
    else if saw = '_' then false
    else underscoreOK_loop hex cs '!'

/-- The function `underscoreOK(s)`: underscores only between digits or between a
base prefix and a digit. -/
def underscoreOK (s : List Char) : Bool :=
  let s := match s with
    | c :: cs => if c = '-' ∨ c = '+' then cs else c :: cs
    | [] => []
  match s with
  | c0 :: c1 :: cs =>
    if c0 = '0' ∧ (lower c1 = 'b'.toNat ∨ lower c1 = 'o'.toNat ∨ lower c1 = 'x'.toNat) then
      underscoreOK_loop (lower c1 = 'x'.toNat) cs '0'
    else underscoreOK_loop false (c0 :: c1 :: cs) '^'
  | s => underscoreOK_loop false s '^'

/-- State of the digit loop of `readFloat`. The mantissa keeps every digit: the
digits past the 19th (16th in base 16), which `readFloat` only records as `trunc`
and the conversions account for, are held exactly. -/
structure floatDigits where
  sawdot : Bool
  sawdigits : Bool
  nd : Nat
  dp : Int
  mantissa : Nat
  underscores : Bool
  deriving Repr

/-- The digit loop of `readFloat` (label `loop`); returns the state at the first
character that ends the loop, and the unread rest. -/
def readFloat_digits (base : Nat) : List Char → floatDigits → floatDigits × List Char
  | [], st => (st, [])
  | c :: cs, st =>
    if c = '_' then readFloat_digits base cs { st with underscores := true }
    else if c = '.' then
      if st.sawdot then (st, c :: cs)
      else readFloat_digits base cs { st with sawdot := true, dp := st.nd }
    else if '0' ≤ c ∧ c ≤ '9' then
      if c = '0' ∧ st.nd = 0 then
        readFloat_digits base cs { st with sawdigits := true, dp := st.dp - 1 }
      else
        readFloat_digits base cs { st with
          sawdigits := true, nd := st.nd + 1,
          mantissa := st.mantissa * base + (c.toNat - '0'.toNat) }
    else if base = 16 ∧ 'a'.toNat ≤ lower c ∧ lower c ≤ 'f'.toNat then
      readFloat_digits base cs { st with
        sawdigits := true, nd := st.nd + 1,
        mantissa := st.mantissa * 16 + (lower c - 'a'.toNat + 10) }
    else (st, c :: cs)

/-- The exponent digit loop of `readFloat`; returns `e`, the underscore flag and the
unread rest. -/
def readFloat_exp : List Char → Nat → Bool → Nat × Bool × List Char
  | [], e, u => (e, u, [])
  | c :: cs, e, u =>
    if c = '_' then readFloat_exp cs e true
    else if '0' ≤ c ∧ c ≤ '9' then
      readFloat_exp cs (if e < 10000 then e * 10 + (c.toNat - '0'.toNat) else e) u
    else (e, u, c :: cs)

/-- Result of `readFloat`: the digits as a number, the count `nd` of digits in it,
the position `dp` of the point (in bits when `hex`), the sign, the base, the
number `n` of characters read, and `ok`. The exponent of the last digit is
`dp - nd` (`dp - 4 * nd` when `hex`). -/
structure floatRead where
  mantissa : Nat
  nd : Nat
  dp : Int
  neg : Bool
  hex : Bool
  n : Nat
  ok : Bool
  deriving Repr

/-- The result of `readFloat` when it returns with `ok` unset. -/
def readFloat_fail : floatRead := ⟨0, 0, 0, false, false, 0, false⟩

/-- The last step of `readFloat`: `if underscores && !underscoreOK(s[:i]) { return }`,
then `ok = true`; `n` is the position `i` reached. -/
def readFloat_done (s : List Char) (st : floatDigits) (dp : Int) (neg hex underscores : Bool)
    (n : Nat) : floatRead :=
  if underscores ∧ !underscoreOK (s.take n) then readFloat_fail
  else ⟨st.mantissa, st.nd, dp, neg, hex, n, true⟩

/-- The optional exponent of `readFloat`, which moves the point; `s` is the whole
string and `rest` what the digit loop left unread. A hexadecimal mantissa must
have an exponent. -/
def readFloat_exponent (s : List Char) (st : floatDigits) (dp : Int) (neg hex : Bool)
    (rest : List Char) : floatRead :=
  let noExponent := if hex then readFloat_fail
    else readFloat_done s st dp neg hex st.underscores (s.length - rest.length)
  match rest with
  | c :: s4 =>
    if lower c = (if hex then 'p'.toNat else 'e'.toNat) then
      match s4 with
      | [] => readFloat_fail
      | c :: s5 =>
        let esign : Int := if c = '-' then -1 else 1
        let s6 := if c = '+' ∨ c = '-' then s5 else c :: s5
        match s6 with
        | [] => readFloat_fail
        | c :: _ =>
          if c < '0' ∨ c > '9' then readFloat_fail
          else
            let r := readFloat_exp s6 0 st.underscores
            readFloat_done s st (dp + r.1 * esign) neg hex r.2.1 (s.length - r.2.2.length)
    else noExponent
  | [] => noExponent

/-- The test for the base prefix in `readFloat`, on the string after the sign:
`i+2 < len(s) && s[i] == '0' && lower(s[i+1]) == 'x'`. -/
def readFloat_hex : List Char → Bool
  | c0 :: c1 :: _ :: _ => decide (c0 = '0' ∧ lower c1 = 'x'.toNat)
  | _ => false

/-- The function `readFloat(s)`. -/
def readFloat (s : List Char) : floatRead :=
  match s with
  | [] => readFloat_fail
  | c :: cs =>
    let neg := decide (c = '-')
    let s1 := if c = '+' ∨ c = '-' then cs else c :: cs
    let hex := readFloat_hex s1
    let r := readFloat_digits (if hex then 16 else 10) (if hex then s1.drop 2 else s1)
      ⟨false, false, 0, 0, 0, false⟩
    if !r.1.sawdigits then readFloat_fail
    else
      let dp : Int := if !r.1.sawdot then r.1.nd else r.1.dp
      let dp : Int := if hex then dp * 4 else dp
      readFloat_exponent s r.1 dp neg hex r.2

/-- Number of binary digits of `x`; the first argument bounds the recursion. -/
def bitLen_loop : Nat → Nat → Nat
  | 0, _ => 0
  | f + 1, x => if x = 0 then 0 else bitLen_loop f (x / 2) + 1

/-- Number of binary digits of `x`. -/
def bitLen (x : Nat) : Nat := bitLen_loop x x

/-- Whether `num / den ≥ 2 ^ k`. -/
def geTwoPow (num den : Nat) (k : Int) : Bool :=
  if 0 ≤ k then decide (den <<< k.toNat ≤ num) else decide (den ≤ num <<< (-k).toNat)

/-- Scaled quotient rounded to the nearest integer, ties to even: for
`2 ^ e ≤ num / den` it is the integer nearest to `num / den / 2 ^ (e - 52)`, put
behind the exponent field, which a carry out of the significand increments. Below
the normal range the scale is fixed at `2 ^ -1074`. -/
def roundMagnitude (num den : Nat) : Nat :=
  let k : Int := (bitLen num : Int) - (bitLen den : Int)
  let lg : Int := if geTwoPow num den k then k else k - 1
  let e : Int := max (lg - 52) (-1074)
  let n := if 0 ≤ e then num else num <<< (-e).toNat
  let d := if 0 ≤ e then den <<< e.toNat else den
  let q := n / d
  let r := n % d
  let q := if d < 2 * r ∨ (2 * r = d ∧ q % 2 = 1) then q + 1 else q
  (e + 1074).toNat * 2 ^ 52 + q

/-- Puts the sign on a magnitude (exponent and fraction fields); a magnitude that
reaches the pattern of the infinity is an overflow. -/
def packFloat64 (neg : Bool) (magnitude : Nat) : float64 × Bool :=
  if 0x7FF0000000000000 ≤ magnitude then (math.Inf neg, true)
  else (⟨(if neg then 2 ^ 63 else 0) + magnitude⟩, false)

/-- The binary64 value nearest to `num / den`, ties to even, with the given sign
(IEEE-754 round to nearest even, the result all conversion paths of `ParseFloat`
agree on); the flag reports overflow, in which case the value is the infinity. -/
def roundFloat64 (neg : Bool) (num den : Nat) : float64 × Bool :=
  if num = 0 ∨ den = 0 then (⟨if neg then 2 ^ 63 else 0⟩, false)
  else packFloat64 neg (roundMagnitude num den)

/-- Decimal conversion (`eiselLemire64`, `atof64exact`, `decimal.floatBits`): the
value is `mantissa * 10 ^ (dp - nd)`; `dp > 310` overflows and `dp < -330` is zero,
as in `floatBits`. -/
def decimalToFloat64 (neg : Bool) (mantissa nd : Nat) (dp : Int) : float64 × Bool :=
  if mantissa = 0 then (⟨if neg then 2 ^ 63 else 0⟩, false)
  else if 310 < dp then (math.Inf neg, true)
  else if dp < -330 then (⟨if neg then 2 ^ 63 else 0⟩, false)
  else
    let exp : Int := dp - nd
    if 0 ≤ exp then roundFloat64 neg (mantissa * 10 ^ exp.toNat) 1
    else roundFloat64 neg mantissa (10 ^ (-exp).toNat)

/-- Hexadecimal conversion (`atofHex`): the value is `mantissa * 2 ^ (dp - 4 * nd)`. -/
def atofHex (neg : Bool) (mantissa nd : Nat) (dp : Int) : float64 × Bool :=
  let exp : Int := dp - 4 * nd
  if 0 ≤ exp then roundFloat64 neg (mantissa <<< exp.toNat) 1
  else roundFloat64 neg mantissa (1 <<< (-exp).toNat)

/-- The function `atof64(s)`: value, number of characters read, and error kind. -/
def atof64 (s : List Char) : float64 × Nat × Option Err :=
  match special s with
  | some (val, n) => (val, n, none)
  | none =>
    let r := readFloat s
    if !r.ok then (⟨0⟩, r.n, some Err.ErrSyntax)
    else
      let c := if r.hex then atofHex r.neg r.mantissa r.nd r.dp
        else decimalToFloat64 r.neg r.mantissa r.nd r.dp
      (c.1, r.n, if c.2 then some Err.ErrRange else none)

/-- The function `strconv.ParseFloat(s, 64)`. -/
def ParseFloat (s : String) : float64 × Option NumError :=
  let r := atof64 s.toList
  if r.2.1 ≠ s.length ∧ (r.2.2 = none ∨ r.2.2 ≠ some Err.ErrSyntax) then
    (⟨0⟩, some ⟨"ParseFloat", s, Err.ErrSyntax⟩)
  else (r.1, r.2.2.map (fun e => ⟨"ParseFloat", s, e⟩))

end strconv

/-- The Go interface `error`, as far as the program distinguishes its values. -/
inductive error
  | NumError (e : strconv.NumError)
  | UnsupportedValueError (v : float64)
  | other (msg : String)
  | wrap (context : String) (err : error)
  deriving DecidableEq, Repr

namespace service

/-- The type `Config`. -/
structure Config where
  InputFile : String
  OutputFile : String
  deriving DecidableEq, Repr

/-- The type `FloatValue` (`type FloatValue float64`). -/
abbrev FloatValue := float64

/-- The method `(f *FloatValue) UnmarshalXML(d, start)`. The first argument is the
value `*f` holds on entry, `elem` is what `d.DecodeElement(&stringValue, &start)`
delivers; the result is the value `*f` holds on return, and the error. -/
def FloatValue.UnmarshalXML (f : FloatValue) (elem : Except error String) :
    FloatValue × Option error :=
  match elem with
  | .error err => (f, some (error.wrap "decode value" err))
  | .ok stringValue =>
    let stringValue := strings.ReplaceAll stringValue "," "."
    let r := strconv.ParseFloat stringValue
    match r.2 with
    | some err => (f, some (error.wrap "parse float in value" (error.NumError err)))
    | none => (r.1, none)

/-- The type `Record`. -/
structure Record where
  ID : Int
  Name : String
  Value : FloatValue
  deriving DecidableEq, Repr

/-- The type `RawRecords`; `none` is the nil slice. -/
structure RawRecords where
  Items : Option (List Record)
  deriving DecidableEq, Repr

end service

namespace xml

open service

/-- What the decoder meets inside one `Valute` element, in document order: a
`NumCode` child with the outcome of reading its text as an `int`, a `CharCode`
child with the outcome of reading its text, a `Value` child with what
`DecodeElement` delivers to `UnmarshalXML`, or a place where decoding stops with an
error (malformed markup, unresolvable charset). Children of other names are
skipped by the decoder and left out. -/
inductive Child
  | NumCode (v : Except error Int)
  | CharCode (v : Except error String)
  | Value (elem : Except error String)
  | broken (err : error)
  deriving Repr

/-- What the decoder meets inside the root element, in document order: a `Valute`
element, or a place where decoding stops with an error. Elements of other names
are skipped by the decoder and left out. -/
inductive Node
  | Valute (children : List Child)
  | broken (err : error)
  deriving Repr

/-- Decoding of one `Valute` element into the `Record` appended for it. -/
def unmarshalRecord : List Child → Record → Except error Record
  | [], r => .ok r
  | Child.NumCode (.ok v) :: cs, r => unmarshalRecord cs { r with ID := v }
  | Child.NumCode (.error err) :: _, _ => .error err
  | Child.CharCode (.ok v) :: cs, r => unmarshalRecord cs { r with Name := v }
  | Child.CharCode (.error err) :: _, _ => .error err
  | Child.Value elem :: cs, r =>
    match FloatValue.UnmarshalXML r.Value elem with
    | (v, none) => unmarshalRecord cs { r with Value := v }
    | (_, some err) => .error err
  | Child.broken err :: _, _ => .error err

/-- The method `(*Decoder).Decode(&raw)` for `raw` of type `RawRecords`: every
`Valute` element appends a zero `Record` to `Items` and is decoded into it; when
that fails the slice is cut back to its former length and the error returned. -/
def Decode : List Node → RawRecords → RawRecords × Option error
  | [], raw => (raw, none)
  | Node.Valute cs :: ns, raw =>
    let items := raw.Items.getD []
    match unmarshalRecord cs ⟨0, "", ⟨0⟩⟩ with
    | .ok r => Decode ns ⟨some (items ++ [r])⟩
    | .error err => (⟨some items⟩, some err)
  | Node.broken err :: _, raw => (raw, some err)

end xml

namespace json

open service

/-- Encoders of the scalar kinds, whose output formats are taken as given:
`int` is `strconv.AppendInt(b, v, 10)`, `string` the quoted and escaped string
(`appendString`), `float` the number text of a finite `float64` (`AppendFloat`
with the shortest digits). -/
structure Encoders where
  int : Int → List Char
  string : String → List Char
  float : float64 → List Char

/-- The encoder of `float64` fields (`floatEncoder.encode`): infinities and NaN are
refused with an `UnsupportedValueError`. -/
def floatEncoder (enc : Encoders) (f : float64) : Except error (List Char) :=
  if math.IsInf f || math.IsNaN f then .error (error.UnsupportedValueError f)
  else .ok (enc.float f)

/-- The struct encoder for `Record`: the fields in declaration order under their
`json` names. -/
def structEncoder (enc : Encoders) (r : Record) : Except error (List Char) :=
  match floatEncoder enc r.Value with
  | .error err => .error err
  | .ok v =>
    .ok ("\x7b\"num_code\":".toList ++ enc.int r.ID ++ ",\"char_code\":".toList ++ enc.string r.Name
      ++ ",\"value\":".toList ++ v ++ "\x7d".toList)

/-- Elements of the array encoder, from index `i` on: a comma before every element
but the first. -/
def arrayEncoder_loop (enc : Encoders) : List Record → Bool → Except error (List Char)
  | [], _ => .ok []
  | r :: rs, first =>
    match structEncoder enc r with
    | .error err => .error err
    | .ok v =>
      match arrayEncoder_loop enc rs false with
      | .error err => .error err
      | .ok vs => .ok ((if first then [] else [',']) ++ v ++ vs)

/-- The function `json.Marshal(items)` for `items` of type `[]Record`: `null` for
the nil slice, else the elements between brackets. -/
def Marshal (enc : Encoders) (items : Option (List Record)) : Except error (List Char) :=
  match items with
  | none => .ok "null".toList
  | some rs =>
    match arrayEncoder_loop enc rs true with
    | .error err => .error err
    | .ok vs => .ok ('[' :: vs ++ [']'])

/-- State of `appendIndent`: the output so far, `needIndent`, `depth`, and of the
scanner whether it is inside a string literal and whether the last character was an
unconsumed backslash. -/
structure indentState where
  dst : List Char
  needIndent : Bool
  depth : Nat
  inString : Bool
  escaped : Bool
  deriving DecidableEq, Repr

/-- The function `appendNewline(dst, prefix, indent, depth)`. -/
def appendNewline (dst pre indent : List Char) (depth : Nat) : List Char :=
  dst ++ '\n' :: pre ++ (List.replicate depth indent).flatten

/-- One round of the loop of `appendIndent` on the character `c`. Of the scanner,
only what it reports on well-formed input is kept: the characters of a string
literal after its opening quote are `scanContinue`, white space between tokens is
`scanSkipSpace`, a closing bracket is `scanEndObject` or `scanEndArray`. -/
def appendIndent_step (pre indent : List Char) (st : indentState) (c : Char) : indentState :=
  if st.inString then
    if st.escaped then { st with dst := st.dst ++ [c], escaped := false }
    else if c = '\\' then { st with dst := st.dst ++ [c], escaped := true }
    else if c = '"' then { st with dst := st.dst ++ [c], inString := false }
    else { st with dst := st.dst ++ [c] }
  else if c = ' ' ∨ c = '\t' ∨ c = '\r' ∨ c = '\n' then st
  else
    let st := if st.needIndent ∧ c ≠ '\x7d' ∧ c ≠ ']' then
        { st with needIndent := false, depth := st.depth + 1,
                  dst := appendNewline st.dst pre indent (st.depth + 1) }
      else st
    if c = '"' then { st with dst := st.dst ++ [c], inString := true }
    else if c = '\x7b' ∨ c = '[' then { st with dst := st.dst ++ [c], needIndent := true }
    else if c = ',' then { st with dst := appendNewline (st.dst ++ [c]) pre indent st.depth }
    else if c = ':' then { st with dst := st.dst ++ [c, ' '] }
    else if c = '\x7d' ∨ c = ']' then
      if st.needIndent then { st with dst := st.dst ++ [c], needIndent := false }
      else { st with dst := appendNewline st.dst pre indent (st.depth - 1) ++ [c],
                     depth := st.depth - 1 }
    else { st with dst := st.dst ++ [c] }

/-- The function `appendIndent(dst, src, prefix, indent)` with an empty `dst`. -/
def appendIndent (src pre indent : List Char) : List Char :=
  (src.foldl (appendIndent_step pre indent) ⟨[], false, 0, false, false⟩).dst

/-- The function `json.MarshalIndent(items, prefix, indent)`. -/
def MarshalIndent (enc : Encoders) (items : Option (List Record)) (pre indent : String) :
    Except error String :=
  match Marshal enc items with
  | .error err => .error err
  | .ok b => .ok (String.mk (appendIndent b pre.toList indent.toList))

end json

namespace service

/-- What the program finds around it: the outcome of `parseConfig()`, the outcome of
`os.ReadFile` on a path together with the XML found in the bytes read, the
function `filepath.Dir`, the outcomes of `os.MkdirAll` and `os.WriteFile`, and the
scalar encoders of `encoding/json`. -/
structure Env where
  parseConfig : Except error Config
  ReadFile : String → Except error (List xml.Node)
  Dir : String → String
  MkdirAll : String → Option error
  WriteFile : String → String → Option error
  enc : json.Encoders

/-- A call that acts on the file system. -/
inductive Effect
  | MkdirAll (dir : String)
  | WriteFile (path : String) (data : String)
  deriving DecidableEq, Repr

/-- The function `parseXML(path)`; the slice returned is `none` when nil. -/
def parseXML (env : Env) (path : String) : Option (List Record) × Option error :=
  match env.ReadFile path with
  | .error err => (none, some (error.wrap ("read xml file " ++ path) err))
  | .ok xmlData =>
    let r := xml.Decode xmlData ⟨none⟩
    match r.2 with
    | some err => (none, some (error.wrap "decode xml" err))
    | none => (r.1.Items, none)

/-- The comparison handed to `sort.Slice` in `saveAsJSON`:
`items[i].Value > items[j].Value`. -/
def saveAsJSON_less (x y : Record) : Bool := float64.gt x.Value y.Value

/-- The slice `items` after `sort.Slice(items, ...)` in `saveAsJSON`; the nil slice
stays nil. -/
def saveAsJSON_sorted (items : Option (List Record)) : Option (List Record) :=
  items.map (sort.Slice saveAsJSON_less)

/-- The function `saveAsJSON(items, path)`: the file-system calls made, in order,
and the error returned. -/
def saveAsJSON (env : Env) (items : Option (List Record)) (path : String) :
    List Effect × Option error :=
  let items := saveAsJSON_sorted items
  let dir := env.Dir path
  match env.MkdirAll dir with
  | some err => ([Effect.MkdirAll dir], some (error.wrap ("create dir " ++ dir) err))
  | none =>
    match json.MarshalIndent env.enc items "" "  " with
    | .error err => ([Effect.MkdirAll dir], some (error.wrap "marshal json" err))
    | .ok jsonData =>
      match env.WriteFile path jsonData with
      | some err =>
        ([Effect.MkdirAll dir, Effect.WriteFile path jsonData],
          some (error.wrap ("write file " ++ path) err))
      | none => ([Effect.MkdirAll dir, Effect.WriteFile path jsonData], none)

/-- The function `main()`: the file-system calls made, and the value it panics
with, if any. -/
def main (env : Env) : List Effect × Option error :=
  match env.parseConfig with
  | .error err => ([], some err)
  | .ok cfg =>
    match parseXML env cfg.InputFile with
    | (_, some err) => ([], some err)
    | (records, none) => saveAsJSON env records cfg.OutputFile

end service

namespace float64

/-- Significand of a finite value, the hidden bit included. -/
def significand (x : float64) : Nat :=
  if x.exponent = 0 then x.fraction else 2 ^ 52 + x.fraction

/-- Binary exponent of the last significand bit of a finite value, which denotes
`± significand * 2 ^ exp2`. -/
def exp2 (x : float64) : Int :=
  if x.exponent = 0 then -1074 else (x.exponent : Int) - 1075

end float64

namespace Spec

/-- The spec's normalisation step in its own words: every comma replaced by a
period. -/
def commasToPeriods (s : String) : String :=
  String.mk (s.toList.map (fun c => if c = ',' then '.' else c))

/-- A decimal digit. -/
def isDigit (c : Char) : Bool := decide ('0' ≤ c ∧ c ≤ '9')

/-- Drops one leading sign, if there is one. -/
def dropSign : List Char → List Char
  | [] => []
  | c :: cs => if c = '+' ∨ c = '-' then cs else c :: cs

/-- An ASCII capital letter turned into the small letter, any other character left
as it is. -/
def toLowerASCII (c : Char) : Char :=
  if 'A'.toNat ≤ c.toNat ∧ c.toNat ≤ 'Z'.toNat then Char.ofNat (c.toNat + ('a'.toNat - 'A'.toNat))
  else c

/-- A spelling of an infinity or of NaN: in any letter case, `inf` or `infinity` with
an optional sign, or `nan`. -/
def isSpecialSpelling (s : String) : Bool :=
  decide (s.toList.map toLowerASCII ∈ ["inf".toList, "+inf".toList, "-inf".toList,
    "infinity".toList, "+infinity".toList, "-infinity".toList, "nan".toList])

/-- The exponent part of a decimal numeral: nothing, or `e` or `E`, an optional sign
and at least one digit. -/
def isExponentPart : List Char → Bool
  | [] => true
  | c :: cs => (c = 'e' ∨ c = 'E') && dropSign cs ≠ [] && (dropSign cs).all isDigit

/-- What follows a mantissa: the digits before the period, the period if there is
one, and the digits after it being passed over; `digit` tells what a digit is. -/
def afterMantissa (digit : Char → Bool) (l : List Char) : List Char :=
  match l.dropWhile digit with
  | '.' :: rest => rest.dropWhile digit
  | rest => rest

/-- Whether the mantissa has a digit, before or after the period. -/
def mantissaHasDigit (digit : Char → Bool) (l : List Char) : Bool :=
  match l.dropWhile digit with
  | '.' :: rest => !(l.takeWhile digit).isEmpty || !(rest.takeWhile digit).isEmpty
  | _ => !(l.takeWhile digit).isEmpty

/-- The spec's "valid decimal numeral": an optional sign, decimal digits with at most
one period among them and at least one digit, and an optional exponent part. -/
def isDecimalNumeral (s : String) : Bool :=
  mantissaHasDigit isDigit (dropSign s.toList)
    && isExponentPart (afterMantissa isDigit (dropSign s.toList))

/-- A hexadecimal digit. -/
def isHexDigit (c : Char) : Bool :=
  isDigit c || decide ('a'.toNat ≤ c.toNat ∧ c.toNat ≤ 'f'.toNat)
    || decide ('A'.toNat ≤ c.toNat ∧ c.toNat ≤ 'F'.toNat)

/-- The exponent of a hexadecimal floating-point literal, which is not optional: `p`
or `P`, an optional sign and at least one decimal digit. -/
def isBinaryExponent : List Char → Bool
  | [] => false
  | c :: cs => (c = 'p' ∨ c = 'P') && dropSign cs ≠ [] && (dropSign cs).all isDigit

/-- A hexadecimal floating-point literal: an optional sign, `0x` or `0X`,
hexadecimal digits with at most one period among them and at least one digit, and
a binary exponent. -/
def isHexFloat (s : String) : Bool :=
  match dropSign s.toList with
  | c0 :: c1 :: m =>
    c0 = '0' && (c1 = 'x' || c1 = 'X') && mantissaHasDigit isHexDigit m
      && isBinaryExponent (afterMantissa isHexDigit m)
  | _ => false

/-- The characters with the underscores left out. -/
def dropUnderscores (l : List Char) : List Char := l.filter (fun c => c ≠ '_')

/-- The string with its underscores left out. -/
def withoutUnderscores (s : String) : String := String.mk (dropUnderscores s.toList)

/-- Whether every underscore of the list has a digit right before it and a digit
right after it; `prev` tells whether what stands before the list counts as a
digit. -/
def separatesDigits (digit : Char → Bool) : Bool → List Char → Bool
  | _, [] => true
  | prev, c :: cs =>
    if c = '_' then
      prev && (match cs with
        | d :: _ => digit d
        | [] => false) && separatesDigits digit false cs
    else separatesDigits digit (digit c) cs

/-- Whether the underscores of an unsigned numeral separate digits: each underscore
stands between two digits, or between a base prefix (`0b`, `0o`, `0x`, in either
letter case) and a digit; after `0x` the digits are hexadecimal. -/
def unsignedSeparatesDigits (l : List Char) : Bool :=
  match l with
  | c0 :: c1 :: cs =>
    if c0 = '0' ∧ (c1 = 'x' ∨ c1 = 'X') then separatesDigits isHexDigit true cs
    else if c0 = '0' ∧ (c1 = 'b' ∨ c1 = 'B' ∨ c1 = 'o' ∨ c1 = 'O') then
      separatesDigits isDigit true cs
    else separatesDigits isDigit false (c0 :: c1 :: cs)
  | l => separatesDigits isDigit false l

/-- Whether the underscores of the string separate digits, an optional sign set
aside. -/
def underscoresSeparateDigits (s : String) : Bool :=
  unsignedSeparatesDigits (dropSign s.toList)

/-- A decimal numeral or hexadecimal floating-point literal written with underscores
that separate digits. -/
def isUnderscored (s : String) : Bool :=
  decide ('_' ∈ s.toList) && underscoresSeparateDigits s
    && (isDecimalNumeral (withoutUnderscores s) || isHexFloat (withoutUnderscores s))

/-- The value a spelling of an infinity or of NaN stands for: NaN for `nan`, else the
infinity with the sign written. -/
def specialValue (s : String) : float64 :=
  if s.toList.map toLowerASCII = "nan".toList then math.NaN
  else math.Inf (decide (s.toList.head? = some '-'))

/-- Stability in the spec's words: the records whose value equals a given value come
in the output in the same relative order as in the input, whatever the value. -/
def sameOrderOfEquals (input output : List service.Record) : Prop :=
  ∀ v : float64, output.filter (fun r => float64.eq r.Value v)
    = input.filter (fun r => float64.eq r.Value v)

end Spec

namespace Example

open service

/-- Decimal digits of an integer, as `strconv.AppendInt(b, v, 10)` writes them. -/
def formatInt (v : Int) : List Char :=
  match v with
  | Int.ofNat n => Nat.toDigits 10 n
  | Int.negSucc n => '-' :: Nat.toDigits 10 (n + 1)

/-- Scalar encoders for the examples: integers in decimal, strings between quotes
(the examples hold no character that needs escaping), and the number texts
`75.4148` and `90.1936` of the two rates of the examples; the examples encode no
other value, for which `0` stands in. -/
def enc : json.Encoders where
  int := formatInt
  string := fun s => '"' :: s.toList ++ ['"']
  float := fun f =>
    if f.bits = 0x4052DA8C154C985F then "75.4148".toList
    else if f.bits = 0x40568C63F141205C then "90.1936".toList
    else "0".toList

/-- An environment for the examples: the configuration names `input.xml` and
`out/output.json`, every read delivers the document `doc`, and creating the
directory and writing the file succeed. -/
def env (doc : List xml.Node) (enc : json.Encoders) : Env where
  parseConfig := .ok ⟨"input.xml", "out/output.json"⟩
  ReadFile := fun _ => .ok doc
  Dir := fun _ => "out"
  MkdirAll := fun _ => none
  WriteFile := fun _ _ => none
  enc := enc

/-- One `Valute` element with the three children in the usual order. -/
def valute (numCode : Int) (charCode value : String) : xml.Node :=
  xml.Node.Valute [xml.Child.NumCode (.ok numCode), xml.Child.CharCode (.ok charCode),
    xml.Child.Value (.ok value)]

/-- A record with the number `i` and the rate `2.0` when `i = 1`, else `1.0`. -/
def rate (i : Nat) : Record :=
  ⟨i, "", if i = 1 then ⟨0x4000000000000000⟩ else ⟨0x3FF0000000000000⟩⟩

/-- Thirteen records in the order of their numbers; all rates are `1.0` but that of
record `1`, which is `2.0`. -/
def thirteen : List Record :=
  [rate 0, rate 1, rate 2, rate 3, rate 4, rate 5, rate 6, rate 7, rate 8, rate 9, rate 10,
    rate 11, rate 12]

end Example

namespace sort

variable {α : Type}

/-- Key of the element at index `i`, and `0` past the end. -/
def kAt (key : α → Int) (d : List α) (i : Nat) : Int :=
  match d[i]? with
  | some x => key x
  | none => 0

/-- On the elements of `d` the comparison `lt` is the strict order of the keys. -/
def Keyed (lt : α → α → Bool) (key : α → Int) (d : List α) : Prop :=
  ∀ x ∈ d, ∀ y ∈ d, (lt x y = true ↔ key x < key y)

/-- The list `d'` has the elements of `d`, unmoved outside the index range
`a ≤ i < b`, and inside the range elements that `d` has inside the range. -/
structure Within (a b : Nat) (d d' : List α) : Prop where
  len : d'.length = d.length
  out : ∀ k, k < a ∨ b ≤ k → d'[k]? = d[k]?
  img : ∀ i, a ≤ i → i < b → ∃ j, a ≤ j ∧ j < b ∧ d'[i]? = d[j]?

/-- The keys at the indices `a ≤ i < b` do not decrease. -/
def SortedOn (key : α → Int) (d : List α) (a b : Nat) : Prop :=
  ∀ i j, a ≤ i → i ≤ j → j < b → kAt key d i ≤ kAt key d j

/-- What `pdqsort_func` relies on at the left end of the range it sorts: the range
starts the slice, or the element just before it is not above any element in it. -/
def LowerBound (key : α → Int) (d : List α) (a b : Nat) : Prop :=
  a = 0 ∨ ∀ k, a ≤ k → k < b → kAt key d (a - 1) ≤ kAt key d k

/-- Heap order on the nodes `lo ≤ i` of the heap laid out at `first .. first + hi`:
no child has a key above its parent. -/
def HeapFrom (key : α → Int) (d : List α) (first lo hi : Nat) : Prop :=
  ∀ i c, lo ≤ i → (c = 2 * i + 1 ∨ c = 2 * i + 2) → c < hi →
    kAt key d (first + c) ≤ kAt key d (first + i)

/-- Heap order on the nodes `lo ≤ i` but at the node `root`, whose children are
instead not above the parent of `root`. -/
def HeapExcept (key : α → Int) (d : List α) (first lo hi root : Nat) : Prop :=
  (∀ i c, lo ≤ i → i ≠ root → (c = 2 * i + 1 ∨ c = 2 * i + 2) → c < hi →
    kAt key d (first + c) ≤ kAt key d (first + i)) ∧
  (∀ p c, lo ≤ p → (root = 2 * p + 1 ∨ root = 2 * p + 2) →
    (c = 2 * root + 1 ∨ c = 2 * root + 2) → c < hi →
    kAt key d (first + c) ≤ kAt key d (first + p))

end sort

namespace Spec

open service

/-- A number text as the encoders of `encoding/json` write it: made of digits,
signs, a period and an exponent letter. -/
def isNumberText (l : List Char) : Bool :=
  l.all (fun c => decide (c ∈ "0123456789+-.eE".toList))

/-- Whether the characters after an opening quote (`escaped` telling that the last
one was an unconsumed backslash) end with the first quote not preceded by a
backslash. -/
def endsAtQuote : List Char → Bool → Bool
  | [], _ => false
  | _ :: cs, true => endsAtQuote cs false
  | c :: cs, false =>
    if c = '\\' then endsAtQuote cs true
    else if c = '"' then cs.isEmpty
    else endsAtQuote cs false

/-- A quoted string as `encoding/json` writes it: an opening quote, and no quote
without a backslash before it but the last character. -/
def isStringText : List Char → Bool
  | '"' :: cs => endsAtQuote cs false
  | _ => false

/-- The lines of one record in the output: the object at one level of indentation
(two spaces) and its three members, `num_code`, `char_code` and `value` in this
order, at two levels. -/
def objectLines (enc : json.Encoders) (r : Record) : List Char :=
  "  \x7b\n".toList
    ++ "    \"num_code\": ".toList ++ enc.int r.ID ++ ",\n".toList
    ++ "    \"char_code\": ".toList ++ enc.string r.Name ++ ",\n".toList
    ++ "    \"value\": ".toList ++ enc.float r.Value ++ "\n".toList
    ++ "  \x7d".toList

/-- The lines of the records, a comma after every object but the last. -/
def arrayLines (enc : json.Encoders) : List Record → List Char
  | [] => []
  | [r] => objectLines enc r
  | r :: rs => objectLines enc r ++ ",\n".toList ++ arrayLines enc rs

/-- The output text for a non-empty sequence of records: the opening bracket on a
line, the objects, and the closing bracket on a line. -/
def indentedArray (enc : json.Encoders) (rs : List Record) : String :=
  String.mk ("[\n".toList ++ arrayLines enc rs ++ "\n]".toList)

end Spec

open service

theorem replaceAll_loop_comma (n : Nat) (l : List Char) (h : l.length ≤ n) :
    strings.replaceAll_loop [','] ['.'] n l = l.map (fun c => if c = ',' then '.' else c) := by
  induction n generalizing l with
  | zero =>
    have : l = [] := List.length_eq_zero.mp (by omega)
    subst this; simp [strings.replaceAll_loop]
  | succ n ih =>
    cases l with
    | nil => simp [strings.replaceAll_loop]
    | cons c cs =>
      have hlen : cs.length ≤ n := by simpa using h
      by_cases hc : c = ','
      · subst hc; simp [strings.replaceAll_loop, ih cs hlen]
      · simp [strings.replaceAll_loop, hc, ih cs hlen]
        intro h1; exact absurd h1.symm hc

theorem ReplaceAll_comma (s : String) :
    strings.ReplaceAll s "," "." = Spec.commasToPeriods s := by
  unfold strings.ReplaceAll Spec.commasToPeriods
  congr 1
  exact replaceAll_loop_comma s.length s.toList (le_of_eq rfl)

theorem UnmarshalXML_of_none (f : FloatValue) (s : String)
    (h : (strconv.ParseFloat (Spec.commasToPeriods s)).2 = none) :
    FloatValue.UnmarshalXML f (.ok s) = ((strconv.ParseFloat (Spec.commasToPeriods s)).1, none) := by
  simp only [FloatValue.UnmarshalXML, ReplaceAll_comma]
  split
  · rename_i err he; rw [h] at he; cases he
  · rfl

theorem UnmarshalXML_of_some (f : FloatValue) (s : String) (e : strconv.NumError)
    (h : (strconv.ParseFloat (Spec.commasToPeriods s)).2 = some e) :
    FloatValue.UnmarshalXML f (.ok s) =
      (f, some (error.wrap "parse float in value" (error.NumError e))) := by
  simp only [FloatValue.UnmarshalXML, ReplaceAll_comma]
  split
  · rename_i err he; rw [h] at he; cases he; rfl
  · rename_i he; rw [h] at he; cases he

theorem UnmarshalXML_success (f v : FloatValue) (s : String)
    (h : FloatValue.UnmarshalXML f (.ok s) = (v, none)) :
    strconv.ParseFloat (Spec.commasToPeriods s) = (v, none) := by
  cases hr : (strconv.ParseFloat (Spec.commasToPeriods s)).2 with
  | none =>
    rw [UnmarshalXML_of_none f s hr] at h
    have h1 := congrArg Prod.fst h
    simp only at h1
    exact Prod.ext h1 hr
  | some e =>
    rw [UnmarshalXML_of_some f s e hr] at h
    simp at h

theorem UnmarshalXML_failure (f : FloatValue) (s : String)
    (h : (strconv.ParseFloat (Spec.commasToPeriods s)).2 ≠ none) :
    (FloatValue.UnmarshalXML f (.ok s)).1 = f ∧ (FloatValue.UnmarshalXML f (.ok s)).2 ≠ none := by
  cases hr : (strconv.ParseFloat (Spec.commasToPeriods s)).2 with
  | none => exact absurd hr h
  | some e => rw [UnmarshalXML_of_some f s e hr]; simp

/-- Whether `UnmarshalXML` fails does not depend on the value held before. -/
theorem UnmarshalXML_err_indep (f g : FloatValue) (elem : Except error String) :
    ((FloatValue.UnmarshalXML f elem).2 = none ↔ (FloatValue.UnmarshalXML g elem).2 = none) := by
  cases elem with
  | error e => simp [FloatValue.UnmarshalXML]
  | ok s =>
    cases hr : (strconv.ParseFloat (Spec.commasToPeriods s)).2 with
    | none => rw [UnmarshalXML_of_none f s hr, UnmarshalXML_of_none g s hr]
    | some e => rw [UnmarshalXML_of_some f s e hr, UnmarshalXML_of_some g s e hr]

theorem unmarshalRecord_bad_value (cs : List xml.Child) (elem : Except error String)
    (hchild : xml.Child.Value elem ∈ cs)
    (hfail : (FloatValue.UnmarshalXML ⟨0⟩ elem).2 ≠ none) (r : Record) :
    ∃ err, xml.unmarshalRecord cs r = .error err := by
  induction cs generalizing r with
  | nil => simp at hchild
  | cons c cs ih =>
    cases c with
    | NumCode v =>
      have hmem : xml.Child.Value elem ∈ cs := by simpa using hchild
      cases v with
      | error e => exact ⟨e, by simp [xml.unmarshalRecord]⟩
      | ok v => simpa [xml.unmarshalRecord] using ih hmem _
    | CharCode v =>
      have hmem : xml.Child.Value elem ∈ cs := by simpa using hchild
      cases v with
      | error e => exact ⟨e, by simp [xml.unmarshalRecord]⟩
      | ok v => simpa [xml.unmarshalRecord] using ih hmem _
    | broken e => exact ⟨e, by simp [xml.unmarshalRecord]⟩
    | Value el =>
      simp only [xml.unmarshalRecord]
      cases hu : FloatValue.UnmarshalXML r.Value el with
      | mk v oe =>
        cases oe with
        | some e => exact ⟨e, rfl⟩
        | none =>
          have hne : el ≠ elem := by
            intro heq
            subst heq
            have h2 : (FloatValue.UnmarshalXML r.Value el).2 = none := by rw [hu]
            exact hfail ((UnmarshalXML_err_indep _ _ _).mp h2)
          have hmem : xml.Child.Value elem ∈ cs := by
            rcases List.mem_cons.mp hchild with h | h
            · exact absurd (xml.Child.Value.inj h).symm hne
            · exact h
          exact ih hmem _

theorem Decode_bad_value (doc : List xml.Node) (cs : List xml.Child)
    (elem : Except error String) (hnode : xml.Node.Valute cs ∈ doc)
    (hchild : xml.Child.Value elem ∈ cs)
    (hfail : (FloatValue.UnmarshalXML ⟨0⟩ elem).2 ≠ none) (raw : RawRecords) :
    ∃ err, (xml.Decode doc raw).2 = some err := by
  induction doc generalizing raw with
  | nil => simp at hnode
  | cons n ns ih =>
    cases n with
    | broken e => exact ⟨e, by simp [xml.Decode]⟩
    | Valute cs' =>
      simp only [xml.Decode]
      cases hu : xml.unmarshalRecord cs' ⟨0, "", ⟨0⟩⟩ with
      | error e => exact ⟨e, rfl⟩
      | ok r =>
        have hne : cs' ≠ cs := by
          intro heq
          subst heq
          obtain ⟨err, herr⟩ := unmarshalRecord_bad_value cs' elem hchild hfail ⟨0, "", ⟨0⟩⟩
          rw [hu] at herr
          cases herr
        have hmem : xml.Node.Valute cs ∈ ns := by
          rcases List.mem_cons.mp hnode with h | h
          · exact absurd (xml.Node.Valute.inj h).symm hne
          · exact h
        exact ih hmem _

theorem parseXML_bad_value (env : Env) (path : String) (doc : List xml.Node)
    (cs : List xml.Child) (elem : Except error String)
    (hread : env.ReadFile path = .ok doc)
    (hnode : xml.Node.Valute cs ∈ doc) (hchild : xml.Child.Value elem ∈ cs)
    (hfail : (FloatValue.UnmarshalXML ⟨0⟩ elem).2 ≠ none) :
    ∃ err, parseXML env path = (none, some err) := by
  obtain ⟨err, herr⟩ := Decode_bad_value doc cs elem hnode hchild hfail ⟨none⟩
  refine ⟨error.wrap "decode xml" err, ?_⟩
  simp only [parseXML, hread]
  split
  · rename_i e he; rw [herr] at he; cases he; rfl
  · rename_i he; rw [herr] at he; cases he

theorem main_bad_value (env : Env) (cfg : Config) (doc : List xml.Node)
    (cs : List xml.Child) (elem : Except error String)
    (hcfg : env.parseConfig = .ok cfg)
    (hread : env.ReadFile cfg.InputFile = .ok doc)
    (hnode : xml.Node.Valute cs ∈ doc) (hchild : xml.Child.Value elem ∈ cs)
    (hfail : (FloatValue.UnmarshalXML ⟨0⟩ elem).2 ≠ none) :
    ∃ err, service.main env = ([], some err) := by
  obtain ⟨err, herr⟩ := parseXML_bad_value env cfg.InputFile doc cs elem hread hnode hchild hfail
  refine ⟨err, ?_⟩
  simp only [service.main, hcfg, herr]

theorem isFinite_of_bits_lt (neg : Bool) (m : Nat) (h : m < 0x7FF0000000000000) :
    float64.isFinite ⟨(if neg then 2 ^ 63 else 0) + m⟩ = true := by
  cases neg
  · simp only [float64.isFinite, math.IsInf, math.IsNaN, float64.exponent, float64.fraction]
    norm_num
    omega
  · simp only [float64.isFinite, math.IsInf, math.IsNaN, float64.exponent, float64.fraction]
    norm_num
    omega

theorem isFinite_zero (neg : Bool) : float64.isFinite ⟨if neg then 2 ^ 63 else 0⟩ = true := by
  cases neg <;> decide

theorem packFloat64_finite (neg : Bool) (m : Nat) (h : (strconv.packFloat64 neg m).2 = false) :
    float64.isFinite (strconv.packFloat64 neg m).1 = true := by
  unfold strconv.packFloat64 at h ⊢
  split
  · rename_i hov; rw [if_pos hov] at h; simp at h
  · rename_i hov; exact isFinite_of_bits_lt neg m (by omega)

theorem roundFloat64_finite (neg : Bool) (num den : Nat)
    (h : (strconv.roundFloat64 neg num den).2 = false) :
    float64.isFinite (strconv.roundFloat64 neg num den).1 = true := by
  unfold strconv.roundFloat64 at h ⊢
  split
  · exact isFinite_zero neg
  · rename_i hz
    rw [if_neg hz] at h
    exact packFloat64_finite _ _ h

theorem decimalToFloat64_finite (neg : Bool) (mantissa nd : Nat) (dp : Int)
    (h : (strconv.decimalToFloat64 neg mantissa nd dp).2 = false) :
    float64.isFinite (strconv.decimalToFloat64 neg mantissa nd dp).1 = true := by
  unfold strconv.decimalToFloat64 at h ⊢
  simp only at h ⊢
  split
  · exact isFinite_zero neg
  · rename_i h1
    rw [if_neg h1] at h
    split
    · rename_i h2; rw [if_pos h2] at h; simp at h
    · rename_i h2
      rw [if_neg h2] at h
      split
      · exact isFinite_zero neg
      · rename_i h3
        rw [if_neg h3] at h
        split
        · rename_i h4; rw [if_pos h4] at h; exact roundFloat64_finite _ _ _ h
        · rename_i h4; rw [if_neg h4] at h; exact roundFloat64_finite _ _ _ h

theorem atofHex_finite (neg : Bool) (mantissa nd : Nat) (dp : Int)
    (h : (strconv.atofHex neg mantissa nd dp).2 = false) :
    float64.isFinite (strconv.atofHex neg mantissa nd dp).1 = true := by
  unfold strconv.atofHex at h ⊢
  simp only at h ⊢
  split
  · rename_i h4; rw [if_pos h4] at h; exact roundFloat64_finite _ _ _ h
  · rename_i h4; rw [if_neg h4] at h; exact roundFloat64_finite _ _ _ h

/-- A successful `atof64` on a string that is no infinity or NaN spelling gives a
finite value. -/
theorem atof64_finite (s : List Char) (hs : strconv.special s = none)
    (h : (strconv.atof64 s).2.2 = none) :
    float64.isFinite (strconv.atof64 s).1 = true := by
  unfold strconv.atof64 at h ⊢
  rw [hs] at h ⊢
  simp only at h ⊢
  split
  · rename_i hok; rw [if_pos hok] at h; simp at h
  · rename_i hok
    rw [if_neg hok] at h
    simp only at h ⊢
    split
    · rename_i hhex
      rw [if_pos hhex] at h
      apply atofHex_finite
      by_contra hc
      simp [hc] at h
    · rename_i hhex
      rw [if_neg hhex] at h
      apply decimalToFloat64_finite
      by_contra hc
      simp [hc] at h

theorem ParseFloat_finite (s : String) (v : float64) (hs : strconv.special s.toList = none)
    (h : strconv.ParseFloat s = (v, none)) : float64.isFinite v = true := by
  unfold strconv.ParseFloat at h
  simp only at h
  split at h
  · simp at h
  · have h1 := congrArg Prod.fst h
    have h2 := congrArg Prod.snd h
    simp only [Option.map_eq_none'] at h1 h2
    rw [← h1]
    exact atof64_finite _ hs h2

theorem ParseFloat_special (s : String) (v w : float64) (n : Nat)
    (hs : strconv.special s.toList = some (w, n))
    (h : strconv.ParseFloat s = (v, none)) : v = w := by
  unfold strconv.ParseFloat at h
  simp only at h
  split at h
  · simp at h
  · have h1 := congrArg Prod.fst h
    simp only [strconv.atof64, hs] at h1
    exact h1.symm

theorem ite_some_fst {β γ : Type} (c : Prop) [Decidable c] (x w : β) (y n : γ)
    (h : (if c then some (x, y) else none) = some (w, n)) : x = w := by
  split at h
  · simp only [Option.some.injEq, Prod.mk.injEq] at h; exact h.1
  · cases h

theorem special_inf_not_finite (s : List Char) (neg : Bool) (k : Nat) (w : float64) (n : Nat)
    (h : strconv.special_inf s neg k = some (w, n)) : float64.isFinite w = false := by
  unfold strconv.special_inf at h
  simp only at h
  have hw := ite_some_fst _ _ _ _ _ h
  rw [← hw]
  cases neg <;> decide

theorem special_not_finite (s : List Char) (w : float64) (n : Nat)
    (h : strconv.special s = some (w, n)) : float64.isFinite w = false := by
  unfold strconv.special at h
  split at h
  · cases h
  · split at h
    · exact special_inf_not_finite _ _ _ _ _ h
    · split at h
      · exact special_inf_not_finite _ _ _ _ _ h
      · split at h
        · split at h
          · simp only [Option.some.injEq, Prod.mk.injEq] at h
            rw [← h.1]; decide
          · cases h
        · cases h

namespace sort

variable {α : Type}

theorem cons_set_perm (a y : α) (t : List α) (k : Nat) (h : t[k]? = some y) :
    (y :: t.set k a).Perm (a :: t) := by
  induction t generalizing k with
  | nil => simp at h
  | cons b t ih =>
    cases k with
    | zero =>
      simp only [List.getElem?_cons_zero, Option.some.injEq] at h
      subst h
      exact List.Perm.swap _ _ _
    | succ k =>
      simp only [List.getElem?_cons_succ] at h
      simp only [List.set_cons_succ]
      exact (List.Perm.swap _ _ _).trans (((ih k h).cons b).trans (List.Perm.swap _ _ _))

theorem set_set_perm_of_get (d : List α) (i j : Nat) (x y : α)
    (hi : d[i]? = some x) (hj : d[j]? = some y) : ((d.set i y).set j x).Perm d := by
  induction d generalizing i j with
  | nil => simp at hi
  | cons a t ih =>
    cases i with
    | zero =>
      simp only [List.getElem?_cons_zero, Option.some.injEq] at hi
      subst hi
      cases j with
      | zero =>
        simp only [List.getElem?_cons_zero, Option.some.injEq] at hj
        subst hj
        simp
      | succ j =>
        simp only [List.getElem?_cons_succ] at hj
        simp only [List.set_cons_zero, List.set_cons_succ]
        exact cons_set_perm _ _ _ _ hj
    | succ i =>
      simp only [List.getElem?_cons_succ] at hi
      cases j with
      | zero =>
        simp only [List.getElem?_cons_zero, Option.some.injEq] at hj
        subst hj
        simp only [List.set_cons_zero, List.set_cons_succ]
        exact cons_set_perm _ _ _ _ hi
      | succ j =>
        simp only [List.getElem?_cons_succ] at hj
        simp only [List.set_cons_succ]
        exact (ih i j hi hj).cons a

theorem ite_perm (c : Prop) [Decidable c] (x y d : List α) (hx : x.Perm d) (hy : y.Perm d) :
    (if c then x else y).Perm d := by
  split
  · exact hx
  · exact hy

theorem Swap_perm (d : List α) (i j : Nat) : (Swap d i j).Perm d := by
  unfold Swap
  split
  · rename_i x y hx hy
    exact set_set_perm_of_get d i j x y hx hy
  · exact List.Perm.refl d

theorem insertionSort_inner_perm (lt : α → α → Bool) (a j : Nat) (d : List α) :
    (insertionSort_inner lt a j d).Perm d := by
  induction j generalizing d with
  | zero => exact List.Perm.refl d
  | succ j ih =>
    unfold insertionSort_inner
    split
    · exact (ih _).trans (Swap_perm d _ _)
    · exact List.Perm.refl d

theorem insertionSort_outer_perm (lt : α → α → Bool) (a b n i : Nat) (d : List α) :
    (insertionSort_outer lt a b n i d).Perm d := by
  induction n generalizing i d with
  | zero => exact List.Perm.refl d
  | succ n ih =>
    unfold insertionSort_outer
    split
    · exact (ih _ _).trans (insertionSort_inner_perm lt a i d)
    · exact List.Perm.refl d

theorem insertionSort_func_perm (lt : α → α → Bool) (d : List α) (a b : Nat) :
    (insertionSort_func lt d a b).Perm d :=
  insertionSort_outer_perm lt a b _ _ d

theorem siftDown_loop_perm (lt : α → α → Bool) (hi first n root : Nat) (d : List α) :
    (siftDown_loop lt hi first n root d).Perm d := by
  induction n generalizing root d with
  | zero => exact List.Perm.refl d
  | succ n ih =>
    unfold siftDown_loop
    simp only
    split
    · exact List.Perm.refl d
    · exact ite_perm _ _ _ _ (List.Perm.refl d) ((ih _ _).trans (Swap_perm d _ _))

theorem siftDown_func_perm (lt : α → α → Bool) (d : List α) (lo hi first : Nat) :
    (siftDown_func lt d lo hi first).Perm d :=
  siftDown_loop_perm lt hi first hi lo d

theorem heapSort_build_perm (lt : α → α → Bool) (hi first i : Nat) (d : List α) :
    (heapSort_build lt hi first i d).Perm d := by
  induction i generalizing d with
  | zero => exact List.Perm.refl d
  | succ i ih =>
    unfold heapSort_build
    exact (ih _).trans (siftDown_func_perm lt d i hi first)

theorem heapSort_pop_perm (lt : α → α → Bool) (lo first i : Nat) (d : List α) :
    (heapSort_pop lt lo first i d).Perm d := by
  induction i generalizing d with
  | zero => exact List.Perm.refl d
  | succ i ih =>
    unfold heapSort_pop
    exact (ih _).trans ((siftDown_func_perm lt _ lo i first).trans (Swap_perm d _ _))

theorem heapSort_func_perm (lt : α → α → Bool) (d : List α) (a b : Nat) :
    (heapSort_func lt d a b).Perm d := by
  unfold heapSort_func
  exact (heapSort_pop_perm lt _ _ _ _).trans (heapSort_build_perm lt _ _ _ d)

theorem partition_loop_perm (lt : α → α → Bool) (a n : Nat) (d : List α) (i j : Nat) :
    (partition_loop lt a n d i j).1.Perm d := by
  induction n generalizing d i j with
  | zero => exact List.Perm.refl d
  | succ n ih =>
    unfold partition_loop
    simp only
    split
    · exact List.Perm.refl d
    · exact (ih _ _ _).trans (Swap_perm d _ _)

theorem partition_func_perm (lt : α → α → Bool) (d : List α) (a b pivot : Nat) :
    (partition_func lt d a b pivot).1.Perm d := by
  unfold partition_func
  simp only
  split
  · exact (Swap_perm _ _ _).trans (Swap_perm d _ _)
  · exact (Swap_perm _ _ _).trans ((partition_loop_perm lt a _ _ _ _).trans
      ((Swap_perm _ _ _).trans (Swap_perm d _ _)))

theorem partitionEqual_loop_perm (lt : α → α → Bool) (a n : Nat) (d : List α) (i j : Nat) :
    (partitionEqual_loop lt a n d i j).1.Perm d := by
  induction n generalizing d i j with
  | zero => exact List.Perm.refl d
  | succ n ih =>
    unfold partitionEqual_loop
    simp only
    split
    · exact List.Perm.refl d
    · exact (ih _ _ _).trans (Swap_perm d _ _)

theorem partitionEqual_func_perm (lt : α → α → Bool) (d : List α) (a b pivot : Nat) :
    (partitionEqual_func lt d a b pivot).1.Perm d := by
  unfold partitionEqual_func
  exact (partitionEqual_loop_perm lt a _ _ _ _).trans (Swap_perm d _ _)

theorem shiftLeft_loop_perm (lt : α → α → Bool) (j : Nat) (d : List α) :
    (shiftLeft_loop lt j d).Perm d := by
  induction j generalizing d with
  | zero => exact List.Perm.refl d
  | succ j ih =>
    unfold shiftLeft_loop
    split
    · exact List.Perm.refl d
    · exact (ih _).trans (Swap_perm d _ _)

theorem shiftRight_loop_perm (lt : α → α → Bool) (b n j : Nat) (d : List α) :
    (shiftRight_loop lt b n j d).Perm d := by
  induction n generalizing j d with
  | zero => exact List.Perm.refl d
  | succ n ih =>
    unfold shiftRight_loop
    split
    · split
      · exact List.Perm.refl d
      · exact (ih _ _).trans (Swap_perm d _ _)
    · exact List.Perm.refl d

theorem partialInsertionSort_loop_perm (lt : α → α → Bool) (a b s i : Nat) (d : List α) :
    (partialInsertionSort_loop lt a b s i d).1.Perm d := by
  induction s generalizing i d with
  | zero => exact List.Perm.refl d
  | succ s ih =>
    unfold partialInsertionSort_loop
    simp only
    split
    · exact List.Perm.refl d
    · split
      · exact List.Perm.refl d
      · refine (ih _ _).trans ?_
        have h1 : ∀ (c : Prop) [Decidable c] (e : List α),
            (if c then shiftRight_loop lt b (b - (scanUp (fun k => !Less lt d k (k - 1)) (b - 1) (b - i) i + 1))
              (scanUp (fun k => !Less lt d k (k - 1)) (b - 1) (b - i) i + 1) e else e).Perm e := by
          intro c _ e
          split
          · exact shiftRight_loop_perm lt _ _ _ e
          · exact List.Perm.refl e
        refine (h1 _ _).trans ?_
        have h2 : ∀ (c : Prop) [Decidable c] (e : List α),
            (if c then shiftLeft_loop lt (scanUp (fun k => !Less lt d k (k - 1)) (b - 1) (b - i) i - 1) e
              else e).Perm e := by
          intro c _ e
          split
          · exact shiftLeft_loop_perm lt _ e
          · exact List.Perm.refl e
        exact (h2 _ _).trans (Swap_perm d _ _)

theorem partialInsertionSort_func_perm (lt : α → α → Bool) (d : List α) (a b : Nat) :
    (partialInsertionSort_func lt d a b).1.Perm d :=
  partialInsertionSort_loop_perm lt a b 5 (a + 1) d

theorem breakPatterns_loop_perm (a length modulus idx n i random : Nat) (d : List α) :
    (breakPatterns_loop a length modulus idx n i random d).Perm d := by
  induction n generalizing i random d with
  | zero => exact List.Perm.refl d
  | succ n ih =>
    unfold breakPatterns_loop
    exact (ih _ _ _).trans (Swap_perm d _ _)

theorem breakPatterns_func_perm (d : List α) (a b : Nat) :
    (breakPatterns_func d a b).Perm d := by
  unfold breakPatterns_func
  simp only
  split
  · exact breakPatterns_loop_perm _ _ _ _ _ _ _ d
  · exact List.Perm.refl d

theorem reverseRange_loop_perm (n i j : Nat) (d : List α) :
    (reverseRange_loop n i j d).Perm d := by
  induction n generalizing i j d with
  | zero => exact List.Perm.refl d
  | succ n ih =>
    unfold reverseRange_loop
    split
    · exact (ih _ _ _).trans (Swap_perm d _ _)
    · exact List.Perm.refl d

theorem reverseRange_func_perm (d : List α) (a b : Nat) :
    (reverseRange_func d a b).Perm d :=
  reverseRange_loop_perm _ _ _ d

theorem pdqsort_round_perm (lt : α → α → Bool) (d : List α) (a b limit : Nat)
    (wasBalanced wasPartitioned : Bool) :
    (pdqsort_round lt d a b limit wasBalanced wasPartitioned).data.Perm d := by
  have h1 : (pdqsort_break d a b limit wasBalanced).1.Perm d := by
    unfold pdqsort_break
    split
    · exact breakPatterns_func_perm d a b
    · exact List.Perm.refl d
  have h2 : ∀ e : List α, (pdqsort_pivot lt e a b).1.Perm e := by
    intro e
    unfold pdqsort_pivot
    simp only
    split
    · exact reverseRange_func_perm e a b
    · exact List.Perm.refl e
  have h3 : ∀ (e : List α) (h : sortedHint),
      (pdqsort_presorted lt e a b wasBalanced wasPartitioned h).1.Perm e := by
    intro e h
    unfold pdqsort_presorted
    split
    · exact partialInsertionSort_func_perm lt e a b
    · exact List.Perm.refl e
  exact (h3 _ _).trans ((h2 _).trans h1)

theorem pdqsort_loop_perm (lt : α → α → Bool) (n : Nat) (d : List α) (a b limit : Nat)
    (wasBalanced wasPartitioned : Bool) :
    (pdqsort_loop lt n d a b limit wasBalanced wasPartitioned).Perm d := by
  induction n generalizing d a b limit wasBalanced wasPartitioned with
  | zero => exact List.Perm.refl d
  | succ n ih =>
    unfold pdqsort_loop
    simp only
    have hr := pdqsort_round_perm lt d a b limit wasBalanced wasPartitioned
    generalize pdqsort_round lt d a b limit wasBalanced wasPartitioned = r at hr ⊢
    split
    · exact insertionSort_func_perm lt d a b
    · split
      · exact heapSort_func_perm lt d a b
      · split
        · exact hr
        · split
          · exact (ih _ _ _ _ _ _).trans ((partitionEqual_func_perm lt _ _ _ _).trans hr)
          · split
            · exact (ih _ _ _ _ _ _).trans ((ih _ _ _ _ _ _).trans
                ((partition_func_perm lt _ _ _ _).trans hr))
            · exact (ih _ _ _ _ _ _).trans ((ih _ _ _ _ _ _).trans
                ((partition_func_perm lt _ _ _ _).trans hr))

theorem Slice_perm (lt : α → α → Bool) (x : List α) : (Slice lt x).Perm x :=
  pdqsort_loop_perm lt _ x _ _ _ _ _

end sort

namespace sort

variable {α : Type}

theorem Swap_cons_succ (a : α) (t : List α) (i j : Nat) :
    Swap (a :: t) (i + 1) (j + 1) = a :: Swap t i j := by
  unfold Swap
  simp only [List.getElem?_cons_succ]
  cases t[i]? <;> cases t[j]? <;> simp

theorem Less_cons_succ (lt : α → α → Bool) (a : α) (t : List α) (i j : Nat) :
    Less lt (a :: t) (i + 1) (j + 1) = Less lt t i j := by
  unfold Less
  simp only [List.getElem?_cons_succ]

/-- Exchanging two neighbours of which at most one satisfies `p` leaves the
sublist of the elements satisfying `p` as it is. -/
theorem filter_Swap_adjacent (lt : α → α → Bool) (p : α → Bool)
    (hlt : ∀ x y, lt x y = true → ¬ (p x = true ∧ p y = true))
    (d : List α) (j : Nat) (h : Less lt d (j + 1) j = true) :
    (Swap d (j + 1) j).filter p = d.filter p := by
  induction d generalizing j with
  | nil => simp [Swap]
  | cons a t ih =>
    cases j with
    | zero =>
      cases t with
      | nil => simp [Less] at h
      | cons x t =>
        have hx : lt x a = true := by simpa [Less] using h
        have hp := hlt x a hx
        have hs : Swap (a :: x :: t) (0 + 1) 0 = x :: a :: t := by simp [Swap]
        rw [hs]
        cases hpx : p x <;> cases hpa : p a <;> simp [List.filter, hpx, hpa]
        exact absurd ⟨hpx, hpa⟩ hp
    | succ j =>
      rw [Less_cons_succ] at h
      rw [Swap_cons_succ]
      simp only [List.filter_cons, ih j h]

theorem insertionSort_inner_filter (lt : α → α → Bool) (p : α → Bool)
    (hlt : ∀ x y, lt x y = true → ¬ (p x = true ∧ p y = true))
    (a j : Nat) (d : List α) :
    (insertionSort_inner lt a j d).filter p = d.filter p := by
  induction j generalizing d with
  | zero => rfl
  | succ j ih =>
    unfold insertionSort_inner
    split
    · rename_i hc
      have hless : Less lt d (j + 1) j = true := by
        simp only [Bool.and_eq_true] at hc
        exact hc.2
      rw [ih, filter_Swap_adjacent lt p hlt d j hless]
    · rfl

theorem insertionSort_outer_filter (lt : α → α → Bool) (p : α → Bool)
    (hlt : ∀ x y, lt x y = true → ¬ (p x = true ∧ p y = true))
    (a b n i : Nat) (d : List α) :
    (insertionSort_outer lt a b n i d).filter p = d.filter p := by
  induction n generalizing i d with
  | zero => rfl
  | succ n ih =>
    unfold insertionSort_outer
    split
    · rw [ih, insertionSort_inner_filter lt p hlt]
    · rfl

theorem Slice_short (lt : α → α → Bool) (x : List α) (h : x.length ≤ 12) :
    Slice lt x = insertionSort_func lt x 0 x.length := by
  unfold Slice pdqsort_func
  simp only [Nat.sub_zero]
  unfold pdqsort_loop
  simp only [Nat.sub_zero, if_pos h]

theorem Slice_short_filter (lt : α → α → Bool) (p : α → Bool)
    (hlt : ∀ x y, lt x y = true → ¬ (p x = true ∧ p y = true))
    (x : List α) (h : x.length ≤ 12) :
    (Slice lt x).filter p = x.filter p := by
  rw [Slice_short lt x h]
  exact insertionSort_outer_filter lt p hlt _ _ _ _ x

end sort

theorem saveAsJSON_less_not_eq (v : float64) (x y : Record) (h : saveAsJSON_less x y = true) :
    ¬ (float64.eq x.Value v = true ∧ float64.eq y.Value v = true) := by
  intro ⟨hx, hy⟩
  simp only [saveAsJSON_less, float64.gt, float64.eq, Bool.and_eq_true, decide_eq_true_eq] at h hx hy
  omega

/-- C3: the slice that `saveAsJSON` hands to `json.MarshalIndent` is a permutation of
the slice it was given: the nil slice stays nil, and otherwise the length is the
same and every record occurs the same number of times; and what `saveAsJSON`
writes, the directory made, is the serialisation of that slice. -/
theorem C3_serialised_is_permutation :
    saveAsJSON_sorted none = none ∧
    ∀ items : List Record, ∃ out, saveAsJSON_sorted (some items) = some out ∧
      out.Perm items ∧ out.length = items.length ∧ (∀ r : Record, out.count r = items.count r) ∧
      ∀ (env : Env) (path data : String), env.MkdirAll (env.Dir path) = none →
        json.MarshalIndent env.enc (some out) "" "  " = .ok data →
        (saveAsJSON env (some items) path).1
          = [Effect.MkdirAll (env.Dir path), Effect.WriteFile path data] := by
  refine ⟨rfl, fun items => ⟨sort.Slice saveAsJSON_less items, rfl, ?_, ?_, ?_, ?_⟩⟩
  · exact sort.Slice_perm _ items
  · exact (sort.Slice_perm _ items).length_eq
  · intro r
    exact (sort.Slice_perm _ items).count_eq r
  · intro env path data hmk hm
    have hs : saveAsJSON_sorted (some items) = some (sort.Slice saveAsJSON_less items) := rfl
    unfold saveAsJSON
    simp only [hmk, hs, hm]
    cases env.WriteFile path data <;> rfl

/-- C8 (counterexample): of thirteen records, all but the second with the same rate,
`sort.Slice` moves record `6` in front of record `0`. -/
theorem C8_counterexample :
    sort.Slice saveAsJSON_less Example.thirteen
      = [Example.rate 1, Example.rate 6, Example.rate 2, Example.rate 3, Example.rate 4,
          Example.rate 5, Example.rate 0, Example.rate 7, Example.rate 8, Example.rate 9,
          Example.rate 10, Example.rate 11, Example.rate 12] ∧
    ¬ Spec.sameOrderOfEquals Example.thirteen (sort.Slice saveAsJSON_less Example.thirteen) := by
  have h : sort.Slice saveAsJSON_less Example.thirteen
      = [Example.rate 1, Example.rate 6, Example.rate 2, Example.rate 3, Example.rate 4,
          Example.rate 5, Example.rate 0, Example.rate 7, Example.rate 8, Example.rate 9,
          Example.rate 10, Example.rate 11, Example.rate 12] := by
    set_option maxRecDepth 100000 in decide
  refine ⟨h, fun hs => ?_⟩
  have h1 := hs ⟨0x3FF0000000000000⟩
  rw [h] at h1
  revert h1
  decide

/-- C8 (amended): on a slice of at most twelve records the sort of `saveAsJSON` is
stable: the records of equal value keep their relative order. -/
theorem C8_stable_up_to_twelve (items : List Record) (h : items.length ≤ 12) :
    Spec.sameOrderOfEquals items (sort.Slice saveAsJSON_less items) := by
  intro v
  exact sort.Slice_short_filter saveAsJSON_less _ (saveAsJSON_less_not_eq v) items h

theorem C8_stable_up_to_twelve_witness :
    Spec.sameOrderOfEquals [Example.rate 0, Example.rate 1, Example.rate 2]
      (sort.Slice saveAsJSON_less [Example.rate 0, Example.rate 1, Example.rate 2]) :=
  C8_stable_up_to_twelve [Example.rate 0, Example.rate 1, Example.rate 2] (by decide)

namespace sort

variable {α : Type}

theorem length_Swap (d : List α) (i j : Nat) : (Swap d i j).length = d.length := by
  unfold Swap
  split <;> simp

theorem getElem?_Swap (d : List α) (i j k : Nat) (hi : i < d.length) (hj : j < d.length) :
    (Swap d i j)[k]? = if k = j then d[i]? else if k = i then d[j]? else d[k]? := by
  unfold Swap
  have h1 : d[i]? = some d[i] := List.getElem?_eq_getElem hi
  have h2 : d[j]? = some d[j] := List.getElem?_eq_getElem hj
  rw [h1, h2]
  simp only [List.getElem?_set]
  by_cases hkj : k = j
  · subst hkj
    simp [hj]
  · have hjk : ¬ j = k := fun h => hkj h.symm
    simp only [hjk, if_false, hkj]
    by_cases hki : k = i
    · subst hki
      simp [hi]
    · have hik : ¬ i = k := fun h => hki h.symm
      simp [hik, hki]

theorem kAt_Swap (key : α → Int) (d : List α) (i j k : Nat) (hi : i < d.length)
    (hj : j < d.length) :
    kAt key (Swap d i j) k
      = if k = j then kAt key d i else if k = i then kAt key d j else kAt key d k := by
  unfold kAt
  rw [getElem?_Swap d i j k hi hj]
  split_ifs <;> rfl

theorem Less_iff (lt : α → α → Bool) (key : α → Int) (d : List α) (hK : Keyed lt key d)
    (i j : Nat) (hi : i < d.length) (hj : j < d.length) :
    Less lt d i j = true ↔ kAt key d i < kAt key d j := by
  unfold Less kAt
  rw [List.getElem?_eq_getElem hi, List.getElem?_eq_getElem hj]
  exact hK _ (List.getElem_mem hi) _ (List.getElem_mem hj)

theorem Less_eq_false_iff (lt : α → α → Bool) (key : α → Int) (d : List α)
    (hK : Keyed lt key d) (i j : Nat) (hi : i < d.length) (hj : j < d.length) :
    Less lt d i j = false ↔ kAt key d j ≤ kAt key d i := by
  rw [← Bool.not_eq_true, Less_iff lt key d hK i j hi hj]
  omega

namespace Within

theorem refl (a b : Nat) (d : List α) : Within a b d d :=
  ⟨rfl, fun _ _ => rfl, fun i h1 h2 => ⟨i, h1, h2, rfl⟩⟩

theorem trans {a b : Nat} {d1 d2 d3 : List α} (h12 : Within a b d1 d2) (h23 : Within a b d2 d3) :
    Within a b d1 d3 := by
  refine ⟨h23.len.trans h12.len, fun k hk => (h23.out k hk).trans (h12.out k hk), ?_⟩
  intro i h1 h2
  obtain ⟨j, hj1, hj2, hj⟩ := h23.img i h1 h2
  obtain ⟨l, hl1, hl2, hl⟩ := h12.img j hj1 hj2
  exact ⟨l, hl1, hl2, hj.trans hl⟩

theorem mono {a b a' b' : Nat} {d d' : List α} (h : Within a b d d') (ha : a' ≤ a)
    (hb : b ≤ b') : Within a' b' d d' := by
  refine ⟨h.len, fun k hk => h.out k (by omega), ?_⟩
  intro i h1 h2
  by_cases hin : a ≤ i ∧ i < b
  · obtain ⟨j, hj1, hj2, hj⟩ := h.img i hin.1 hin.2
    exact ⟨j, by omega, by omega, hj⟩
  · exact ⟨i, h1, h2, h.out i (by omega)⟩

theorem mem {a b : Nat} {d d' : List α} (h : Within a b d d') {x : α} (hx : x ∈ d') :
    x ∈ d := by
  obtain ⟨k, hk⟩ := List.mem_iff_getElem?.mp hx
  by_cases hin : a ≤ k ∧ k < b
  · obtain ⟨j, _, _, hj⟩ := h.img k hin.1 hin.2
    exact List.mem_iff_getElem?.mpr ⟨j, by rw [← hj, hk]⟩
  · exact List.mem_iff_getElem?.mpr ⟨k, by rw [← h.out k (by omega), hk]⟩

theorem keyed {a b : Nat} {d d' : List α} (h : Within a b d d') {lt : α → α → Bool}
    {key : α → Int} (hK : Keyed lt key d) : Keyed lt key d' :=
  fun x hx y hy => hK x (h.mem hx) y (h.mem hy)

theorem kAt_out {a b : Nat} {d d' : List α} (h : Within a b d d') (key : α → Int) (k : Nat)
    (hk : k < a ∨ b ≤ k) : kAt key d' k = kAt key d k := by
  unfold kAt
  rw [h.out k hk]

theorem kAt_img {a b : Nat} {d d' : List α} (h : Within a b d d') (key : α → Int) (i : Nat)
    (h1 : a ≤ i) (h2 : i < b) : ∃ j, a ≤ j ∧ j < b ∧ kAt key d' i = kAt key d j := by
  obtain ⟨j, hj1, hj2, hj⟩ := h.img i h1 h2
  exact ⟨j, hj1, hj2, by unfold kAt; rw [hj]⟩

/-- A bound that holds for the keys in the range before holds after. -/
theorem forall_kAt {a b : Nat} {d d' : List α} (h : Within a b d d') (key : α → Int)
    (P : Int → Prop) (hP : ∀ k, a ≤ k → k < b → P (kAt key d k)) :
    ∀ k, a ≤ k → k < b → P (kAt key d' k) := by
  intro k h1 h2
  obtain ⟨j, hj1, hj2, hj⟩ := h.kAt_img key k h1 h2
  rw [hj]
  exact hP j hj1 hj2

theorem swap (a b : Nat) (d : List α) (i j : Nat) (hi1 : a ≤ i) (hi2 : i < b) (hj1 : a ≤ j)
    (hj2 : j < b) : Within a b d (Swap d i j) := by
  by_cases hlen : i < d.length ∧ j < d.length
  · refine ⟨length_Swap d i j, ?_, ?_⟩
    · intro k hk
      rw [getElem?_Swap d i j k hlen.1 hlen.2]
      have h1 : k ≠ j := by omega
      have h2 : k ≠ i := by omega
      simp [h1, h2]
    · intro k hk1 hk2
      rw [getElem?_Swap d i j k hlen.1 hlen.2]
      by_cases hkj : k = j
      · exact ⟨i, hi1, hi2, by simp [hkj]⟩
      · by_cases hki : k = i
        · exact ⟨j, hj1, hj2, by rw [if_neg hkj, if_pos hki]⟩
        · exact ⟨k, hk1, hk2, by rw [if_neg hkj, if_neg hki]⟩
  · have : Swap d i j = d := by
      unfold Swap
      split
      · rename_i x y hx hy
        have := (List.getElem?_eq_some.mp hx).1
        have := (List.getElem?_eq_some.mp hy).1
        omega
      · rfl
    rw [this]
    exact refl a b d

theorem lowerBound {a b : Nat} {d d' : List α} (h : Within a b d d') (key : α → Int)
    (hL : LowerBound key d a b) : LowerBound key d' a b := by
  rcases hL with h0 | hL
  · exact Or.inl h0
  · by_cases ha : a = 0
    · exact Or.inl ha
    · right
      rw [h.kAt_out key (a - 1) (by omega)]
      exact h.forall_kAt key (fun v => kAt key d (a - 1) ≤ v) hL

end Within

theorem SortedOn_of_adjacent (key : α → Int) (d : List α) (a b : Nat)
    (h : ∀ i, a ≤ i → i + 1 < b → kAt key d i ≤ kAt key d (i + 1)) : SortedOn key d a b := by
  intro i j hi hij hj
  induction j with
  | zero =>
    have : i = 0 := by omega
    subst this; exact le_refl _
  | succ j ih =>
    by_cases hij' : i = j + 1
    · subst hij'; exact le_refl _
    · exact le_trans (ih (by omega) (by omega)) (h j (by omega) hj)

theorem SortedOn_of_le (key : α → Int) (d : List α) (a b : Nat) (h : b ≤ a + 1) :
    SortedOn key d a b := by
  intro i j hi hij hj
  have : i = j := by omega
  subst this; exact le_refl _

theorem SortedOn_congr (key : α → Int) (d d' : List α) (a b : Nat)
    (h : ∀ k, a ≤ k → k < b → kAt key d' k = kAt key d k) (hs : SortedOn key d a b) :
    SortedOn key d' a b := by
  intro i j hi hij hj
  rw [h i hi (by omega), h j (by omega) hj]
  exact hs i j hi hij hj

end sort

namespace sort

variable {α : Type}

theorem scanUp_spec (p : Nat → Bool) (j n i : Nat) (hn : j + 1 - i ≤ n) :
    i ≤ scanUp p j n i ∧ (scanUp p j n i ≤ j + 1 ∨ scanUp p j n i = i) ∧
    (∀ k, i ≤ k → k < scanUp p j n i → p k = true) ∧
    (scanUp p j n i ≤ j → p (scanUp p j n i) = false) := by
  induction n generalizing i with
  | zero =>
    unfold scanUp
    exact ⟨le_refl _, Or.inr rfl, fun k h1 h2 => by omega, fun h => by omega⟩
  | succ n ih =>
    unfold scanUp
    split
    · rename_i hc
      simp only [Bool.and_eq_true, decide_eq_true_eq] at hc
      obtain ⟨h1, h2, h3, h4⟩ := ih (i + 1) (by omega)
      refine ⟨by omega, Or.inl (by omega), ?_, h4⟩
      intro k hk1 hk2
      by_cases hki : k = i
      · subst hki; exact hc.2
      · exact h3 k (by omega) hk2
    · rename_i hc
      simp only [Bool.and_eq_true, decide_eq_true_eq, not_and, Bool.not_eq_true] at hc
      exact ⟨le_refl _, Or.inr rfl, fun k h1 h2 => by omega, hc⟩

theorem scanDown_spec (p : Nat → Bool) (i j : Nat) (hi : 1 ≤ i) :
    scanDown p i j ≤ j ∧ (i ≤ j + 1 → i ≤ scanDown p i j + 1) ∧
    (∀ k, scanDown p i j < k → k ≤ j → p k = true) ∧
    (i ≤ scanDown p i j → p (scanDown p i j) = false) := by
  induction j with
  | zero =>
    unfold scanDown
    exact ⟨le_refl _, fun h => h, fun k h1 h2 => by omega, fun h => by omega⟩
  | succ j ih =>
    unfold scanDown
    split
    · rename_i hc
      simp only [Bool.and_eq_true, decide_eq_true_eq] at hc
      obtain ⟨h1, h2, h3, h4⟩ := ih
      refine ⟨by omega, fun _ => h2 hc.1, ?_, h4⟩
      intro k hk1 hk2
      by_cases hkj : k = j + 1
      · subst hkj; exact hc.2
      · exact h3 k hk1 (by omega)
    · rename_i hc
      simp only [Bool.and_eq_true, decide_eq_true_eq, not_and, Bool.not_eq_true] at hc
      exact ⟨le_refl _, fun h => by omega, fun k h1 h2 => by omega, hc⟩

/-- One insertion: with `d` sorted on `a .. j` and on `j .. m + 1`, and nothing
left of `j` above anything right of it, moving the element at `j` to the left by
`insertionSort_inner` sorts `a .. m + 1`. The loop may be run with an earlier
bound `a0` when the element before `a` is not above the element moved. -/
theorem insertionSort_inner_spec (lt : α → α → Bool) (key : α → Int) (a0 a m : Nat)
    (j : Nat) (d : List α) (hK : Keyed lt key d) (ha0 : a0 ≤ a) (haj : a ≤ j) (hjm : j ≤ m)
    (hm : m < d.length)
    (hlow : a0 = a ∨ (1 ≤ a ∧ kAt key d (a - 1) ≤ kAt key d j))
    (hs1 : SortedOn key d a j) (hs2 : SortedOn key d j (m + 1))
    (hx : ∀ x y, a ≤ x → x < j → j < y → y ≤ m → kAt key d x ≤ kAt key d y) :
    Within a (m + 1) d (insertionSort_inner lt a0 j d) ∧
      SortedOn key (insertionSort_inner lt a0 j d) a (m + 1) := by
  induction j generalizing d with
  | zero =>
    simp only [insertionSort_inner]
    have : a = 0 := by omega
    subst this
    exact ⟨Within.refl _ _ _, hs2⟩
  | succ j ih =>
    unfold insertionSort_inner
    have hj1 : j + 1 < d.length := by omega
    have hj0 : j < d.length := by omega
    split
    · rename_i hc
      simp only [Bool.and_eq_true, decide_eq_true_eq] at hc
      have hless := (Less_iff lt key d hK (j + 1) j hj1 hj0).mp hc.2
      have haj' : a ≤ j := by
        rcases hlow with h | h
        · omega
        · by_contra hcon
          have : a = j + 1 := by omega
          subst this
          simp only [Nat.add_sub_cancel] at h
          omega
      have hW : Within a (m + 1) d (Swap d (j + 1) j) :=
        Within.swap a (m + 1) d (j + 1) j (by omega) (by omega) haj' (by omega)
      have hk : ∀ k, kAt key (Swap d (j + 1) j) k
          = if k = j then kAt key d (j + 1) else if k = j + 1 then kAt key d j
            else kAt key d k := fun k => kAt_Swap key d (j + 1) j k hj1 hj0
      obtain ⟨hW2, hS2⟩ := ih (Swap d (j + 1) j) (hW.keyed hK) haj' (by omega)
        (by rw [length_Swap]; exact hm)
        (by
          rcases hlow with h | h
          · exact Or.inl h
          · right
            refine ⟨h.1, ?_⟩
            rw [hk (a - 1), hk j]
            have h1 : ¬ (a - 1 = j) := by omega
            have h2 : ¬ (a - 1 = j + 1) := by omega
            simp only [h1, h2, if_false, if_true]
            exact h.2)
        (by
          intro x y hx1 hxy hy
          rw [hk x, hk y]
          have h1 : ¬ (x = j) := by omega
          have h2 : ¬ (x = j + 1) := by omega
          have h3 : ¬ (y = j) := by omega
          have h4 : ¬ (y = j + 1) := by omega
          simp only [h1, h2, h3, h4, if_false]
          exact hs1 x y hx1 hxy (by omega))
        (by
          intro x y hx1 hxy hy
          rw [hk x, hk y]
          by_cases hxj : x = j
          · by_cases hyj : y = j
            · simp [hxj, hyj]
            · by_cases hyj1 : y = j + 1
              · simp only [hxj, hyj1, if_true]
                simp only [show ¬ (j + 1 = j) by omega, if_false]
                omega
              · simp only [hxj, hyj, hyj1, if_true, if_false]
                exact hs2 (j + 1) y (le_refl _) (by omega) hy
          · by_cases hxj1 : x = j + 1
            · have hyj : ¬ (y = j) := by omega
              by_cases hyj1 : y = j + 1
              · simp [hxj, hxj1, hyj1]
              · simp only [hxj, hxj1, hyj, hyj1, if_true, if_false]
                simp only [show ¬ (j + 1 = j) by omega, if_false]
                by_cases haj2 : a ≤ j ∧ True
                · have := hx j y haj' (by omega) (by omega) (by omega)
                  exact this
                · simp at haj2
                  omega
            · have hyj : ¬ (y = j) := by omega
              have hyj1 : ¬ (y = j + 1) := by omega
              simp only [hxj, hxj1, hyj, hyj1, if_false]
              exact hs2 x y (by omega) hxy hy)
        (by
          intro x y hx1 hx2 hy1 hy2
          rw [hk x, hk y]
          have h1 : ¬ (x = j) := by omega
          have h2 : ¬ (x = j + 1) := by omega
          have h3 : ¬ (y = j) := by omega
          simp only [h1, h2, h3, if_false]
          by_cases hyj1 : y = j + 1
          · simp only [hyj1, if_true]
            exact hs1 x j hx1 (by omega) (by omega)
          · simp only [hyj1, if_false]
            exact hx x y hx1 (by omega) (by omega) hy2)
      exact ⟨hW.trans hW2, hS2⟩
    · rename_i hc
      refine ⟨Within.refl _ _ _, ?_⟩
      by_cases haj' : a = j + 1
      · subst haj'; exact hs2
      · have hle : kAt key d j ≤ kAt key d (j + 1) := by
          have hc2 : Less lt d (j + 1) j = false := by
            simp only [Bool.and_eq_true, decide_eq_true_eq, not_and, Bool.not_eq_true] at hc
            exact hc (by omega)
          exact (Less_eq_false_iff lt key d hK (j + 1) j hj1 hj0).mp hc2
        intro x y hx1 hxy hy
        by_cases hyj : y ≤ j
        · exact hs1 x y hx1 hxy (by omega)
        · by_cases hxj : j + 1 ≤ x
          · exact hs2 x y hxj hxy hy
          · have e1 := hs1 x j hx1 (by omega) (by omega)
            have e2 := hs2 (j + 1) y (le_refl _) (by omega) hy
            omega

theorem insertionSort_outer_spec (lt : α → α → Bool) (key : α → Int) (a b : Nat)
    (n i : Nat) (d : List α) (hK : Keyed lt key d) (hb : b ≤ d.length) (hai : a ≤ i)
    (hn : b - i ≤ n) (hs : SortedOn key d a i) :
    Within a b d (insertionSort_outer lt a b n i d) ∧
      SortedOn key (insertionSort_outer lt a b n i d) a b := by
  induction n generalizing i d with
  | zero =>
    simp only [insertionSort_outer]
    refine ⟨Within.refl _ _ _, ?_⟩
    intro x y h1 h2 h3
    exact hs x y h1 h2 (by omega)
  | succ n ih =>
    unfold insertionSort_outer
    split
    · rename_i hib
      obtain ⟨hW, hS⟩ := insertionSort_inner_spec lt key a a i i d hK (le_refl _) hai
        (le_refl _) (by omega) (Or.inl rfl) hs (SortedOn_of_le key d i (i + 1) (le_refl _))
        (fun x y _ _ h3 h4 => by omega)
      have hW' : Within a b d (insertionSort_inner lt a i d) := hW.mono (le_refl _) (by omega)
      obtain ⟨hW2, hS2⟩ := ih (i + 1) (insertionSort_inner lt a i d) (hW'.keyed hK)
        (by rw [hW'.len]; exact hb) (by omega) (by omega) hS
      exact ⟨hW'.trans hW2, hS2⟩
    · rename_i hib
      refine ⟨Within.refl _ _ _, ?_⟩
      intro x y h1 h2 h3
      exact hs x y h1 h2 (by omega)

theorem insertionSort_func_spec (lt : α → α → Bool) (key : α → Int) (a b : Nat)
    (d : List α) (hK : Keyed lt key d) (hb : b ≤ d.length) :
    Within a b d (insertionSort_func lt d a b) ∧
      SortedOn key (insertionSort_func lt d a b) a b := by
  unfold insertionSort_func
  exact insertionSort_outer_spec lt key a b _ _ d hK hb (by omega) (by omega)
    (SortedOn_of_le key d a (a + 1) (le_refl _))

end sort

namespace sort

variable {α : Type}

theorem partition_loop_spec (lt : α → α → Bool) (key : α → Int) (a b : Nat) (P : Int)
    (n : Nat) (d : List α) (i j : Nat) (hK : Keyed lt key d) (hb : b ≤ d.length)
    (hi : a + 1 ≤ i) (hij : i ≤ j + 1) (hjb : j < b) (hn : j + 2 - i ≤ n)
    (hP : kAt key d a = P)
    (hL : ∀ k, a + 1 ≤ k → k < i → kAt key d k < P)
    (hR : ∀ k, j < k → k < b → P ≤ kAt key d k) :
    Within (a + 1) b d (partition_loop lt a n d i j).1 ∧
      a ≤ (partition_loop lt a n d i j).2 ∧ (partition_loop lt a n d i j).2 < b ∧
      (∀ k, a + 1 ≤ k → k ≤ (partition_loop lt a n d i j).2 →
        kAt key (partition_loop lt a n d i j).1 k < P) ∧
      (∀ k, (partition_loop lt a n d i j).2 < k → k < b →
        P ≤ kAt key (partition_loop lt a n d i j).1 k) := by
  induction n generalizing d i j with
  | zero => omega
  | succ n ih =>
    unfold partition_loop
    simp only
    obtain ⟨u1, u2, u3, u4⟩ := scanUp_spec (fun k => Less lt d k a) j (j + 1 - i) i (le_refl _)
    generalize scanUp (fun k => Less lt d k a) j (j + 1 - i) i = i' at u1 u2 u3 u4 ⊢
    obtain ⟨v1, v2, v3, v4⟩ := scanDown_spec (fun k => !Less lt d k a) i' j (by omega)
    generalize scanDown (fun k => !Less lt d k a) i' j = j' at v1 v2 v3 v4 ⊢
    have hi'j : i' ≤ j + 1 := by omega
    have hj'1 : i' ≤ j' + 1 := v2 hi'j
    have hL' : ∀ k, a + 1 ≤ k → k < i' → kAt key d k < P := by
      intro k hk1 hk2
      by_cases hki : k < i
      · exact hL k hk1 hki
      · have := u3 k (by omega) hk2
        rw [← hP]
        exact (Less_iff lt key d hK k a (by omega) (by omega)).mp this
    have hR' : ∀ k, j' < k → k < b → P ≤ kAt key d k := by
      intro k hk1 hk2
      by_cases hkj : j < k
      · exact hR k hkj hk2
      · have := v3 k hk1 (by omega)
        simp only [Bool.not_eq_true'] at this
        rw [← hP]
        exact (Less_eq_false_iff lt key d hK k a (by omega) (by omega)).mp this
    split
    · rename_i hgt
      refine ⟨Within.refl _ _ _, by omega, by omega, ?_, hR'⟩
      intro k hk1 hk2
      exact hL' k hk1 (by omega)
    · rename_i hgt
      have hle : i' ≤ j' := by omega
      have e1 : P ≤ kAt key d i' := by
        have := u4 (by omega)
        rw [← hP]
        exact (Less_eq_false_iff lt key d hK i' a (by omega) (by omega)).mp this
      have e2 : kAt key d j' < P := by
        have := v4 hle
        simp only [Bool.not_eq_false'] at this
        rw [← hP]
        exact (Less_iff lt key d hK j' a (by omega) (by omega)).mp this
      have hne : i' ≠ j' := by
        intro h
        rw [h] at e1
        omega
      have hW : Within (a + 1) b d (Swap d i' j') :=
        Within.swap (a + 1) b d i' j' (by omega) (by omega) (by omega) (by omega)
      have hk : ∀ k, kAt key (Swap d i' j') k
          = if k = j' then kAt key d i' else if k = i' then kAt key d j'
            else kAt key d k := fun k => kAt_Swap key d i' j' k (by omega) (by omega)
      obtain ⟨w1, w2, w3, w4, w5⟩ := ih (Swap d i' j') (i' + 1) (j' - 1) (hW.keyed hK)
        (by rw [length_Swap]; exact hb) (by omega) (by omega) (by omega) (by omega)
        (by
          rw [hk a]
          simp only [show ¬ (a = j') by omega, show ¬ (a = i') by omega, if_false]
          exact hP)
        (by
          intro k hk1 hk2
          rw [hk k]
          by_cases hki : k = i'
          · simp only [hki, if_true, show ¬ (i' = j') from hne, if_false]
            exact e2
          · simp only [hki, show ¬ (k = j') by omega, if_false]
            exact hL' k hk1 (by omega))
        (by
          intro k hk1 hk2
          rw [hk k]
          by_cases hkj : k = j'
          · simp only [hkj, if_true]
            exact e1
          · simp only [hkj, show ¬ (k = i') by omega, if_false]
            exact hR' k (by omega) hk2)
      exact ⟨hW.trans w1, w2, w3, w4, w5⟩

/-- The last exchange of `partition_func`, which puts the pivot between the two
sides. -/
theorem partition_final (key : α → Int) (a b : Nat) (P : Int) (d : List α) (j : Nat)
    (hb : b ≤ d.length) (haj : a ≤ j) (hjb : j < b) (hP : kAt key d a = P)
    (hL : ∀ k, a + 1 ≤ k → k ≤ j → kAt key d k < P)
    (hR : ∀ k, j < k → k < b → P ≤ kAt key d k) :
    Within a b d (Swap d j a) ∧ kAt key (Swap d j a) j = P ∧
      (∀ k, a ≤ k → k < j → kAt key (Swap d j a) k < P) ∧
      (∀ k, j < k → k < b → P ≤ kAt key (Swap d j a) k) := by
  have hk : ∀ k, kAt key (Swap d j a) k
      = if k = a then kAt key d j else if k = j then kAt key d a
        else kAt key d k := fun k => kAt_Swap key d j a k (by omega) (by omega)
  refine ⟨Within.swap a b d j a haj hjb (le_refl _) (by omega), ?_, ?_, ?_⟩
  · rw [hk j]
    by_cases hja : j = a
    · simp only [hja, if_true]; exact hP
    · simp only [hja, if_false, if_true]; exact hP
  · intro k hk1 hk2
    rw [hk k]
    by_cases hka : k = a
    · simp only [hka, if_true]
      exact hL j (by omega) (le_refl _)
    · simp only [hka, show ¬ (k = j) by omega, if_false]
      exact hL k (by omega) (by omega)
  · intro k hk1 hk2
    rw [hk k]
    simp only [show ¬ (k = a) by omega, show ¬ (k = j) by omega, if_false]
    exact hR k hk1 hk2

theorem partition_loop_succ (lt : α → α → Bool) (a n : Nat) (d : List α) (i j : Nat) :
    partition_loop lt a (n + 1) d i j
      = if scanUp (fun k => Less lt d k a) j (j + 1 - i) i
            > scanDown (fun k => !Less lt d k a) (scanUp (fun k => Less lt d k a) j (j + 1 - i) i) j
        then (d, scanDown (fun k => !Less lt d k a)
          (scanUp (fun k => Less lt d k a) j (j + 1 - i) i) j)
        else partition_loop lt a n
          (Swap d (scanUp (fun k => Less lt d k a) j (j + 1 - i) i)
            (scanDown (fun k => !Less lt d k a)
              (scanUp (fun k => Less lt d k a) j (j + 1 - i) i) j))
          (scanUp (fun k => Less lt d k a) j (j + 1 - i) i + 1)
          (scanDown (fun k => !Less lt d k a)
            (scanUp (fun k => Less lt d k a) j (j + 1 - i) i) j - 1) := rfl

theorem partition_func_eq (lt : α → α → Bool) (d : List α) (a b pivot : Nat) :
    (partition_func lt d a b pivot).1
      = Swap (partition_loop lt a (b - a + 1) (Swap d a pivot) (a + 1) (b - 1)).1
          (partition_loop lt a (b - a + 1) (Swap d a pivot) (a + 1) (b - 1)).2 a ∧
    (partition_func lt d a b pivot).2.1
      = (partition_loop lt a (b - a + 1) (Swap d a pivot) (a + 1) (b - 1)).2 := by
  rw [partition_loop_succ]
  unfold partition_func
  simp only
  split <;> exact ⟨rfl, rfl⟩

theorem partition_func_spec (lt : α → α → Bool) (key : α → Int) (a b pivot : Nat)
    (d : List α) (hK : Keyed lt key d) (hab : a < b) (hb : b ≤ d.length)
    (hp1 : a ≤ pivot) (hp2 : pivot < b) :
    Within a b d (partition_func lt d a b pivot).1 ∧
      a ≤ (partition_func lt d a b pivot).2.1 ∧ (partition_func lt d a b pivot).2.1 < b ∧
      (∀ k, a ≤ k → k < (partition_func lt d a b pivot).2.1 →
        kAt key (partition_func lt d a b pivot).1 k
          < kAt key (partition_func lt d a b pivot).1 (partition_func lt d a b pivot).2.1) ∧
      (∀ k, (partition_func lt d a b pivot).2.1 < k → k < b →
        kAt key (partition_func lt d a b pivot).1 (partition_func lt d a b pivot).2.1
          ≤ kAt key (partition_func lt d a b pivot).1 k) := by
  obtain ⟨e1, e2⟩ := partition_func_eq lt d a b pivot
  rw [e1, e2]
  have hW0 : Within a b d (Swap d a pivot) := Within.swap a b d a pivot (le_refl _) hab hp1 hp2
  obtain ⟨w1, w2, w3, w4, w5⟩ := partition_loop_spec lt key a b (kAt key (Swap d a pivot) a)
    (b - a + 1) (Swap d a pivot) (a + 1) (b - 1) (hW0.keyed hK)
    (by rw [length_Swap]; exact hb) (le_refl _) (by omega) (by omega) (by omega) rfl
    (fun k h1 h2 => by omega) (fun k h1 h2 => by omega)
  generalize partition_loop lt a (b - a + 1) (Swap d a pivot) (a + 1) (b - 1) = r at w1 w2 w3 w4 w5 ⊢
  have hPa : kAt key r.1 a = kAt key (Swap d a pivot) a := w1.kAt_out key a (by omega)
  obtain ⟨f1, f2, f3, f4⟩ := partition_final key a b (kAt key (Swap d a pivot) a) r.1 r.2
    (by rw [w1.len, length_Swap]; exact hb) w2 w3 hPa w4 w5
  refine ⟨hW0.trans ((w1.mono (by omega) (le_refl _)).trans f1), w2, w3, ?_, ?_⟩
  · rw [f2]; exact f3
  · rw [f2]; exact f4

theorem partitionEqual_loop_spec (lt : α → α → Bool) (key : α → Int) (a b : Nat) (P : Int)
    (n : Nat) (d : List α) (i j : Nat) (hK : Keyed lt key d) (hb : b ≤ d.length)
    (hi : a + 1 ≤ i) (hij : i ≤ j + 1) (hjb : j < b) (hn : j + 2 - i ≤ n)
    (hP : kAt key d a = P)
    (hL : ∀ k, a + 1 ≤ k → k < i → kAt key d k ≤ P)
    (hR : ∀ k, j < k → k < b → P < kAt key d k) :
    Within (a + 1) b d (partitionEqual_loop lt a n d i j).1 ∧
      a + 1 ≤ (partitionEqual_loop lt a n d i j).2 ∧ (partitionEqual_loop lt a n d i j).2 ≤ b ∧
      (∀ k, a + 1 ≤ k → k < (partitionEqual_loop lt a n d i j).2 →
        kAt key (partitionEqual_loop lt a n d i j).1 k ≤ P) ∧
      (∀ k, (partitionEqual_loop lt a n d i j).2 ≤ k → k < b →
        P < kAt key (partitionEqual_loop lt a n d i j).1 k) := by
  induction n generalizing d i j with
  | zero => omega
  | succ n ih =>
    unfold partitionEqual_loop
    simp only
    obtain ⟨u1, u2, u3, u4⟩ := scanUp_spec (fun k => !Less lt d a k) j (j + 1 - i) i (le_refl _)
    generalize scanUp (fun k => !Less lt d a k) j (j + 1 - i) i = i' at u1 u2 u3 u4 ⊢
    obtain ⟨v1, v2, v3, v4⟩ := scanDown_spec (fun k => Less lt d a k) i' j (by omega)
    generalize scanDown (fun k => Less lt d a k) i' j = j' at v1 v2 v3 v4 ⊢
    have hi'j : i' ≤ j + 1 := by omega
    have hj'1 : i' ≤ j' + 1 := v2 hi'j
    have hL' : ∀ k, a + 1 ≤ k → k < i' → kAt key d k ≤ P := by
      intro k hk1 hk2
      by_cases hki : k < i
      · exact hL k hk1 hki
      · have := u3 k (by omega) hk2
        simp only [Bool.not_eq_true'] at this
        rw [← hP]
        exact (Less_eq_false_iff lt key d hK a k (by omega) (by omega)).mp this
    have hR' : ∀ k, j' < k → k < b → P < kAt key d k := by
      intro k hk1 hk2
      by_cases hkj : j < k
      · exact hR k hkj hk2
      · have := v3 k hk1 (by omega)
        rw [← hP]
        exact (Less_iff lt key d hK a k (by omega) (by omega)).mp this
    split
    · rename_i hgt
      refine ⟨Within.refl _ _ _, by omega, by omega, hL', ?_⟩
      intro k hk1 hk2
      exact hR' k (by omega) hk2
    · rename_i hgt
      have hle : i' ≤ j' := by omega
      have e1 : P < kAt key d i' := by
        have := u4 (by omega)
        simp only [Bool.not_eq_false'] at this
        rw [← hP]
        exact (Less_iff lt key d hK a i' (by omega) (by omega)).mp this
      have e2 : kAt key d j' ≤ P := by
        have := v4 hle
        rw [← hP]
        exact (Less_eq_false_iff lt key d hK a j' (by omega) (by omega)).mp this
      have hne : i' ≠ j' := by
        intro h
        rw [h] at e1
        omega
      have hW : Within (a + 1) b d (Swap d i' j') :=
        Within.swap (a + 1) b d i' j' (by omega) (by omega) (by omega) (by omega)
      have hk : ∀ k, kAt key (Swap d i' j') k
          = if k = j' then kAt key d i' else if k = i' then kAt key d j'
            else kAt key d k := fun k => kAt_Swap key d i' j' k (by omega) (by omega)
      obtain ⟨w1, w2, w3, w4, w5⟩ := ih (Swap d i' j') (i' + 1) (j' - 1) (hW.keyed hK)
        (by rw [length_Swap]; exact hb) (by omega) (by omega) (by omega) (by omega)
        (by
          rw [hk a]
          simp only [show ¬ (a = j') by omega, show ¬ (a = i') by omega, if_false]
          exact hP)
        (by
          intro k hk1 hk2
          rw [hk k]
          by_cases hki : k = i'
          · simp only [hki, if_true, show ¬ (i' = j') from hne, if_false]
            exact e2
          · simp only [hki, show ¬ (k = j') by omega, if_false]
            exact hL' k hk1 (by omega))
        (by
          intro k hk1 hk2
          rw [hk k]
          by_cases hkj : k = j'
          · simp only [hkj, if_true]
            exact e1
          · simp only [hkj, show ¬ (k = i') by omega, if_false]
            exact hR' k (by omega) hk2)
      exact ⟨hW.trans w1, w2, w3, w4, w5⟩

theorem partitionEqual_func_spec (lt : α → α → Bool) (key : α → Int) (a b pivot : Nat)
    (d : List α) (hK : Keyed lt key d) (hab : a < b) (hb : b ≤ d.length)
    (hp1 : a ≤ pivot) (hp2 : pivot < b) :
    Within a b d (partitionEqual_func lt d a b pivot).1 ∧
      a < (partitionEqual_func lt d a b pivot).2 ∧ (partitionEqual_func lt d a b pivot).2 ≤ b ∧
      (∀ k, a ≤ k → k < (partitionEqual_func lt d a b pivot).2 →
        kAt key (partitionEqual_func lt d a b pivot).1 k ≤ kAt key d pivot) ∧
      (∀ k, (partitionEqual_func lt d a b pivot).2 ≤ k → k < b →
        kAt key d pivot < kAt key (partitionEqual_func lt d a b pivot).1 k) := by
  unfold partitionEqual_func
  simp only
  have hW0 : Within a b d (Swap d a pivot) := Within.swap a b d a pivot (le_refl _) hab hp1 hp2
  have hPa : kAt key (Swap d a pivot) a = kAt key d pivot := by
    rw [kAt_Swap key d a pivot a (by omega) (by omega)]
    by_cases h : a = pivot
    · simp [h]
    · simp [h]
  obtain ⟨w1, w2, w3, w4, w5⟩ := partitionEqual_loop_spec lt key a b (kAt key d pivot)
    (b - a) (Swap d a pivot) (a + 1) (b - 1) (hW0.keyed hK)
    (by rw [length_Swap]; exact hb) (le_refl _) (by omega) (by omega) (by omega) hPa
    (fun k h1 h2 => by omega) (fun k h1 h2 => by omega)
  refine ⟨hW0.trans (w1.mono (by omega) (le_refl _)), by omega, w3, ?_, w5⟩
  intro k hk1 hk2
  by_cases hka : k = a
  · rw [hka, w1.kAt_out key a (by omega), hPa]
  · exact w4 k (by omega) hk2

end sort

namespace sort

variable {α : Type}

theorem HeapFrom_of_except (key : α → Int) (d : List α) (first lo hi root : Nat)
    (hE : HeapExcept key d first lo hi root)
    (hroot : ∀ c, (c = 2 * root + 1 ∨ c = 2 * root + 2) → c < hi →
      kAt key d (first + c) ≤ kAt key d (first + root)) :
    HeapFrom key d first lo hi := by
  intro i c hi1 hc1 hc2
  by_cases hir : i = root
  · subst hir; exact hroot c hc1 hc2
  · exact hE.1 i c hi1 hir hc1 hc2

theorem siftDown_loop_spec (lt : α → α → Bool) (key : α → Int) (first lo hi : Nat)
    (n root : Nat) (d : List α) (hK : Keyed lt key d) (hlen : first + hi ≤ d.length)
    (hlo : lo ≤ root) (hn : hi ≤ n + root) (hE : HeapExcept key d first lo hi root) :
    Within (first + root) (first + hi) d (siftDown_loop lt hi first n root d) ∧
      HeapFrom key (siftDown_loop lt hi first n root d) first lo hi := by
  induction n generalizing root d with
  | zero =>
    unfold siftDown_loop
    exact ⟨Within.refl _ _ _,
      HeapFrom_of_except key d first lo hi root hE (fun c h1 h2 => by omega)⟩
  | succ n ih =>
    unfold siftDown_loop
    simp only
    split
    · exact ⟨Within.refl _ _ _,
        HeapFrom_of_except key d first lo hi root hE (fun c h1 h2 => by omega)⟩
    · rename_i hch
      have hch' : 2 * root + 1 < hi := by omega
      -- the greater child
      have hsel : ∃ c, (if (decide (2 * root + 1 + 1 < hi)
            && Less lt d (first + (2 * root + 1)) (first + (2 * root + 1) + 1)) = true
          then 2 * root + 1 + 1 else 2 * root + 1) = c ∧
          (c = 2 * root + 1 ∨ c = 2 * root + 2) ∧ c < hi ∧
          ∀ x, (x = 2 * root + 1 ∨ x = 2 * root + 2) → x < hi →
            kAt key d (first + x) ≤ kAt key d (first + c) := by
        split
        · rename_i hc
          simp only [Bool.and_eq_true, decide_eq_true_eq] at hc
          have hl := (Less_iff lt key d hK _ _ (by omega) (by omega)).mp hc.2
          refine ⟨_, rfl, Or.inr rfl, hc.1, ?_⟩
          intro x hx1 hx2
          rcases hx1 with h | h
          · subst h
            have : first + (2 * root + 1) + 1 = first + (2 * root + 1 + 1) := by omega
            rw [this] at hl
            omega
          · subst h; exact le_refl _
        · rename_i hc
          simp only [Bool.and_eq_true, decide_eq_true_eq, not_and, Bool.not_eq_true] at hc
          refine ⟨_, rfl, Or.inl rfl, hch', ?_⟩
          intro x hx1 hx2
          rcases hx1 with h | h
          · subst h; exact le_refl _
          · subst h
            have hl := (Less_eq_false_iff lt key d hK _ _ (by omega) (by omega)).mp (hc hx2)
            have : first + (2 * root + 1) + 1 = first + (2 * root + 2) := by omega
            rw [this] at hl
            exact hl
      obtain ⟨c, hceq, hc1, hc2, hmax⟩ := hsel
      rw [hceq]
      split
      · rename_i hnl
        simp only [Bool.not_eq_true'] at hnl
        have hl := (Less_eq_false_iff lt key d hK _ _ (by omega) (by omega)).mp hnl
        refine ⟨Within.refl _ _ _, HeapFrom_of_except key d first lo hi root hE ?_⟩
        intro x hx1 hx2
        exact le_trans (hmax x hx1 hx2) hl
      · rename_i hnl
        simp only [Bool.not_eq_true', Bool.not_eq_false] at hnl
        have hl := (Less_iff lt key d hK _ _ (by omega) (by omega)).mp hnl
        have hW : Within (first + root) (first + hi) d (Swap d (first + root) (first + c)) :=
          Within.swap _ _ d _ _ (le_refl _) (by omega) (by omega) (by omega)
        have hk : ∀ y, kAt key (Swap d (first + root) (first + c)) (first + y)
            = if y = c then kAt key d (first + root) else if y = root then kAt key d (first + c)
              else kAt key d (first + y) := by
          intro y
          rw [kAt_Swap key d (first + root) (first + c) (first + y) (by omega) (by omega)]
          by_cases h1 : y = c
          · simp [h1]
          · by_cases h2 : y = root
            · simp [h1, h2]
            · simp [h1, h2]
        obtain ⟨w1, w2⟩ := ih c (Swap d (first + root) (first + c)) (hW.keyed hK)
          (by rw [length_Swap]; exact hlen) (by omega) (by omega)
          (by
            constructor
            · intro i x hi1 hic hx1 hx2
              rw [hk x, hk i]
              by_cases hir : i = root
              · subst hir
                simp only [hic, if_false, if_true]
                by_cases hxc : x = c
                · simp only [hxc, if_true]; omega
                · simp only [hxc, show ¬ (x = i) by omega, if_false]
                  exact hmax x hx1 hx2
              · simp only [hic, hir, if_false]
                have hxc : ¬ (x = c) := by omega
                simp only [hxc, if_false]
                by_cases hxr : x = root
                · simp only [hxr, if_true]
                  exact hE.2 i c hi1 (by omega) hc1 hc2
                · simp only [hxr, if_false]
                  exact hE.1 i x hi1 hir hx1 hx2
            · intro p x hp1 hp2 hx1 hx2
              have hpr : p = root := by omega
              subst hpr
              rw [hk x, hk p]
              simp only [show ¬ (x = c) by omega, show ¬ (x = p) by omega,
                show ¬ (p = c) by omega, if_false, if_true]
              exact hE.1 c x (by omega) (by omega) hx1 hx2)
        exact ⟨hW.trans (w1.mono (by omega) (le_refl _)), w2⟩

theorem heapSort_build_spec (lt : α → α → Bool) (key : α → Int) (first hi : Nat)
    (i : Nat) (d : List α) (hK : Keyed lt key d) (hlen : first + hi ≤ d.length)
    (hH : HeapFrom key d first i hi) :
    Within first (first + hi) d (heapSort_build lt hi first i d) ∧
      HeapFrom key (heapSort_build lt hi first i d) first 0 hi := by
  induction i generalizing d with
  | zero =>
    unfold heapSort_build
    exact ⟨Within.refl _ _ _, hH⟩
  | succ i ih =>
    unfold heapSort_build siftDown_func
    obtain ⟨w1, w2⟩ := siftDown_loop_spec lt key first i hi hi i d hK hlen (le_refl _)
      (by omega)
      ⟨fun x c hx1 hx2 hc1 hc2 => hH x c (by omega) hc1 hc2,
       fun p c hp1 hp2 _ _ => by omega⟩
    have w1' : Within first (first + hi) d (siftDown_loop lt hi first hi i d) :=
      w1.mono (by omega) (le_refl _)
    obtain ⟨w3, w4⟩ := ih (siftDown_loop lt hi first hi i d) (w1'.keyed hK)
      (by rw [w1'.len]; exact hlen) w2
    exact ⟨w1'.trans w3, w4⟩

theorem HeapFrom_root_max (key : α → Int) (d : List α) (first k : Nat)
    (hH : HeapFrom key d first 0 k) (x : Nat) (hx : x < k) :
    kAt key d (first + x) ≤ kAt key d (first + 0) := by
  induction x using Nat.strong_induction_on with
  | _ x ih =>
    by_cases hx0 : x = 0
    · subst hx0; exact le_refl _
    · have h1 := ih ((x - 1) / 2) (by omega) (by omega)
      have h2 := hH ((x - 1) / 2) x (Nat.zero_le _) (by omega) hx
      exact le_trans h2 h1

theorem heapSort_pop_spec (lt : α → α → Bool) (key : α → Int) (first hi : Nat)
    (k : Nat) (d : List α) (hK : Keyed lt key d) (hlen : first + hi ≤ d.length)
    (hk : k ≤ hi) (hH : HeapFrom key d first 0 k)
    (hS : SortedOn key d (first + k) (first + hi))
    (hX : ∀ x y, x < k → k ≤ y → y < hi → kAt key d (first + x) ≤ kAt key d (first + y)) :
    Within first (first + hi) d (heapSort_pop lt 0 first k d) ∧
      SortedOn key (heapSort_pop lt 0 first k d) first (first + hi) := by
  induction k generalizing d with
  | zero =>
    unfold heapSort_pop
    exact ⟨Within.refl _ _ _, hS⟩
  | succ i ih =>
    unfold heapSort_pop siftDown_func
    have hmax := HeapFrom_root_max key d first (i + 1) hH
    have hW1 : Within first (first + hi) d (Swap d first (first + i)) :=
      Within.swap _ _ d _ _ (le_refl _) (by omega) (by omega) (by omega)
    have hk1 : ∀ y, kAt key (Swap d first (first + i)) (first + y)
        = if y = i then kAt key d (first + 0) else if y = 0 then kAt key d (first + i)
          else kAt key d (first + y) := by
      intro y
      rw [kAt_Swap key d first (first + i) (first + y) (by omega) (by omega)]
      have c1 : (first + y = first + i) ↔ y = i := by omega
      have c2 : (first + y = first) ↔ y = 0 := by omega
      simp only [c1, c2, Nat.add_zero]
    obtain ⟨w1, w2⟩ := siftDown_loop_spec lt key first 0 i i 0 (Swap d first (first + i))
      (hW1.keyed hK) (by rw [length_Swap]; omega) (le_refl _) (by omega)
      ⟨fun x c hx1 hx2 hc1 hc2 => by
          rw [hk1 c, hk1 x]
          simp only [show ¬ (c = i) by omega, show ¬ (c = 0) by omega,
            show ¬ (x = i) by omega, hx2, if_false]
          exact hH x c hx1 hc1 (by omega),
       fun p c hp1 hp2 _ _ => by omega⟩
    generalize siftDown_loop lt i first i 0 (Swap d first (first + i)) = d2 at w1 w2 ⊢
    have w1' : Within first (first + hi) (Swap d first (first + i)) d2 :=
      w1.mono (by omega) (by omega)
    have hhigh : ∀ y, i ≤ y → kAt key d2 (first + y)
        = if y = i then kAt key d (first + 0) else kAt key d (first + y) := by
      intro y hy
      rw [w1.kAt_out key (first + y) (by omega), hk1 y]
      by_cases h1 : y = i
      · simp [h1]
      · simp [h1, show ¬ (y = 0) by omega]
    have hlowv : ∀ x, x < i → ∃ x', x' ≤ i ∧ kAt key d2 (first + x) = kAt key d (first + x') := by
      intro x hx
      obtain ⟨j, hj1, hj2, hj⟩ := w1.kAt_img key (first + x) (by omega) (by omega)
      have hjf : j = first + (j - first) := by omega
      rw [hjf, hk1 (j - first)] at hj
      by_cases h2 : j - first = 0
      · exact ⟨i, le_refl _, by rw [hj]; simp [h2, show ¬ (0 = i) by omega]⟩
      · exact ⟨j - first, by omega, by rw [hj]; simp [h2, show ¬ (j - first = i) by omega]⟩
    obtain ⟨w3, w4⟩ := ih d2 (w1'.keyed (hW1.keyed hK))
      (by rw [w1'.len, length_Swap]; exact hlen) (by omega) w2
      (by
        intro x y hx hxy hy
        have ex : x = first + (x - first) := by omega
        have ey : y = first + (y - first) := by omega
        rw [ex, ey, hhigh (x - first) (by omega), hhigh (y - first) (by omega)]
        by_cases h1 : x - first = i
        · by_cases h2 : y - first = i
          · simp [h1, h2]
          · simp only [h1, h2, if_true, if_false]
            exact hX 0 (y - first) (by omega) (by omega) (by omega)
        · have h2 : ¬ (y - first = i) := by omega
          simp only [h1, h2, if_false]
          rw [← ex, ← ey]
          exact hS x y (by omega) hxy hy)
      (by
        intro x y hx hxy hy
        obtain ⟨x', hx', hxe⟩ := hlowv x hx
        rw [hxe, hhigh y hxy]
        by_cases h1 : y = i
        · simp only [h1, if_true]
          exact hmax x' (by omega)
        · simp only [h1, if_false]
          exact hX x' y (by omega) (by omega) hy)
    exact ⟨hW1.trans (w1'.trans w3), w4⟩

theorem heapSort_func_spec (lt : α → α → Bool) (key : α → Int) (a b : Nat)
    (d : List α) (hK : Keyed lt key d) (hab : a ≤ b) (hb : b ≤ d.length) :
    Within a b d (heapSort_func lt d a b) ∧ SortedOn key (heapSort_func lt d a b) a b := by
  unfold heapSort_func
  simp only
  have hlen : a + (b - a) ≤ d.length := by omega
  obtain ⟨w1, w2⟩ := heapSort_build_spec lt key a (b - a) ((b - a - 1) / 2 + 1) d hK hlen
    (fun i c h1 h2 h3 => by omega)
  generalize heapSort_build lt (b - a) a ((b - a - 1) / 2 + 1) d = d1 at w1 w2 ⊢
  obtain ⟨w3, w4⟩ := heapSort_pop_spec lt key a (b - a) (b - a) d1 (w1.keyed hK)
    (by rw [w1.len]; exact hlen) (le_refl _) w2
    (fun i j h1 h2 h3 => by omega) (fun x y h1 h2 h3 => by omega)
  have hab' : a + (b - a) = b := by omega
  rw [hab'] at w1 w3 w4
  exact ⟨w1.trans w3, w4⟩

end sort

namespace sort

variable {α : Type}

theorem bitsLen_loop_zero (f : Nat) : bitsLen_loop f 0 = 0 := by
  cases f <;> simp [bitsLen_loop]

theorem bitsLen_loop_le (f x : Nat) (hx : 1 ≤ x) : 2 ^ bitsLen_loop f x ≤ 2 * x := by
  induction f generalizing x with
  | zero => simp only [bitsLen_loop]; omega
  | succ f ih =>
    unfold bitsLen_loop
    rw [if_neg (by omega)]
    by_cases h2 : x / 2 = 0
    · rw [h2, bitsLen_loop_zero]
      omega
    · have := ih (x / 2) (by omega)
      rw [pow_succ]
      omega

theorem nextPowerOfTwo_le (length : Nat) (h : 1 ≤ length) : nextPowerOfTwo length ≤ 2 * length := by
  unfold nextPowerOfTwo bitsLen
  rw [Nat.one_shiftLeft]
  refine le_trans (Nat.mod_le _ _) ?_
  by_cases h0 : length % 2 ^ 64 = 0
  · rw [h0, bitsLen_loop_zero]
    omega
  · have h1 := bitsLen_loop_le 64 (length % 2 ^ 64) (by omega)
    have h2 : length % 2 ^ 64 ≤ length := Nat.mod_le _ _
    omega

theorem breakPatterns_loop_within (a b length modulus idx : Nat) (hlen : a + length = b)
    (hl : 1 ≤ length) (hm : modulus ≤ 2 * length) (n i random : Nat) (d : List α)
    (hidx1 : a ≤ idx) (hidx2 : idx + i + n ≤ b) :
    Within a b d (breakPatterns_loop a length modulus idx n i random d) := by
  induction n generalizing i random d with
  | zero => exact Within.refl _ _ _
  | succ n ih =>
    unfold breakPatterns_loop
    simp only
    have hand : xorshift_Next random &&& (modulus - 1) ≤ modulus - 1 := Nat.and_le_right
    have hother : (if xorshift_Next random &&& (modulus - 1) ≥ length
        then (xorshift_Next random &&& (modulus - 1)) - length
        else xorshift_Next random &&& (modulus - 1)) < length := by
      split <;> omega
    exact (Within.swap a b d _ _ (by omega) (by omega) (by omega) (by omega)).trans
      (ih (i + 1) _ _ (by omega))

theorem breakPatterns_func_within (d : List α) (a b : Nat) :
    Within a b d (breakPatterns_func d a b) := by
  unfold breakPatterns_func
  simp only
  split
  · rename_i h8
    exact breakPatterns_loop_within a b (b - a) _ _ (by omega) (by omega)
      (nextPowerOfTwo_le (b - a) (by omega)) 3 0 _ d (by omega) (by omega)
  · exact Within.refl _ _ _

theorem reverseRange_loop_within (a b : Nat) (n i j : Nat) (d : List α) (hi : a ≤ i)
    (hj : j < b) : Within a b d (reverseRange_loop n i j d) := by
  induction n generalizing i j d with
  | zero => exact Within.refl _ _ _
  | succ n ih =>
    unfold reverseRange_loop
    split
    · exact (Within.swap a b d i j hi (by omega) (by omega) hj).trans
        (ih (i + 1) (j - 1) _ (by omega) (by omega))
    · exact Within.refl _ _ _

theorem reverseRange_func_within (d : List α) (a b : Nat) (hab : a < b) :
    Within a b d (reverseRange_func d a b) :=
  reverseRange_loop_within a b _ _ _ d (le_refl _) (by omega)

theorem median_func_mem (lt : α → α → Bool) (d : List α) (a b c s : Nat) :
    (median_func lt d a b c s).1 = a ∨ (median_func lt d a b c s).1 = b ∨
      (median_func lt d a b c s).1 = c := by
  unfold median_func order2_func
  simp only
  split_ifs <;> simp

theorem choosePivot_func_bounds (lt : α → α → Bool) (d : List α) (a b : Nat)
    (h : 8 ≤ b - a) :
    a ≤ (choosePivot_func lt d a b).1 ∧ (choosePivot_func lt d a b).1 < b := by
  have hfst : ∀ (r : Nat × Nat), (a ≤ r.1 ∧ r.1 < b) →
      a ≤ (if r.2 = 0 then (r.1, sortedHint.increasingHint)
              else if r.2 = 4 * 3 then (r.1, sortedHint.decreasingHint)
              else (r.1, sortedHint.unknownHint)).1 ∧
      (if r.2 = 0 then (r.1, sortedHint.increasingHint)
              else if r.2 = 4 * 3 then (r.1, sortedHint.decreasingHint)
              else (r.1, sortedHint.unknownHint)).1 < b := by
    intro r hr
    split_ifs <;> exact hr
  unfold choosePivot_func
  simp only
  apply hfst
  rw [if_pos h]
  split
  · rename_i h50
    unfold medianAdjacent_func
    have m1 := median_func_mem lt d (a + (b - a) / 4 * 1 - 1) (a + (b - a) / 4 * 1)
      (a + (b - a) / 4 * 1 + 1) 0
    generalize median_func lt d (a + (b - a) / 4 * 1 - 1) (a + (b - a) / 4 * 1)
      (a + (b - a) / 4 * 1 + 1) 0 = r1 at m1 ⊢
    have m2 := median_func_mem lt d (a + (b - a) / 4 * 2 - 1) (a + (b - a) / 4 * 2)
      (a + (b - a) / 4 * 2 + 1) r1.2
    generalize median_func lt d (a + (b - a) / 4 * 2 - 1) (a + (b - a) / 4 * 2)
      (a + (b - a) / 4 * 2 + 1) r1.2 = r2 at m2 ⊢
    have m3 := median_func_mem lt d (a + (b - a) / 4 * 3 - 1) (a + (b - a) / 4 * 3)
      (a + (b - a) / 4 * 3 + 1) r2.2
    generalize median_func lt d (a + (b - a) / 4 * 3 - 1) (a + (b - a) / 4 * 3)
      (a + (b - a) / 4 * 3 + 1) r2.2 = r3 at m3 ⊢
    have m4 := median_func_mem lt d r1.1 r2.1 r3.1 r3.2
    generalize median_func lt d r1.1 r2.1 r3.1 r3.2 = r4 at m4 ⊢
    omega
  · have m := median_func_mem lt d (a + (b - a) / 4 * 1) (a + (b - a) / 4 * 2)
      (a + (b - a) / 4 * 3) 0
    generalize median_func lt d (a + (b - a) / 4 * 1) (a + (b - a) / 4 * 2)
      (a + (b - a) / 4 * 3) 0 = r at m ⊢
    omega

theorem pdqsort_break_within (d : List α) (a b limit : Nat) (wasBalanced : Bool) :
    Within a b d (pdqsort_break d a b limit wasBalanced).1 := by
  unfold pdqsort_break
  split
  · exact breakPatterns_func_within d a b
  · exact Within.refl _ _ _

theorem pdqsort_pivot_spec (lt : α → α → Bool) (d : List α) (a b : Nat) (h : 8 ≤ b - a) :
    Within a b d (pdqsort_pivot lt d a b).1 ∧ a ≤ (pdqsort_pivot lt d a b).2.1 ∧
      (pdqsort_pivot lt d a b).2.1 < b := by
  have hb := choosePivot_func_bounds lt d a b h
  unfold pdqsort_pivot
  simp only
  split
  · refine ⟨reverseRange_func_within d a b (by omega), ?_, ?_⟩
    · show a ≤ b - 1 - ((choosePivot_func lt d a b).1 - a)
      omega
    · show b - 1 - ((choosePivot_func lt d a b).1 - a) < b
      omega
  · exact ⟨Within.refl _ _ _, hb.1, hb.2⟩

theorem shiftLeft_loop_eq (lt : α → α → Bool) (j : Nat) (d : List α) :
    shiftLeft_loop lt j d = insertionSort_inner lt 0 j d := by
  induction j generalizing d with
  | zero => rfl
  | succ j ih =>
    unfold shiftLeft_loop insertionSort_inner
    cases h : Less lt d (j + 1) j
    · simp
    · simp [ih]

theorem shiftRight_loop_within (lt : α → α → Bool) (lo b : Nat) (n j : Nat) (d : List α)
    (hj : lo + 1 ≤ j) : Within lo b d (shiftRight_loop lt b n j d) := by
  induction n generalizing j d with
  | zero => exact Within.refl _ _ _
  | succ n ih =>
    unfold shiftRight_loop
    split
    · split
      · exact Within.refl _ _ _
      · exact (Within.swap lo b d j (j - 1) (by omega) (by omega) (by omega) (by omega)).trans
          (ih (j + 1) _ (by omega))
    · exact Within.refl _ _ _

theorem partialInsertionSort_loop_spec (lt : α → α → Bool) (key : α → Int) (a b : Nat)
    (s i : Nat) (d : List α) (hK : Keyed lt key d) (hb : b ≤ d.length)
    (hi1 : a + 1 ≤ i) (hi2 : i ≤ b) (hS : SortedOn key d a i)
    (hL : LowerBound key d a b) :
    Within a b d (partialInsertionSort_loop lt a b s i d).1 ∧
      ((partialInsertionSort_loop lt a b s i d).2 = true →
        SortedOn key (partialInsertionSort_loop lt a b s i d).1 a b) := by
  induction s generalizing i d with
  | zero =>
    unfold partialInsertionSort_loop
    exact ⟨Within.refl _ _ _, fun h => by cases h⟩
  | succ s ih =>
    unfold partialInsertionSort_loop
    simp only
    obtain ⟨u1, u2, u3, u4⟩ := scanUp_spec (fun k => !Less lt d k (k - 1)) (b - 1) (b - i) i
      (by omega)
    generalize scanUp (fun k => !Less lt d k (k - 1)) (b - 1) (b - i) i = i' at u1 u2 u3 u4 ⊢
    have hi'b : i' ≤ b := by omega
    have hS' : SortedOn key d a i' := by
      apply SortedOn_of_adjacent
      intro x hx1 hx2
      by_cases hxi : x + 1 < i
      · exact hS x (x + 1) hx1 (by omega) hxi
      · have := u3 (x + 1) (by omega) hx2
        simp only [Bool.not_eq_true', Nat.add_sub_cancel] at this
        exact (Less_eq_false_iff lt key d hK (x + 1) x (by omega) (by omega)).mp this
    split
    · rename_i hib
      subst hib
      exact ⟨Within.refl _ _ _, fun _ => hS'⟩
    · rename_i hib
      split
      · exact ⟨Within.refl _ _ _, fun h => by cases h⟩
      · have hi'lt : i' < b := by omega
        have hless : kAt key d i' < kAt key d (i' - 1) := by
          have := u4 (by omega)
          simp only [Bool.not_eq_false'] at this
          exact (Less_iff lt key d hK i' (i' - 1) (by omega) (by omega)).mp this
        have hW1 : Within a b d (Swap d i' (i' - 1)) :=
          Within.swap a b d _ _ (by omega) hi'lt (by omega) (by omega)
        have hk1 : ∀ k, kAt key (Swap d i' (i' - 1)) k
            = if k = i' - 1 then kAt key d i' else if k = i' then kAt key d (i' - 1)
              else kAt key d k := fun k => kAt_Swap key d i' (i' - 1) k (by omega) (by omega)
        have hK1 := hW1.keyed hK
        have hlen1 : (Swap d i' (i' - 1)).length = d.length := length_Swap _ _ _
        -- shifting the smaller one to the left
        have h2 : ∃ d2, (if i' - a ≥ 2 then shiftLeft_loop lt (i' - 1) (Swap d i' (i' - 1))
            else Swap d i' (i' - 1)) = d2 ∧ Within a i' (Swap d i' (i' - 1)) d2 ∧
            SortedOn key d2 a i' := by
          split
          · rename_i hge
            refine ⟨_, rfl, ?_⟩
            rw [shiftLeft_loop_eq]
            have := insertionSort_inner_spec lt key 0 a (i' - 1) (i' - 1)
              (Swap d i' (i' - 1)) hK1 (Nat.zero_le _) (by omega) (le_refl _)
              (by omega)
              (by
                by_cases ha0 : a = 0
                · exact Or.inl ha0.symm
                · right
                  refine ⟨by omega, ?_⟩
                  rw [hk1 (a - 1), hk1 (i' - 1)]
                  simp only [show ¬ (a - 1 = i' - 1) by omega, show ¬ (a - 1 = i') by omega,
                    if_false, if_true]
                  rcases hL with h0 | hL
                  · omega
                  · exact hL i' (by omega) hi'lt)
              (by
                intro x y hx hxy hy
                rw [hk1 x, hk1 y]
                simp only [show ¬ (x = i' - 1) by omega, show ¬ (x = i') by omega,
                  show ¬ (y = i' - 1) by omega, show ¬ (y = i') by omega, if_false]
                exact hS' x y hx hxy (by omega))
              (SortedOn_of_le key _ _ _ (le_refl _))
              (fun x y _ _ h3 h4 => by omega)
            have he : i' - 1 + 1 = i' := by omega
            rw [he] at this
            exact this
          · rename_i hge
            exact ⟨_, rfl, Within.refl _ _ _, SortedOn_of_le key _ _ _ (by omega)⟩
        obtain ⟨d2, hd2, hW2, hS2⟩ := h2
        rw [hd2]
        have hW2' : Within a b (Swap d i' (i' - 1)) d2 := hW2.mono (le_refl _) (by omega)
        have h3 : ∃ d3, (if b - i' ≥ 2 then shiftRight_loop lt b (b - (i' + 1)) (i' + 1) d2
            else d2) = d3 ∧ Within i' b d2 d3 := by
          split
          · exact ⟨_, rfl, shiftRight_loop_within lt i' b _ _ d2 (le_refl _)⟩
          · exact ⟨_, rfl, Within.refl _ _ _⟩
        obtain ⟨d3, hd3, hW3⟩ := h3
        rw [hd3]
        have hW3' : Within a b d2 d3 := hW3.mono (by omega) (le_refl _)
        have hWall : Within a b d d3 := hW1.trans (hW2'.trans hW3')
        obtain ⟨w1, w2⟩ := ih i' d3 (hWall.keyed hK) (by rw [hWall.len]; exact hb)
          (by omega) hi'b
          (SortedOn_congr key d2 d3 a i' (fun k _ hk2 => hW3.kAt_out key k (Or.inl hk2)) hS2)
          (hWall.lowerBound key hL)
        exact ⟨hWall.trans w1, w2⟩

theorem partialInsertionSort_func_spec (lt : α → α → Bool) (key : α → Int) (a b : Nat)
    (d : List α) (hK : Keyed lt key d) (hab : a < b) (hb : b ≤ d.length)
    (hL : LowerBound key d a b) :
    Within a b d (partialInsertionSort_func lt d a b).1 ∧
      ((partialInsertionSort_func lt d a b).2 = true →
        SortedOn key (partialInsertionSort_func lt d a b).1 a b) :=
  partialInsertionSort_loop_spec lt key a b 5 (a + 1) d hK hb (le_refl _) (by omega)
    (SortedOn_of_le key d a (a + 1) (le_refl _)) hL

theorem pdqsort_round_spec (lt : α → α → Bool) (key : α → Int) (a b limit : Nat)
    (wasBalanced wasPartitioned : Bool) (d : List α) (hK : Keyed lt key d)
    (hab : 8 ≤ b - a) (hb : b ≤ d.length) (hL : LowerBound key d a b) :
    Within a b d (pdqsort_round lt d a b limit wasBalanced wasPartitioned).data ∧
      a ≤ (pdqsort_round lt d a b limit wasBalanced wasPartitioned).pivot ∧
      (pdqsort_round lt d a b limit wasBalanced wasPartitioned).pivot < b ∧
      ((pdqsort_round lt d a b limit wasBalanced wasPartitioned).sorted = true →
        SortedOn key (pdqsort_round lt d a b limit wasBalanced wasPartitioned).data a b) := by
  unfold pdqsort_round
  simp only
  have h1 := pdqsort_break_within d a b limit wasBalanced
  generalize pdqsort_break d a b limit wasBalanced = s1 at h1 ⊢
  obtain ⟨h2, h3, h4⟩ := pdqsort_pivot_spec lt s1.1 a b hab
  generalize pdqsort_pivot lt s1.1 a b = s2 at h2 h3 h4 ⊢
  have h12 := h1.trans h2
  have h5 : Within a b s2.1 (pdqsort_presorted lt s2.1 a b wasBalanced wasPartitioned s2.2.2).1 ∧
      ((pdqsort_presorted lt s2.1 a b wasBalanced wasPartitioned s2.2.2).2 = true →
        SortedOn key (pdqsort_presorted lt s2.1 a b wasBalanced wasPartitioned s2.2.2).1 a b) := by
    unfold pdqsort_presorted
    split
    · exact partialInsertionSort_func_spec lt key a b s2.1 (h12.keyed hK) (by omega)
        (by rw [h12.len]; exact hb) (h12.lowerBound key hL)
    · exact ⟨Within.refl _ _ _, fun h => by cases h⟩
  exact ⟨h12.trans h5.1, h3, h4, h5.2⟩

end sort

namespace sort

variable {α : Type}

theorem SortedOn_join (key : α → Int) (d : List α) (a mid b : Nat) (M : Int)
    (h1 : SortedOn key d a mid) (h2 : SortedOn key d (mid + 1) b)
    (hl : ∀ k, a ≤ k → k < mid → kAt key d k ≤ M) (hm : kAt key d mid = M)
    (hr : ∀ k, mid < k → k < b → M ≤ kAt key d k) : SortedOn key d a b := by
  intro x y hx hxy hy
  by_cases hym : y < mid
  · exact h1 x y hx hxy hym
  · by_cases hxm : mid < x
    · exact h2 x y (by omega) hxy hy
    · have ex : kAt key d x ≤ M := by
        by_cases h : x = mid
        · rw [h, hm]
        · exact hl x hx (by omega)
      have ey : M ≤ kAt key d y := by
        by_cases h : y = mid
        · rw [h, hm]
        · exact hr y (by omega) hy
      omega

theorem pdqsort_loop_succ (lt : α → α → Bool) (n : Nat) (d : List α) (a b limit : Nat)
    (wasBalanced wasPartitioned : Bool) :
    pdqsort_loop lt (n + 1) d a b limit wasBalanced wasPartitioned
      = if b - a ≤ 12 then insertionSort_func lt d a b
        else if limit = 0 then heapSort_func lt d a b
        else if (pdqsort_round lt d a b limit wasBalanced wasPartitioned).sorted = true then
          (pdqsort_round lt d a b limit wasBalanced wasPartitioned).data
        else if (decide (0 < a) && !Less lt
            (pdqsort_round lt d a b limit wasBalanced wasPartitioned).data (a - 1)
            (pdqsort_round lt d a b limit wasBalanced wasPartitioned).pivot) = true then
          pdqsort_loop lt n
            (partitionEqual_func lt (pdqsort_round lt d a b limit wasBalanced wasPartitioned).data
              a b (pdqsort_round lt d a b limit wasBalanced wasPartitioned).pivot).1
            (partitionEqual_func lt (pdqsort_round lt d a b limit wasBalanced wasPartitioned).data
              a b (pdqsort_round lt d a b limit wasBalanced wasPartitioned).pivot).2
            b (pdqsort_round lt d a b limit wasBalanced wasPartitioned).limit
            wasBalanced wasPartitioned
        else if (partition_func lt (pdqsort_round lt d a b limit wasBalanced wasPartitioned).data
            a b (pdqsort_round lt d a b limit wasBalanced wasPartitioned).pivot).2.1 - a
            < b - (partition_func lt (pdqsort_round lt d a b limit wasBalanced wasPartitioned).data
            a b (pdqsort_round lt d a b limit wasBalanced wasPartitioned).pivot).2.1 then
          pdqsort_loop lt n
            (pdqsort_loop lt n
              (partition_func lt (pdqsort_round lt d a b limit wasBalanced wasPartitioned).data
                a b (pdqsort_round lt d a b limit wasBalanced wasPartitioned).pivot).1
              a (partition_func lt (pdqsort_round lt d a b limit wasBalanced wasPartitioned).data
                a b (pdqsort_round lt d a b limit wasBalanced wasPartitioned).pivot).2.1
              (pdqsort_round lt d a b limit wasBalanced wasPartitioned).limit true true)
            ((partition_func lt (pdqsort_round lt d a b limit wasBalanced wasPartitioned).data
                a b (pdqsort_round lt d a b limit wasBalanced wasPartitioned).pivot).2.1 + 1) b
            (pdqsort_round lt d a b limit wasBalanced wasPartitioned).limit
            (decide ((partition_func lt
              (pdqsort_round lt d a b limit wasBalanced wasPartitioned).data
                a b (pdqsort_round lt d a b limit wasBalanced wasPartitioned).pivot).2.1 - a
              ≥ (b - a) / 8))
            (partition_func lt (pdqsort_round lt d a b limit wasBalanced wasPartitioned).data
                a b (pdqsort_round lt d a b limit wasBalanced wasPartitioned).pivot).2.2
        else
          pdqsort_loop lt n
            (pdqsort_loop lt n
              (partition_func lt (pdqsort_round lt d a b limit wasBalanced wasPartitioned).data
                a b (pdqsort_round lt d a b limit wasBalanced wasPartitioned).pivot).1
              ((partition_func lt (pdqsort_round lt d a b limit wasBalanced wasPartitioned).data
                a b (pdqsort_round lt d a b limit wasBalanced wasPartitioned).pivot).2.1 + 1) b
              (pdqsort_round lt d a b limit wasBalanced wasPartitioned).limit true true)
            a (partition_func lt (pdqsort_round lt d a b limit wasBalanced wasPartitioned).data
                a b (pdqsort_round lt d a b limit wasBalanced wasPartitioned).pivot).2.1
            (pdqsort_round lt d a b limit wasBalanced wasPartitioned).limit
            (decide (b - (partition_func lt
              (pdqsort_round lt d a b limit wasBalanced wasPartitioned).data
                a b (pdqsort_round lt d a b limit wasBalanced wasPartitioned).pivot).2.1
              ≥ (b - a) / 8))
            (partition_func lt (pdqsort_round lt d a b limit wasBalanced wasPartitioned).data
                a b (pdqsort_round lt d a b limit wasBalanced wasPartitioned).pivot).2.2 := rfl

/-- With enough rounds allowed, `pdqsort_func` sorts the range `a .. b`, rearranging
only that range. -/
theorem pdqsort_loop_spec (lt : α → α → Bool) (key : α → Int) (n : Nat) (d : List α)
    (a b limit : Nat) (wasBalanced wasPartitioned : Bool) (hK : Keyed lt key d)
    (hab : a ≤ b) (hb : b ≤ d.length) (hn : b - a < n) (hL : LowerBound key d a b) :
    Within a b d (pdqsort_loop lt n d a b limit wasBalanced wasPartitioned) ∧
      SortedOn key (pdqsort_loop lt n d a b limit wasBalanced wasPartitioned) a b := by
  induction n generalizing d a b limit wasBalanced wasPartitioned with
  | zero => omega
  | succ n ih =>
    rw [pdqsort_loop_succ]
    split
    · exact insertionSort_func_spec lt key a b d hK hb
    · rename_i h12
      split
      · exact heapSort_func_spec lt key a b d hK hab hb
      · obtain ⟨r1, r2, r3, r4⟩ := pdqsort_round_spec lt key a b limit wasBalanced
          wasPartitioned d hK (by omega) hb hL
        generalize pdqsort_round lt d a b limit wasBalanced wasPartitioned = r at r1 r2 r3 r4 ⊢
        have hKr := r1.keyed hK
        have hbr : b ≤ r.data.length := by rw [r1.len]; exact hb
        have hLr := r1.lowerBound key hL
        split
        · rename_i hs
          exact ⟨r1, r4 hs⟩
        · split
          · rename_i hc
            simp only [Bool.and_eq_true, decide_eq_true_eq, Bool.not_eq_true'] at hc
            have hle := (Less_eq_false_iff lt key r.data hKr (a - 1) r.pivot (by omega)
              (by omega)).mp hc.2
            have hLr' : ∀ k, a ≤ k → k < b → kAt key r.data (a - 1) ≤ kAt key r.data k := by
              rcases hLr with h0 | h
              · omega
              · exact h
            obtain ⟨e1, e2, e3, e4, e5⟩ := partitionEqual_func_spec lt key a b r.pivot r.data hKr
              (by omega) hbr r2 r3
            generalize partitionEqual_func lt r.data a b r.pivot = e at e1 e2 e3 e4 e5 ⊢
            have hge : ∀ k, a ≤ k → k < b → kAt key r.data r.pivot ≤ kAt key e.1 k :=
              e1.forall_kAt key (fun v => kAt key r.data r.pivot ≤ v)
                (fun k hk1 hk2 => le_trans hle (hLr' k hk1 hk2))
            obtain ⟨w1, w2⟩ := ih e.1 e.2 b r.limit wasBalanced wasPartitioned (e1.keyed hKr) e3
              (by rw [e1.len]; exact hbr) (by omega)
              (Or.inr (fun k hk1 hk2 => by
                have h1 := e4 (e.2 - 1) (by omega) (by omega)
                have h2 := e5 k hk1 hk2
                omega))
            generalize pdqsort_loop lt n e.1 e.2 b r.limit wasBalanced wasPartitioned = d'
              at w1 w2 ⊢
            refine ⟨r1.trans (e1.trans (w1.mono (by omega) (le_refl _))), ?_⟩
            intro x y hx hxy hy
            by_cases hxe : e.2 ≤ x
            · exact w2 x y hxe hxy hy
            · have ex : kAt key d' x = kAt key e.1 x := w1.kAt_out key x (by omega)
              have ex1 := e4 x hx (by omega)
              by_cases hye : y < e.2
              · have ey : kAt key d' y = kAt key e.1 y := w1.kAt_out key y (by omega)
                have ey1 := hge y (by omega) hy
                omega
              · have ey := w1.forall_kAt key (fun v => kAt key r.data r.pivot < v) e5 y
                  (by omega) hy
                simp only at ey
                omega
          · obtain ⟨p1, p2, p3, p4, p5⟩ := partition_func_spec lt key a b r.pivot r.data hKr
              (by omega) hbr r2 r3
            generalize partition_func lt r.data a b r.pivot = p at p1 p2 p3 p4 p5 ⊢
            have hKp := p1.keyed hKr
            have hbp : b ≤ p.1.length := by rw [p1.len]; exact hbr
            have hLp := p1.lowerBound key hLr
            have hLleft : LowerBound key p.1 a p.2.1 := by
              rcases hLp with h0 | h
              · exact Or.inl h0
              · exact Or.inr (fun k hk1 hk2 => h k hk1 (by omega))
            have hLright : LowerBound key p.1 (p.2.1 + 1) b :=
              Or.inr (fun k hk1 hk2 => by
                simp only [Nat.add_sub_cancel]
                exact p5 k (by omega) hk2)
            split
            · obtain ⟨w1, w2⟩ := ih p.1 a p.2.1 r.limit true true hKp p2 (by omega) (by omega)
                hLleft
              generalize pdqsort_loop lt n p.1 a p.2.1 r.limit true true = d1 at w1 w2 ⊢
              have w1' : Within a b p.1 d1 := w1.mono (le_refl _) (by omega)
              obtain ⟨w3, w4⟩ := ih d1 (p.2.1 + 1) b r.limit
                (decide (p.2.1 - a ≥ (b - a) / 8)) p.2.2 (w1'.keyed hKp) (by omega)
                (by rw [w1'.len]; exact hbp) (by omega)
                (Or.inr (fun k hk1 hk2 => by
                  simp only [Nat.add_sub_cancel]
                  rw [w1.kAt_out key p.2.1 (by omega), w1.kAt_out key k (by omega)]
                  exact p5 k (by omega) hk2))
              generalize pdqsort_loop lt n d1 (p.2.1 + 1) b r.limit
                (decide (p.2.1 - a ≥ (b - a) / 8)) p.2.2 = d2 at w3 w4 ⊢
              have w3' : Within a b d1 d2 := w3.mono (by omega) (le_refl _)
              refine ⟨r1.trans (p1.trans (w1'.trans w3')), ?_⟩
              apply SortedOn_join key d2 a p.2.1 b (kAt key p.1 p.2.1)
              · exact SortedOn_congr key d1 d2 a p.2.1
                  (fun k _ hk2 => w3.kAt_out key k (by omega)) w2
              · exact w4
              · intro k hk1 hk2
                rw [w3.kAt_out key k (by omega)]
                exact le_of_lt (w1.forall_kAt key (fun v => v < kAt key p.1 p.2.1) p4 k hk1 hk2)
              · rw [w3.kAt_out key p.2.1 (by omega), w1.kAt_out key p.2.1 (by omega)]
              · intro k hk1 hk2
                exact w3.forall_kAt key (fun v => kAt key p.1 p.2.1 ≤ v)
                  (fun k' hk1' hk2' => by
                    rw [w1.kAt_out key k' (by omega)]
                    exact p5 k' (by omega) hk2') k (by omega) hk2
            · obtain ⟨w1, w2⟩ := ih p.1 (p.2.1 + 1) b r.limit true true hKp (by omega) hbp
                (by omega) hLright
              generalize pdqsort_loop lt n p.1 (p.2.1 + 1) b r.limit true true = d1 at w1 w2 ⊢
              have w1' : Within a b p.1 d1 := w1.mono (by omega) (le_refl _)
              obtain ⟨w3, w4⟩ := ih d1 a p.2.1 r.limit
                (decide (b - p.2.1 ≥ (b - a) / 8)) p.2.2 (w1'.keyed hKp) p2
                (by rw [w1'.len]; omega) (by omega)
                (w1'.lowerBound key hLp |>.elim Or.inl
                  (fun h => Or.inr (fun k hk1 hk2 => h k hk1 (by omega))))
              generalize pdqsort_loop lt n d1 a p.2.1 r.limit
                (decide (b - p.2.1 ≥ (b - a) / 8)) p.2.2 = d2 at w3 w4 ⊢
              have w3' : Within a b d1 d2 := w3.mono (le_refl _) (by omega)
              refine ⟨r1.trans (p1.trans (w1'.trans w3')), ?_⟩
              apply SortedOn_join key d2 a p.2.1 b (kAt key p.1 p.2.1)
              · exact w4
              · exact SortedOn_congr key d1 d2 (p.2.1 + 1) b
                  (fun k hk1 _ => w3.kAt_out key k (by omega)) w2
              · intro k hk1 hk2
                exact le_of_lt (w3.forall_kAt key (fun v => v < kAt key p.1 p.2.1)
                  (fun k' hk1' hk2' => by
                    rw [w1.kAt_out key k' (by omega)]
                    exact p4 k' hk1' hk2') k hk1 hk2)
              · rw [w3.kAt_out key p.2.1 (by omega), w1.kAt_out key p.2.1 (by omega)]
              · intro k hk1 hk2
                rw [w3.kAt_out key k (by omega)]
                exact w1.forall_kAt key (fun v => kAt key p.1 p.2.1 ≤ v)
                  (fun k' hk1' hk2' => p5 k' (by omega) hk2') k (by omega) hk2

/-- The function `sort.Slice` sorts: when `lt` is the order of the keys on the
elements of `x`, the keys of the result do not decrease. -/
theorem Slice_sorted (lt : α → α → Bool) (key : α → Int) (x : List α) (hK : Keyed lt key x) :
    SortedOn key (Slice lt x) 0 x.length := by
  unfold Slice pdqsort_func
  simp only
  exact (pdqsort_loop_spec lt key _ x 0 x.length _ true true hK (Nat.zero_le _) (le_refl _)
    (by omega) (Or.inl rfl)).2

end sort

theorem saveAsJSON_less_keyed (items : List Record)
    (h : ∀ r ∈ items, math.IsNaN r.Value = false) :
    sort.Keyed saveAsJSON_less (fun r => -(float64.key r.Value)) items := by
  intro x hx y hy
  have h1 := h x hx
  have h2 := h y hy
  simp only [saveAsJSON_less, float64.gt, h1, h2, Bool.not_false, Bool.true_and,
    decide_eq_true_eq]
  omega

theorem kAt_eq_getElem {α : Type} (key : α → Int) (d : List α) (i : Nat) (h : i < d.length) :
    sort.kAt key d i = key d[i] := by
  unfold sort.kAt
  rw [List.getElem?_eq_getElem h]

theorem Slice_descending (items : List Record)
    (h : ∀ r ∈ items, math.IsNaN r.Value = false) :
    List.Chain' (fun a b => float64.ge a.Value b.Value = true)
      (sort.Slice saveAsJSON_less items) := by
  have hperm := sort.Slice_perm saveAsJSON_less items
  have hsorted := sort.Slice_sorted saveAsJSON_less (fun r => -(float64.key r.Value)) items
    (saveAsJSON_less_keyed items h)
  rw [List.chain'_iff_get]
  intro i hi
  have hi1 : i < (sort.Slice saveAsJSON_less items).length := by omega
  have hi2 : i + 1 < (sort.Slice saveAsJSON_less items).length := by omega
  have hs := hsorted i (i + 1) (Nat.zero_le _) (by omega) (by rw [← hperm.length_eq]; exact hi2)
  rw [kAt_eq_getElem _ _ i hi1, kAt_eq_getElem _ _ (i + 1) hi2] at hs
  have n1 := h _ (hperm.subset (List.getElem_mem hi1))
  have n2 := h _ (hperm.subset (List.getElem_mem hi2))
  simp only [List.get_eq_getElem, float64.ge, n1, n2, Bool.not_false, Bool.true_and,
    decide_eq_true_eq]
  omega

/-- C1: for records none of whose values is a NaN, every two neighbours `a`, `b` of the
slice sorted in `saveAsJSON` satisfy `a.Value >= b.Value`; and the records parsed
from (840, USD, 75,4148) and (978, EUR, 90,1936) come out with EUR first. -/
theorem C1_sorted_descending (items : List Record)
    (h : ∀ r ∈ items, math.IsNaN r.Value = false) :
    (∃ out, saveAsJSON_sorted (some items) = some out ∧
      List.Chain' (fun a b => float64.ge a.Value b.Value = true) out) ∧
    parseXML (Example.env [Example.valute 840 "USD" "75,4148",
        Example.valute 978 "EUR" "90,1936"] Example.enc) "input.xml"
      = (some [⟨840, "USD", ⟨0x4052DA8C154C985F⟩⟩, ⟨978, "EUR", ⟨0x40568C63F141205C⟩⟩], none) ∧
    saveAsJSON_sorted
        (some [⟨840, "USD", ⟨0x4052DA8C154C985F⟩⟩, ⟨978, "EUR", ⟨0x40568C63F141205C⟩⟩])
      = some [⟨978, "EUR", ⟨0x40568C63F141205C⟩⟩, ⟨840, "USD", ⟨0x4052DA8C154C985F⟩⟩] := by
  refine ⟨⟨_, rfl, Slice_descending items h⟩, by decide, by decide⟩

theorem C1_sorted_descending_witness :
    (∃ out, saveAsJSON_sorted
        (some [⟨840, "USD", ⟨0x4052DA8C154C985F⟩⟩, ⟨978, "EUR", ⟨0x40568C63F141205C⟩⟩,
          ⟨36, "AUD", ⟨0x4052DA8C154C985F⟩⟩]) = some out ∧
      List.Chain' (fun a b => float64.ge a.Value b.Value = true) out) ∧
    parseXML (Example.env [Example.valute 840 "USD" "75,4148",
        Example.valute 978 "EUR" "90,1936"] Example.enc) "input.xml"
      = (some [⟨840, "USD", ⟨0x4052DA8C154C985F⟩⟩, ⟨978, "EUR", ⟨0x40568C63F141205C⟩⟩], none) ∧
    saveAsJSON_sorted
        (some [⟨840, "USD", ⟨0x4052DA8C154C985F⟩⟩, ⟨978, "EUR", ⟨0x40568C63F141205C⟩⟩])
      = some [⟨978, "EUR", ⟨0x40568C63F141205C⟩⟩, ⟨840, "USD", ⟨0x4052DA8C154C985F⟩⟩] :=
  C1_sorted_descending
    [⟨840, "USD", ⟨0x4052DA8C154C985F⟩⟩, ⟨978, "EUR", ⟨0x40568C63F141205C⟩⟩,
      ⟨36, "AUD", ⟨0x4052DA8C154C985F⟩⟩] (by decide)

/-- C2: when the normalisation in `FloatValue.UnmarshalXML` succeeds on `s`, the value
stored is the float that `strconv.ParseFloat` gives for `s` with every comma
replaced by a period; on `"75,4148"` it stores the float nearest to 75.4148 (its
distance to 75.4148 is at most half a unit in the last place, `2 ^ -47`). -/
theorem C2_normalised_value (f v : FloatValue) (s : String)
    (h : FloatValue.UnmarshalXML f (.ok s) = (v, none)) :
    strconv.ParseFloat (Spec.commasToPeriods s) = (v, none) ∧
    FloatValue.UnmarshalXML f (.ok "75,4148") = (⟨0x4052DA8C154C985F⟩, none) ∧
    float64.exp2 ⟨0x4052DA8C154C985F⟩ = -46 ∧
    2 * (10000 * (float64.significand ⟨0x4052DA8C154C985F⟩ : Int)
      - 754148 * 2 ^ 46).natAbs ≤ 10000 := by
  refine ⟨UnmarshalXML_success f v s h, ?_, by decide, by decide⟩
  have hp : strconv.ParseFloat (Spec.commasToPeriods "75,4148")
      = (⟨0x4052DA8C154C985F⟩, none) := by decide
  rw [UnmarshalXML_of_none f "75,4148" (by rw [hp]), hp]

theorem C2_normalised_value_witness :
    strconv.ParseFloat (Spec.commasToPeriods "90,1936") = (⟨0x40568C63F141205C⟩, none) ∧
    FloatValue.UnmarshalXML ⟨0⟩ (.ok "75,4148") = (⟨0x4052DA8C154C985F⟩, none) ∧
    float64.exp2 ⟨0x4052DA8C154C985F⟩ = -46 ∧
    2 * (10000 * (float64.significand ⟨0x4052DA8C154C985F⟩ : Int)
      - 754148 * 2 ^ 46).natAbs ≤ 10000 :=
  C2_normalised_value ⟨0⟩ ⟨0x40568C63F141205C⟩ "90,1936" (by decide)

/-- C4: when some `Valute` element of the document read has a `Value` child on which
the normalisation fails, `parseXML` returns an error and the nil slice, and `main`
panics with that error without any call to `os.MkdirAll` or `os.WriteFile`. -/
theorem C4_bad_value_aborts (env : Env) (cfg : Config) (doc : List xml.Node)
    (cs : List xml.Child) (elem : Except error String)
    (hcfg : env.parseConfig = .ok cfg)
    (hread : env.ReadFile cfg.InputFile = .ok doc)
    (hnode : xml.Node.Valute cs ∈ doc) (hchild : xml.Child.Value elem ∈ cs)
    (hfail : (FloatValue.UnmarshalXML ⟨0⟩ elem).2 ≠ none) :
    ∃ err, parseXML env cfg.InputFile = (none, some err) ∧
      service.main env = ([], some err) := by
  obtain ⟨err, herr⟩ := parseXML_bad_value env cfg.InputFile doc cs elem hread hnode hchild hfail
  exact ⟨err, herr, by simp only [service.main, hcfg, herr]⟩

theorem C4_bad_value_aborts_witness :
    ∃ err, parseXML (Example.env [Example.valute 840 "USD" "75,4148",
        Example.valute 978 "EUR" "1,2,3"] Example.enc) "input.xml" = (none, some err) ∧
      service.main (Example.env [Example.valute 840 "USD" "75,4148",
        Example.valute 978 "EUR" "1,2,3"] Example.enc) = ([], some err) :=
  C4_bad_value_aborts (Example.env [Example.valute 840 "USD" "75,4148",
      Example.valute 978 "EUR" "1,2,3"] Example.enc) ⟨"input.xml", "out/output.json"⟩ _
    [xml.Child.NumCode (.ok 978), xml.Child.CharCode (.ok "EUR"), xml.Child.Value (.ok "1,2,3")]
    (.ok "1,2,3") rfl rfl (by simp [Example.valute]) (by simp) (by decide)

/-- C6 (as the code behaves): for a document without `Valute` elements `parseXML`
succeeds with the nil slice, and, the directory made, the text `saveAsJSON` hands to
`os.WriteFile` is `null`, not `[]`. -/
theorem C6_empty_document_writes_null (env : Env) (cfg : Config)
    (hcfg : env.parseConfig = .ok cfg)
    (hread : env.ReadFile cfg.InputFile = .ok [])
    (hmk : env.MkdirAll (env.Dir cfg.OutputFile) = none) :
    parseXML env cfg.InputFile = (none, none) ∧
    json.MarshalIndent env.enc (saveAsJSON_sorted none) "" "  " = .ok "null" ∧
    ∃ err, service.main env
      = ([Effect.MkdirAll (env.Dir cfg.OutputFile), Effect.WriteFile cfg.OutputFile "null"],
          err) := by
  have hp : parseXML env cfg.InputFile = (none, none) := by
    simp only [parseXML, hread, xml.Decode]
  refine ⟨hp, rfl, ?_⟩
  have hm : json.MarshalIndent env.enc (saveAsJSON_sorted none) "" "  " = .ok "null" := rfl
  cases hw : env.WriteFile cfg.OutputFile "null" with
  | none =>
    exact ⟨none, by simp only [service.main, hcfg, hp, saveAsJSON, hmk, hm, hw]⟩
  | some e =>
    exact ⟨some (error.wrap ("write file " ++ cfg.OutputFile) e),
      by simp only [service.main, hcfg, hp, saveAsJSON, hmk, hm, hw]⟩

theorem C6_empty_document_writes_null_witness :
    parseXML (Example.env [] Example.enc) "input.xml" = (none, none) ∧
    json.MarshalIndent Example.enc (saveAsJSON_sorted none) "" "  " = .ok "null" ∧
    ∃ err, service.main (Example.env [] Example.enc)
      = ([Effect.MkdirAll "out", Effect.WriteFile "out/output.json" "null"], err) :=
  C6_empty_document_writes_null (Example.env [] Example.enc) ⟨"input.xml", "out/output.json"⟩
    rfl rfl rfl

/-- C5 (counterexample): `NaN` is no decimal numeral, yet the normalisation succeeds
on it and stores a value; so it does on the hexadecimal floating-point literal
`0x1p-2` and on `1_000`, where an underscore separates digits. -/
theorem C5_counterexample :
    (Spec.isDecimalNumeral (Spec.commasToPeriods "NaN") = false ∧
      FloatValue.UnmarshalXML ⟨0⟩ (.ok "NaN") = (math.NaN, none)) ∧
    (Spec.isDecimalNumeral (Spec.commasToPeriods "0x1p-2") = false ∧
      FloatValue.UnmarshalXML ⟨0⟩ (.ok "0x1p-2") = (⟨0x3FD0000000000000⟩, none)) ∧
    (Spec.isDecimalNumeral (Spec.commasToPeriods "1_000") = false ∧
      FloatValue.UnmarshalXML ⟨0⟩ (.ok "1_000") = (⟨0x408F400000000000⟩, none)) := by
  refine ⟨⟨by decide, by decide⟩, ⟨by decide, by decide⟩, ⟨by decide, by decide⟩⟩

/-- C7 (counterexample): the normalisation succeeds on `-Inf` and on `NaN` with
values that are not finite, and `parseXML` returns a record holding such a value. -/
theorem C7_counterexample :
    FloatValue.UnmarshalXML ⟨0⟩ (.ok "-Inf") = (math.Inf true, none) ∧
    float64.isFinite (math.Inf true) = false ∧
    FloatValue.UnmarshalXML ⟨0⟩ (.ok "NaN") = (math.NaN, none) ∧
    float64.isFinite math.NaN = false ∧
    parseXML (Example.env [Example.valute 840 "USD" "NaN"] Example.enc) "input.xml"
      = (some [⟨840, "USD", math.NaN⟩], none) := by
  refine ⟨by decide, by decide, by decide, by decide, by decide⟩

/-- C10 (counterexample): `parseXML` succeeds on a document whose only rate is
written `NaN`, and the JSON serialisation of the record it returns fails. -/
theorem C10_counterexample :
    parseXML (Example.env [Example.valute 840 "USD" "NaN"] Example.enc) "input.xml"
      = (some [⟨840, "USD", math.NaN⟩], none) ∧
    json.MarshalIndent Example.enc (saveAsJSON_sorted (some [⟨840, "USD", math.NaN⟩])) "" "  "
      = .error (error.UnsupportedValueError math.NaN) ∧
    service.main (Example.env [Example.valute 840 "USD" "NaN"] Example.enc)
      = ([Effect.MkdirAll "out"],
          some (error.wrap "marshal json" (error.UnsupportedValueError math.NaN))) := by
  refine ⟨by decide, by rfl, by decide⟩

namespace strconv

theorem char_eq_of_toNat (c d : Char) (h : c.toNat = d.toNat) : c = d := by
  rw [← Char.ofNat_toNat c, ← Char.ofNat_toNat d, h]

theorem toLowerASCII_toNat (c : Char) :
    (Spec.toLowerASCII c).toNat =
      if 'A'.toNat ≤ c.toNat ∧ c.toNat ≤ 'Z'.toNat then c.toNat + ('a'.toNat - 'A'.toNat)
      else c.toNat := by
  unfold Spec.toLowerASCII
  by_cases hup : 'A'.toNat ≤ c.toNat ∧ c.toNat ≤ 'Z'.toNat
  · rw [if_pos hup, if_pos hup]
    have h1 : 'A'.toNat = 65 := by decide
    have h2 : 'Z'.toNat = 90 := by decide
    have h3 : 'a'.toNat = 97 := by decide
    rw [h1, h2] at hup
    rw [h3, h1]
    have hv : (c.toNat + (97 - 65)).isValidChar := by
      left
      omega
    unfold Char.ofNat
    rw [dif_pos hv]
    rfl
  · rw [if_neg hup, if_neg hup]

theorem commonPrefixLenIgnoreCase_cons (c p : Char) (s pre : List Char) :
    commonPrefixLenIgnoreCase (c :: s) (p :: pre) =
      if Spec.toLowerASCII c = p then commonPrefixLenIgnoreCase s pre + 1 else 0 := by
  have hiff : Spec.toLowerASCII c = p ↔
      (if 'A'.toNat ≤ c.toNat ∧ c.toNat ≤ 'Z'.toNat then c.toNat + ('a'.toNat - 'A'.toNat)
        else c.toNat) = p.toNat := by
    rw [← toLowerASCII_toNat]
    constructor
    · intro h; rw [h]
    · intro h; exact char_eq_of_toNat _ _ h
  show (if (if 'A'.toNat ≤ c.toNat ∧ c.toNat ≤ 'Z'.toNat then c.toNat + ('a'.toNat - 'A'.toNat)
        else c.toNat) ≠ p.toNat then 0 else commonPrefixLenIgnoreCase s pre + 1) = _
  by_cases h : Spec.toLowerASCII c = p
  · rw [if_pos h, if_neg (not_not.mpr (hiff.mp h))]
  · rw [if_neg h, if_pos (fun h2 => h (hiff.mpr h2))]

/-- The characters that `commonPrefixLenIgnoreCase` counts are, in small letters,
the first characters of the pattern. -/
theorem commonPrefixLenIgnoreCase_take (s pre : List Char) (k : Nat)
    (h : k ≤ commonPrefixLenIgnoreCase s pre) :
    (s.take k).map Spec.toLowerASCII = pre.take k := by
  induction k generalizing s pre with
  | zero => simp
  | succ k ih =>
    cases s with
    | nil => simp [commonPrefixLenIgnoreCase] at h
    | cons c cs =>
      cases pre with
      | nil => simp [commonPrefixLenIgnoreCase] at h
      | cons p ps =>
        rw [commonPrefixLenIgnoreCase_cons] at h
        by_cases hc : Spec.toLowerASCII c = p
        · rw [if_pos hc] at h
          simp only [List.take_succ_cons, List.map_cons, hc, List.cons.injEq, true_and]
          exact ih cs ps (by omega)
        · rw [if_neg hc] at h
          omega

theorem commonPrefixLenIgnoreCase_le (s pre : List Char) :
    commonPrefixLenIgnoreCase s pre ≤ s.length := by
  induction s generalizing pre with
  | nil => simp [commonPrefixLenIgnoreCase]
  | cons c cs ih =>
    cases pre with
    | nil => simp [commonPrefixLenIgnoreCase]
    | cons p ps =>
      rw [commonPrefixLenIgnoreCase_cons]
      have := ih ps
      simp only [List.length_cons]
      split <;> omega

theorem special_inf_whole (s : List Char) (neg : Bool) (k : Nat) (w : float64)
    (h : special_inf s neg k = some (w, k + s.length)) :
    s.map Spec.toLowerASCII = "inf".toList ∨ s.map Spec.toLowerASCII = "infinity".toList := by
  have hle := commonPrefixLenIgnoreCase_le s "infinity".toList
  have htake := commonPrefixLenIgnoreCase_take s "infinity".toList
  generalize hn : commonPrefixLenIgnoreCase s "infinity".toList = n at hle htake
  have h' : (if (if 3 < n ∧ n < 8 then 3 else n) = 3 ∨ (if 3 < n ∧ n < 8 then 3 else n) = 8
      then some (math.Inf neg, k + (if 3 < n ∧ n < 8 then 3 else n)) else none)
      = some (w, k + s.length) := by
    rw [← h, ← hn]
    rfl
  by_cases hc : (if 3 < n ∧ n < 8 then 3 else n) = 3 ∨ (if 3 < n ∧ n < 8 then 3 else n) = 8
  · rw [if_pos hc] at h'
    simp only [Option.some.injEq, Prod.mk.injEq] at h'
    have hk : (if 3 < n ∧ n < 8 then 3 else n) = s.length := by omega
    by_cases h38 : 3 < n ∧ n < 8
    · rw [if_pos h38] at hk
      left
      have := htake 3 (by omega)
      rw [hk, List.take_length] at this
      rw [this, ← hk]
      rfl
    · rw [if_neg h38] at hk hc
      have := htake s.length (by omega)
      rw [List.take_length] at this
      rw [this, ← hk]
      rcases hc with h3 | h8
      · left; rw [h3]; rfl
      · right; rw [h8]; rfl
  · rw [if_neg hc] at h'
    cases h'

/-- When `special` recognises the whole string, the string is a spelling of an
infinity or of NaN. -/
theorem special_whole (s : String) (w : float64)
    (h : special s.toList = some (w, s.toList.length)) : Spec.isSpecialSpelling s = true := by
  unfold Spec.isSpecialSpelling
  simp only [decide_eq_true_eq, List.mem_cons, List.mem_singleton, List.not_mem_nil, or_false]
  unfold special at h
  cases hl : s.toList with
  | nil => rw [hl] at h; cases h
  | cons c cs =>
    rw [hl] at h
    simp only at h
    split at h
    · rename_i hsign
      have h' : special_inf cs (decide (c = '-')) 1 = some (w, 1 + cs.length) := by
        rw [h]
        simp only [List.length_cons]
        congr 2
        omega
      have hlow : Spec.toLowerASCII c = c := by
        rcases hsign with hc | hc <;> subst hc <;> decide
      rcases special_inf_whole cs _ 1 w h' with hm | hm
      · rcases hsign with hc | hc
        · right; left
          rw [List.map_cons, hm, hlow, hc]; rfl
        · right; right; left
          rw [List.map_cons, hm, hlow, hc]; rfl
      · rcases hsign with hc | hc
        · right; right; right; right; left
          rw [List.map_cons, hm, hlow, hc]; rfl
        · right; right; right; right; right; left
          rw [List.map_cons, hm, hlow, hc]; rfl
    · split at h
      · have h' : special_inf (c :: cs) false 0 = some (w, 0 + (c :: cs).length) := by
          rw [h]
          simp
        rcases special_inf_whole (c :: cs) _ 0 w h' with hm | hm
        · left; exact hm
        · right; right; right; left; exact hm
      · split at h
        · split at h
          · rename_i hnan
            simp only [Option.some.injEq, Prod.mk.injEq] at h
            have hlen : (c :: cs).length = 3 := h.2.symm
            have := commonPrefixLenIgnoreCase_take (c :: cs) "nan".toList 3 (by omega)
            rw [← hlen, List.take_length] at this
            right; right; right; right; right; right
            rw [this, hlen]
            rfl
          · cases h
        · cases h

end strconv

/-- A string that `strconv.ParseFloat` accepts and `special` recognises is a spelling
of an infinity or of NaN. -/
theorem ParseFloat_special_spelling (s : String) (wn : float64 × Nat)
    (hs : strconv.special s.toList = some wn) (h : (strconv.ParseFloat s).2 = none) :
    Spec.isSpecialSpelling s = true := by
  unfold strconv.ParseFloat at h
  simp only at h
  split at h
  · simp at h
  · rename_i hcond
    simp only [Option.map_eq_none'] at h
    have hlen : (strconv.atof64 s.toList).2.1 = s.length := by
      by_contra hne
      exact hcond ⟨hne, Or.inl h⟩
    unfold strconv.atof64 at hlen
    rw [hs] at hlen
    simp only at hlen
    apply strconv.special_whole s wn.1
    rw [hs]
    have : wn.2 = s.toList.length := hlen
    rw [← this]

namespace strconv

/-- A string that reads, in small letters, like the start of the pattern is counted
in full by `commonPrefixLenIgnoreCase`. -/
theorem commonPrefixLenIgnoreCase_of_map (s pre : List Char)
    (h : s.map Spec.toLowerASCII = pre.take s.length) (hlen : s.length ≤ pre.length) :
    commonPrefixLenIgnoreCase s pre = s.length := by
  induction s generalizing pre with
  | nil => simp [commonPrefixLenIgnoreCase]
  | cons c cs ih =>
    cases pre with
    | nil => simp at hlen
    | cons p ps =>
      simp only [List.map_cons, List.length_cons, List.take_succ_cons, List.cons.injEq] at h
      simp only [List.length_cons, Nat.add_le_add_iff_right] at hlen
      rw [commonPrefixLenIgnoreCase_cons, if_pos h.1, ih ps h.2 hlen]
      rfl

theorem special_inf_of_spelling (s : List Char) (neg : Bool) (k : Nat)
    (h : s.map Spec.toLowerASCII = "inf".toList ∨ s.map Spec.toLowerASCII = "infinity".toList) :
    special_inf s neg k = some (math.Inf neg, k + s.length) := by
  unfold special_inf
  rcases h with h | h
  · have hlen : s.length = 3 := by
      have := congrArg List.length h
      simpa using this
    have hc : commonPrefixLenIgnoreCase s "infinity".toList = 3 := by
      rw [← hlen]
      apply commonPrefixLenIgnoreCase_of_map
      · rw [h, hlen]; rfl
      · rw [hlen]; decide
    simp only [hc]
    simp [hlen]
  · have hlen : s.length = 8 := by
      have := congrArg List.length h
      simpa using this
    have hc : commonPrefixLenIgnoreCase s "infinity".toList = 8 := by
      rw [← hlen]
      apply commonPrefixLenIgnoreCase_of_map
      · rw [h, hlen]; rfl
      · rw [hlen]; decide
    simp only [hc]
    simp [hlen]

/-- A character that `toLowerASCII` sends to a character that is no small letter is
that character. -/
theorem toLowerASCII_eq_other (c p : Char) (h : Spec.toLowerASCII c = p)
    (hp : ¬ ('a'.toNat ≤ p.toNat ∧ p.toNat ≤ 'z'.toNat)) : c = p := by
  have ht := toLowerASCII_toNat c
  rw [h] at ht
  by_cases hup : 'A'.toNat ≤ c.toNat ∧ c.toNat ≤ 'Z'.toNat
  · rw [if_pos hup] at ht
    exfalso
    apply hp
    have h1 : 'A'.toNat = 65 := by decide
    have h2 : 'Z'.toNat = 90 := by decide
    have h3 : 'a'.toNat = 97 := by decide
    have h4 : 'z'.toNat = 122 := by decide
    rw [h1, h2] at hup
    rw [h3, h1] at ht
    rw [h3, h4]
    omega
  · rw [if_neg hup] at ht
    exact (char_eq_of_toNat _ _ ht).symm

/-- A character that `toLowerASCII` sends to a small letter is that letter or its
capital, the character with the code `k`. -/
theorem toLowerASCII_eq_letter (c p : Char) (k : Nat) (h : Spec.toLowerASCII c = p)
    (hk : k + 32 = p.toNat) : c = p ∨ c.toNat = k := by
  have ht := toLowerASCII_toNat c
  rw [h] at ht
  by_cases hup : 'A'.toNat ≤ c.toNat ∧ c.toNat ≤ 'Z'.toNat
  · rw [if_pos hup] at ht
    right
    have h1 : 'A'.toNat = 65 := by decide
    have h3 : 'a'.toNat = 97 := by decide
    rw [h3, h1] at ht
    omega
  · rw [if_neg hup] at ht
    exact Or.inl (char_eq_of_toNat _ _ ht).symm

/-- On a spelling of an infinity or of NaN, `special` recognises the whole string
and gives the value spelled. -/
theorem special_of_spelling (s : String) (h : Spec.isSpecialSpelling s = true) :
    special s.toList = some (Spec.specialValue s, s.toList.length) := by
  unfold Spec.isSpecialSpelling at h
  simp only [decide_eq_true_eq, List.mem_cons, List.mem_singleton, List.not_mem_nil,
    or_false] at h
  unfold Spec.specialValue
  generalize s.toList = l at h ⊢
  have hsigned : ∀ (sg : Char) (body : List Char), (sg = '+' ∨ sg = '-') →
      (body = "inf".toList ∨ body = "infinity".toList) →
      l.map Spec.toLowerASCII = sg :: body →
      special l = some (if l.map Spec.toLowerASCII = "nan".toList then math.NaN
        else math.Inf (decide (l.head? = some '-')), l.length) := by
    intro sg body hsg hbody hmap
    cases l with
    | nil => cases hmap
    | cons c cs =>
      simp only [List.map_cons, List.cons.injEq] at hmap
      have hc : c = sg := by
        apply toLowerASCII_eq_other c sg hmap.1
        rcases hsg with h1 | h1 <;> rw [h1] <;> decide
      have hnn : ¬ ((c :: cs).map Spec.toLowerASCII = "nan".toList) := by
        intro hn
        simp only [List.map_cons] at hn
        rw [hmap.1] at hn
        have := (List.cons.inj hn).1
        rcases hsg with h1 | h1 <;> rw [h1] at this <;> exact absurd this (by decide)
      rw [if_neg hnn]
      unfold special
      simp only
      rw [if_pos (by rw [hc]; exact hsg),
        special_inf_of_spelling cs _ 1 (by rw [hmap.2]; exact hbody)]
      simp [Nat.add_comm]
  have hplain : (l.map Spec.toLowerASCII = "inf".toList
        ∨ l.map Spec.toLowerASCII = "infinity".toList) →
      special l = some (if l.map Spec.toLowerASCII = "nan".toList then math.NaN
        else math.Inf (decide (l.head? = some '-')), l.length) := by
    intro hmap
    cases l with
    | nil => rcases hmap with h1 | h1 <;> cases h1
    | cons c cs =>
      have hi : Spec.toLowerASCII c = 'i' := by
        rcases hmap with h1 | h1 <;>
          · simp only [List.map_cons] at h1
            exact (List.cons.inj h1).1
      have hc : c = 'i' ∨ c = 'I' := by
        rcases toLowerASCII_eq_letter c 'i' 73 hi (by decide) with h1 | h1
        · exact Or.inl h1
        · exact Or.inr (char_eq_of_toNat c 'I' h1)
      have hnn : ¬ ((c :: cs).map Spec.toLowerASCII = "nan".toList) := by
        intro hn
        simp only [List.map_cons] at hn
        rw [hi] at hn
        exact absurd (List.cons.inj hn).1 (by decide)
      rw [if_neg hnn]
      unfold special
      simp only
      have hns : ¬ (c = '+' ∨ c = '-') := by
        rcases hc with h1 | h1 <;> rw [h1] <;> decide
      have hnm : ¬ (c = '-') := fun hh => hns (Or.inr hh)
      rw [if_neg hns, if_pos hc, special_inf_of_spelling (c :: cs) false 0 hmap]
      simp [hnm]
  rcases h with h | h | h | h | h | h | h
  · exact hplain (Or.inl h)
  · exact hsigned '+' "inf".toList (Or.inl rfl) (Or.inl rfl) h
  · exact hsigned '-' "inf".toList (Or.inr rfl) (Or.inl rfl) h
  · exact hplain (Or.inr h)
  · exact hsigned '+' "infinity".toList (Or.inl rfl) (Or.inr rfl) h
  · exact hsigned '-' "infinity".toList (Or.inr rfl) (Or.inr rfl) h
  · rw [if_pos h]
    cases l with
    | nil => cases h
    | cons c cs =>
      have hn : Spec.toLowerASCII c = 'n' := by
        simp only [List.map_cons] at h
        exact (List.cons.inj h).1
      have hc : c = 'n' ∨ c = 'N' := by
        rcases toLowerASCII_eq_letter c 'n' 78 hn (by decide) with h1 | h1
        · exact Or.inl h1
        · exact Or.inr (char_eq_of_toNat c 'N' h1)
      have hlen : (c :: cs).length = 3 := by
        have := congrArg List.length h
        simpa using this
      have hcpl : commonPrefixLenIgnoreCase (c :: cs) "nan".toList = 3 := by
        rw [← hlen]
        apply commonPrefixLenIgnoreCase_of_map
        · rw [h, hlen]; rfl
        · rw [hlen]; decide
      unfold special
      simp only
      have hns : ¬ (c = '+' ∨ c = '-') := by
        rcases hc with h1 | h1 <;> rw [h1] <;> decide
      have hni : ¬ (c = 'i' ∨ c = 'I') := by
        rcases hc with h1 | h1 <;> rw [h1] <;> decide
      rw [if_neg hns, if_neg hni, if_pos hc, if_pos hcpl, hlen]

theorem specialValue_not_finite (s : String) : float64.isFinite (Spec.specialValue s) = false := by
  unfold Spec.specialValue
  split
  · decide
  · cases decide (s.toList.head? = some '-') <;> decide

end strconv

/-- On a spelling of an infinity or of NaN, `strconv.ParseFloat` succeeds with the
value spelled. -/
theorem ParseFloat_of_spelling (s : String) (h : Spec.isSpecialSpelling s = true) :
    strconv.ParseFloat s = (Spec.specialValue s, none) := by
  unfold strconv.ParseFloat strconv.atof64
  rw [strconv.special_of_spelling s h]
  have hlen : s.toList.length = s.length := rfl
  simp [hlen]

/-- What a successful normalisation stores: a finite value, unless the string, commas
replaced, spells an infinity or NaN, and then the value spelled. -/
theorem UnmarshalXML_finite_or_special (f v : FloatValue) (s : String)
    (h : FloatValue.UnmarshalXML f (.ok s) = (v, none)) :
    (Spec.isSpecialSpelling (Spec.commasToPeriods s) = false → float64.isFinite v = true) ∧
    (Spec.isSpecialSpelling (Spec.commasToPeriods s) = true →
      v = Spec.specialValue (Spec.commasToPeriods s) ∧ float64.isFinite v = false) := by
  have hp := UnmarshalXML_success f v s h
  refine ⟨fun hs => ?_, fun hs => ?_⟩
  · cases hsp : strconv.special (Spec.commasToPeriods s).toList with
    | none => exact ParseFloat_finite _ v hsp hp
    | some wn =>
      have := ParseFloat_special_spelling _ wn hsp (by rw [hp])
      rw [hs] at this
      cases this
  · have hv : v = Spec.specialValue (Spec.commasToPeriods s) := by
      have := ParseFloat_of_spelling _ hs
      rw [hp] at this
      exact congrArg Prod.fst this
    exact ⟨hv, by rw [hv]; exact strconv.specialValue_not_finite _⟩

theorem UnmarshalXML_error_elem (f v : FloatValue) (e : error) :
    FloatValue.UnmarshalXML f (.error e) ≠ (v, none) := by
  simp [FloatValue.UnmarshalXML]

/-- The value of a decoded record is the value the record had before, or was
stored by a successful `UnmarshalXML` on a `Value` child. -/
theorem unmarshalRecord_value (cs : List xml.Child) (r0 r : Record)
    (h : xml.unmarshalRecord cs r0 = .ok r) :
    r.Value = r0.Value ∨ ∃ s f, xml.Child.Value (.ok s) ∈ cs ∧
      FloatValue.UnmarshalXML f (.ok s) = (r.Value, none) := by
  induction cs generalizing r0 with
  | nil =>
    simp only [xml.unmarshalRecord, Except.ok.injEq] at h
    exact Or.inl (by rw [h])
  | cons c cs ih =>
    cases c with
    | NumCode v =>
      cases v with
      | error e => simp [xml.unmarshalRecord] at h
      | ok v =>
        simp only [xml.unmarshalRecord] at h
        rcases ih _ h with h1 | ⟨s, f, hm, hu⟩
        · exact Or.inl h1
        · exact Or.inr ⟨s, f, List.mem_cons_of_mem _ hm, hu⟩
    | CharCode v =>
      cases v with
      | error e => simp [xml.unmarshalRecord] at h
      | ok v =>
        simp only [xml.unmarshalRecord] at h
        rcases ih _ h with h1 | ⟨s, f, hm, hu⟩
        · exact Or.inl h1
        · exact Or.inr ⟨s, f, List.mem_cons_of_mem _ hm, hu⟩
    | broken e => simp [xml.unmarshalRecord] at h
    | Value el =>
      simp only [xml.unmarshalRecord] at h
      cases hu : FloatValue.UnmarshalXML r0.Value el with
      | mk v oe =>
        rw [hu] at h
        cases oe with
        | some e => simp at h
        | none =>
          simp only at h
          rcases ih _ h with h1 | ⟨s, f, hm, hu'⟩
          · right
            cases el with
            | error e => exact absurd hu (UnmarshalXML_error_elem _ _ _)
            | ok s =>
              simp only at h1
              exact ⟨s, r0.Value, List.mem_cons_self _ _, by rw [h1]; exact hu⟩
          · exact Or.inr ⟨s, f, List.mem_cons_of_mem _ hm, hu'⟩

/-- Every record that `Decode` delivers was there before or was decoded from a
`Valute` element of the document. -/
theorem Decode_items (doc : List xml.Node) (raw raw' : RawRecords)
    (h : xml.Decode doc raw = (raw', none)) (r : Record) (hr : r ∈ raw'.Items.getD []) :
    r ∈ raw.Items.getD [] ∨ ∃ cs, xml.Node.Valute cs ∈ doc ∧
      xml.unmarshalRecord cs ⟨0, "", ⟨0⟩⟩ = .ok r := by
  induction doc generalizing raw with
  | nil =>
    simp only [xml.Decode, Prod.mk.injEq, and_true] at h
    subst h
    exact Or.inl hr
  | cons n ns ih =>
    cases n with
    | broken e => simp [xml.Decode] at h
    | Valute cs =>
      simp only [xml.Decode] at h
      cases hu : xml.unmarshalRecord cs ⟨0, "", ⟨0⟩⟩ with
      | error e => rw [hu] at h; simp at h
      | ok r1 =>
        rw [hu] at h
        simp only at h
        rcases ih _ h with h1 | ⟨cs', hm, hu'⟩
        · simp only [Option.getD_some, List.mem_append, List.mem_singleton] at h1
          rcases h1 with h2 | h2
          · exact Or.inl h2
          · subst h2
            exact Or.inr ⟨cs, List.mem_cons_self _ _, hu⟩
        · exact Or.inr ⟨cs', List.mem_cons_of_mem _ hm, hu'⟩

theorem parseXML_items (env : Env) (path : String) (items : List Record)
    (h : parseXML env path = (some items, none)) (r : Record) (hr : r ∈ items) :
    ∃ doc cs, env.ReadFile path = .ok doc ∧ xml.Node.Valute cs ∈ doc ∧
      xml.unmarshalRecord cs ⟨0, "", ⟨0⟩⟩ = .ok r := by
  unfold parseXML at h
  cases hread : env.ReadFile path with
  | error e => rw [hread] at h; simp at h
  | ok doc =>
    rw [hread] at h
    simp only at h
    cases hd : xml.Decode doc ⟨none⟩ with
    | mk raw' oe =>
      rw [hd] at h
      cases oe with
      | some e => simp at h
      | none =>
        simp only [Prod.mk.injEq, and_true] at h
        rcases Decode_items doc ⟨none⟩ raw' hd r (by rw [h]; exact hr) with h1 | ⟨cs, hm, hu⟩
        · simp at h1
        · exact ⟨doc, cs, rfl, hm, hu⟩

/-- A record of a successful `parseXML` holds a finite value, or was decoded from a
`Valute` element of the document read with a `Value` child whose text, commas
replaced, spells an infinity or NaN, and holds the value spelled. -/
theorem parseXML_finite_or_special (env : Env) (path : String) (items : List Record)
    (hp : parseXML env path = (some items, none)) (r : Record) (hr : r ∈ items) :
    float64.isFinite r.Value = true ∨
    ∃ doc cs t g, env.ReadFile path = .ok doc ∧ xml.Node.Valute cs ∈ doc ∧
      xml.unmarshalRecord cs ⟨0, "", ⟨0⟩⟩ = .ok r ∧ xml.Child.Value (.ok t) ∈ cs ∧
      FloatValue.UnmarshalXML g (.ok t) = (r.Value, none) ∧
      Spec.isSpecialSpelling (Spec.commasToPeriods t) = true ∧
      r.Value = Spec.specialValue (Spec.commasToPeriods t) := by
  obtain ⟨doc, cs, hread, hm, hu⟩ := parseXML_items env path items hp r hr
  rcases unmarshalRecord_value cs _ r hu with h0 | ⟨t, g, ht, hg⟩
  · left
    rw [h0]
    decide
  · cases hs : Spec.isSpecialSpelling (Spec.commasToPeriods t) with
    | false => exact Or.inl ((UnmarshalXML_finite_or_special g r.Value t hg).1 hs)
    | true =>
      exact Or.inr ⟨doc, cs, t, g, hread, hm, hu, ht, hg, hs,
        ((UnmarshalXML_finite_or_special g r.Value t hg).2 hs).1⟩

/-- C7 (amended): a value the normalisation stores is finite unless the string, commas
replaced, is (in any letter case) a spelling of an infinity or of NaN, and then it
is the infinity or NaN spelled; so every record of a successful `parseXML` holds a
finite value, or was decoded from a `Valute` element with a `Value` child of such a
spelling and holds the infinity or NaN spelled there. -/
theorem C7_finite_unless_special (f v : FloatValue) (s : String)
    (h : FloatValue.UnmarshalXML f (.ok s) = (v, none)) :
    ((Spec.isSpecialSpelling (Spec.commasToPeriods s) = false → float64.isFinite v = true) ∧
      (Spec.isSpecialSpelling (Spec.commasToPeriods s) = true →
        v = Spec.specialValue (Spec.commasToPeriods s) ∧ float64.isFinite v = false)) ∧
    ∀ (env : Env) (path : String) (items : List Record),
      parseXML env path = (some items, none) → ∀ r ∈ items,
        float64.isFinite r.Value = true ∨
        ∃ doc cs t g, env.ReadFile path = .ok doc ∧ xml.Node.Valute cs ∈ doc ∧
          xml.unmarshalRecord cs ⟨0, "", ⟨0⟩⟩ = .ok r ∧ xml.Child.Value (.ok t) ∈ cs ∧
          FloatValue.UnmarshalXML g (.ok t) = (r.Value, none) ∧
          Spec.isSpecialSpelling (Spec.commasToPeriods t) = true ∧
          r.Value = Spec.specialValue (Spec.commasToPeriods t) :=
  ⟨UnmarshalXML_finite_or_special f v s h,
    fun env path items hp r hr => parseXML_finite_or_special env path items hp r hr⟩

theorem C7_finite_unless_special_witness :
    ((Spec.isSpecialSpelling (Spec.commasToPeriods "-Infinity") = false →
        float64.isFinite (math.Inf true) = true) ∧
      (Spec.isSpecialSpelling (Spec.commasToPeriods "-Infinity") = true →
        math.Inf true = Spec.specialValue (Spec.commasToPeriods "-Infinity") ∧
          float64.isFinite (math.Inf true) = false)) ∧
    ∀ (env : Env) (path : String) (items : List Record),
      parseXML env path = (some items, none) → ∀ r ∈ items,
        float64.isFinite r.Value = true ∨
        ∃ doc cs t g, env.ReadFile path = .ok doc ∧ xml.Node.Valute cs ∈ doc ∧
          xml.unmarshalRecord cs ⟨0, "", ⟨0⟩⟩ = .ok r ∧ xml.Child.Value (.ok t) ∈ cs ∧
          FloatValue.UnmarshalXML g (.ok t) = (r.Value, none) ∧
          Spec.isSpecialSpelling (Spec.commasToPeriods t) = true ∧
          r.Value = Spec.specialValue (Spec.commasToPeriods t) :=
  C7_finite_unless_special ⟨0⟩ (math.Inf true) "-Infinity" (by decide)

theorem floatEncoder_finite (enc : json.Encoders) (f : float64)
    (h : float64.isFinite f = true) : json.floatEncoder enc f = .ok (enc.float f) := by
  unfold json.floatEncoder
  simp only [float64.isFinite, Bool.and_eq_true, Bool.not_eq_true'] at h
  simp [h.1, h.2]

theorem structEncoder_finite (enc : json.Encoders) (r : Record)
    (h : float64.isFinite r.Value = true) :
    json.structEncoder enc r
      = .ok ("\x7b\"num_code\":".toList ++ enc.int r.ID ++ ",\"char_code\":".toList
          ++ enc.string r.Name ++ ",\"value\":".toList ++ enc.float r.Value ++ "\x7d".toList) := by
  unfold json.structEncoder
  rw [floatEncoder_finite enc r.Value h]

theorem arrayEncoder_loop_finite (enc : json.Encoders) (rs : List Record) (first : Bool)
    (h : ∀ r ∈ rs, float64.isFinite r.Value = true) :
    ∃ b, json.arrayEncoder_loop enc rs first = .ok b := by
  induction rs generalizing first with
  | nil => exact ⟨[], rfl⟩
  | cons r rs ih =>
    obtain ⟨b, hb⟩ := ih false (fun x hx => h x (List.mem_cons_of_mem _ hx))
    unfold json.arrayEncoder_loop
    rw [structEncoder_finite enc r (h r (List.mem_cons_self _ _)), hb]
    exact ⟨_, rfl⟩

theorem MarshalIndent_finite (enc : json.Encoders) (items : Option (List Record))
    (h : ∀ rs, items = some rs → ∀ r ∈ rs, float64.isFinite r.Value = true) (pre indent : String) :
    ∃ b, json.MarshalIndent enc items pre indent = .ok b := by
  unfold json.MarshalIndent json.Marshal
  cases items with
  | none => exact ⟨_, rfl⟩
  | some rs =>
    obtain ⟨b, hb⟩ := arrayEncoder_loop_finite enc rs true (h rs rfl)
    simp only [hb]
    exact ⟨_, rfl⟩

theorem floatEncoder_not_finite (enc : json.Encoders) (f : float64)
    (h : float64.isFinite f = false) :
    json.floatEncoder enc f = .error (error.UnsupportedValueError f) := by
  unfold json.floatEncoder
  simp only [float64.isFinite, Bool.and_eq_false_iff, Bool.not_eq_false'] at h
  rcases h with h | h
  · simp [h]
  · simp [h]

theorem structEncoder_not_finite (enc : json.Encoders) (r : Record)
    (h : float64.isFinite r.Value = false) :
    json.structEncoder enc r = .error (error.UnsupportedValueError r.Value) := by
  unfold json.structEncoder
  rw [floatEncoder_not_finite enc r.Value h]

/-- The array encoder fails only with the error of an element that is not finite. -/
theorem arrayEncoder_loop_error (enc : json.Encoders) (rs : List Record) (first : Bool)
    (err : error) (h : json.arrayEncoder_loop enc rs first = .error err) :
    ∃ r ∈ rs, float64.isFinite r.Value = false ∧ err = error.UnsupportedValueError r.Value := by
  induction rs generalizing first err with
  | nil => cases h
  | cons r rs ih =>
    unfold json.arrayEncoder_loop at h
    cases hf : float64.isFinite r.Value with
    | false =>
      rw [structEncoder_not_finite enc r hf] at h
      simp only [Except.error.injEq] at h
      exact ⟨r, List.mem_cons_self _ _, hf, h.symm⟩
    | true =>
      rw [structEncoder_finite enc r hf] at h
      simp only at h
      cases hl : json.arrayEncoder_loop enc rs false with
      | error e =>
        rw [hl] at h
        simp only [Except.error.injEq] at h
        obtain ⟨x, hx, hxf, hxe⟩ := ih false e hl
        exact ⟨x, List.mem_cons_of_mem _ hx, hxf, by rw [← h, hxe]⟩
      | ok vs =>
        rw [hl] at h
        cases h

theorem MarshalIndent_error (enc : json.Encoders) (items : Option (List Record))
    (pre indent : String) (err : error) (h : json.MarshalIndent enc items pre indent = .error err) :
    ∃ rs r, items = some rs ∧ r ∈ rs ∧ float64.isFinite r.Value = false ∧
      err = error.UnsupportedValueError r.Value := by
  unfold json.MarshalIndent json.Marshal at h
  cases items with
  | none => cases h
  | some rs =>
    simp only at h
    cases hl : json.arrayEncoder_loop enc rs true with
    | error e =>
      rw [hl] at h
      simp only [Except.error.injEq] at h
      obtain ⟨x, hx, hxf, hxe⟩ := arrayEncoder_loop_error enc rs true e hl
      exact ⟨rs, x, rfl, hx, hxf, by rw [← h, hxe]⟩
    | ok vs =>
      rw [hl] at h
      cases h

theorem MarshalIndent_sorted_error (enc : json.Encoders) (items : Option (List Record))
    (err : error) (h : json.MarshalIndent enc (saveAsJSON_sorted items) "" "  " = .error err) :
    ∃ rs r, items = some rs ∧ r ∈ rs ∧ float64.isFinite r.Value = false ∧
      err = error.UnsupportedValueError r.Value := by
  obtain ⟨rs, r, hrs, hr, hf, he⟩ := MarshalIndent_error enc _ _ _ err h
  cases items with
  | none => simp [saveAsJSON_sorted] at hrs
  | some l =>
    simp only [saveAsJSON_sorted, Option.map_some', Option.some.injEq] at hrs
    subst hrs
    exact ⟨l, r, rfl, (sort.Slice_perm saveAsJSON_less l).subset hr, hf, he⟩

theorem MarshalIndent_sorted_finite (enc : json.Encoders) (items : Option (List Record))
    (h : ∀ rs, items = some rs → ∀ r ∈ rs, float64.isFinite r.Value = true) :
    ∃ b, json.MarshalIndent enc (saveAsJSON_sorted items) "" "  " = .ok b := by
  cases hm : json.MarshalIndent enc (saveAsJSON_sorted items) "" "  " with
  | ok b => exact ⟨b, rfl⟩
  | error err =>
    obtain ⟨rs, r, hrs, hr, hf, _⟩ := MarshalIndent_sorted_error enc items err hm
    rw [h rs hrs r hr] at hf
    cases hf

/-- The array encoder fails when an element is not finite. -/
theorem arrayEncoder_loop_not_finite (enc : json.Encoders) (r : Record)
    (hf : float64.isFinite r.Value = false) (l : List Record) (first : Bool) (vs : List Char)
    (hmem : r ∈ l) : json.arrayEncoder_loop enc l first ≠ .ok vs := by
  induction l generalizing first vs with
  | nil => cases hmem
  | cons x xs ih =>
    intro hok
    unfold json.arrayEncoder_loop at hok
    cases hx : float64.isFinite x.Value with
    | false =>
      rw [structEncoder_not_finite enc x hx] at hok
      cases hok
    | true =>
      rw [structEncoder_finite enc x hx] at hok
      simp only at hok
      have hrx : r ∈ xs := by
        rcases List.mem_cons.mp hmem with h1 | h1
        · subst h1
          rw [hf] at hx
          cases hx
        · exact h1
      cases hxs : json.arrayEncoder_loop enc xs false with
      | error e =>
        rw [hxs] at hok
        cases hok
      | ok ws => exact ih false ws hrx hxs

theorem MarshalIndent_sorted_ok (enc : json.Encoders) (items : Option (List Record))
    (b : String) (h : json.MarshalIndent enc (saveAsJSON_sorted items) "" "  " = .ok b) :
    ∀ rs, items = some rs → ∀ r ∈ rs, float64.isFinite r.Value = true := by
  intro rs hrs r hr
  cases hf : float64.isFinite r.Value with
  | true => rfl
  | false =>
    exfalso
    subst hrs
    have hr' : r ∈ sort.Slice saveAsJSON_less rs :=
      (sort.Slice_perm saveAsJSON_less rs).symm.subset hr
    unfold json.MarshalIndent json.Marshal at h
    simp only [saveAsJSON_sorted, Option.map_some'] at h
    cases hl : json.arrayEncoder_loop enc (sort.Slice saveAsJSON_less rs) true with
    | error e =>
      rw [hl] at h
      cases h
    | ok vs => exact arrayEncoder_loop_not_finite enc r hf _ true vs hr' hl

/-- C10 (amended): for the records `parseXML` returns, the JSON serialisation in
`saveAsJSON` succeeds exactly when all their values are finite, so it does when no
`Value` child of the document spells an infinity or NaN; when it fails, the error is
the `UnsupportedValueError` of a record that was decoded from a `Value` child
spelling an infinity or NaN, and `saveAsJSON`, the directory made, returns that
error as the marshal error without writing. -/
theorem C10_marshal_succeeds_iff_finite (env : Env) (path : String)
    (items : Option (List Record)) (hp : parseXML env path = (items, none)) :
    ((∃ b, json.MarshalIndent env.enc (saveAsJSON_sorted items) "" "  " = .ok b) ↔
      ∀ rs, items = some rs → ∀ r ∈ rs, float64.isFinite r.Value = true) ∧
    ((∀ doc cs t, env.ReadFile path = .ok doc → xml.Node.Valute cs ∈ doc →
        xml.Child.Value (.ok t) ∈ cs → Spec.isSpecialSpelling (Spec.commasToPeriods t) = false) →
      ∃ b, json.MarshalIndent env.enc (saveAsJSON_sorted items) "" "  " = .ok b) ∧
    ∀ err, json.MarshalIndent env.enc (saveAsJSON_sorted items) "" "  " = .error err →
      (∃ rs r doc cs t, items = some rs ∧ r ∈ rs ∧ env.ReadFile path = .ok doc ∧
        xml.Node.Valute cs ∈ doc ∧ xml.unmarshalRecord cs ⟨0, "", ⟨0⟩⟩ = .ok r ∧
        xml.Child.Value (.ok t) ∈ cs ∧
        Spec.isSpecialSpelling (Spec.commasToPeriods t) = true ∧
        r.Value = Spec.specialValue (Spec.commasToPeriods t) ∧
        err = error.UnsupportedValueError r.Value) ∧
      ∀ out, env.MkdirAll (env.Dir out) = none →
        saveAsJSON env items out
          = ([Effect.MkdirAll (env.Dir out)], some (error.wrap "marshal json" err)) := by
  have hspecial : ∀ rs, items = some rs → ∀ r ∈ rs, float64.isFinite r.Value = false →
      ∃ doc cs t, env.ReadFile path = .ok doc ∧
        xml.Node.Valute cs ∈ doc ∧ xml.unmarshalRecord cs ⟨0, "", ⟨0⟩⟩ = .ok r ∧
        xml.Child.Value (.ok t) ∈ cs ∧
        Spec.isSpecialSpelling (Spec.commasToPeriods t) = true ∧
        r.Value = Spec.specialValue (Spec.commasToPeriods t) := by
    intro rs hrs r hr hf
    subst hrs
    rcases parseXML_finite_or_special env path rs hp r hr with h1 | ⟨doc, cs, t, g, h1, h2, h3, h4, _, h6, h7⟩
    · rw [hf] at h1
      cases h1
    · exact ⟨doc, cs, t, h1, h2, h3, h4, h6, h7⟩
  refine ⟨⟨fun ⟨b, hb⟩ => MarshalIndent_sorted_ok env.enc items b hb,
    MarshalIndent_sorted_finite env.enc items⟩, ?_, ?_⟩
  · intro hno
    apply MarshalIndent_sorted_finite
    intro rs hrs r hr
    cases hf : float64.isFinite r.Value with
    | true => rfl
    | false =>
      obtain ⟨doc, cs, t, h1, h2, _, h4, h6, _⟩ := hspecial rs hrs r hr hf
      rw [hno doc cs t h1 h2 h4] at h6
      cases h6
  · intro err herr
    obtain ⟨rs, r, hrs, hr, hf, he⟩ := MarshalIndent_sorted_error env.enc items err herr
    obtain ⟨doc, cs, t, h1, h2, h3, h4, h6, h7⟩ := hspecial rs hrs r hr hf
    refine ⟨⟨rs, r, doc, cs, t, hrs, hr, h1, h2, h3, h4, h6, h7, he⟩, ?_⟩
    intro out hmk
    unfold saveAsJSON
    simp only [hmk, herr]

theorem C10_marshal_succeeds_iff_finite_witness :
    ((∃ b, json.MarshalIndent Example.enc
        (saveAsJSON_sorted (some [⟨840, "USD", ⟨0x4052DA8C154C985F⟩⟩])) "" "  " = .ok b) ↔
      ∀ rs, some [(⟨840, "USD", ⟨0x4052DA8C154C985F⟩⟩ : Record)] = some rs →
        ∀ r ∈ rs, float64.isFinite r.Value = true) ∧
    ((∀ doc cs t, (.ok [Example.valute 840 "USD" "75,4148"] : Except error (List xml.Node)) = .ok doc →
        xml.Node.Valute cs ∈ doc →
        xml.Child.Value (.ok t) ∈ cs → Spec.isSpecialSpelling (Spec.commasToPeriods t) = false) →
      ∃ b, json.MarshalIndent Example.enc
        (saveAsJSON_sorted (some [⟨840, "USD", ⟨0x4052DA8C154C985F⟩⟩])) "" "  " = .ok b) ∧
    ∀ err, json.MarshalIndent Example.enc
        (saveAsJSON_sorted (some [⟨840, "USD", ⟨0x4052DA8C154C985F⟩⟩])) "" "  " = .error err →
      (∃ rs r doc cs t, some [(⟨840, "USD", ⟨0x4052DA8C154C985F⟩⟩ : Record)] = some rs ∧ r ∈ rs ∧
        (.ok [Example.valute 840 "USD" "75,4148"] : Except error (List xml.Node)) = .ok doc ∧
        xml.Node.Valute cs ∈ doc ∧ xml.unmarshalRecord cs ⟨0, "", ⟨0⟩⟩ = .ok r ∧
        xml.Child.Value (.ok t) ∈ cs ∧
        Spec.isSpecialSpelling (Spec.commasToPeriods t) = true ∧
        r.Value = Spec.specialValue (Spec.commasToPeriods t) ∧
        err = error.UnsupportedValueError r.Value) ∧
      ∀ out, (none : Option error) = none →
        saveAsJSON (Example.env [Example.valute 840 "USD" "75,4148"] Example.enc)
            (some [⟨840, "USD", ⟨0x4052DA8C154C985F⟩⟩]) out
          = ([Effect.MkdirAll "out"], some (error.wrap "marshal json" err)) :=
  C10_marshal_succeeds_iff_finite (Example.env [Example.valute 840 "USD" "75,4148"] Example.enc)
    "input.xml" (some [⟨840, "USD", ⟨0x4052DA8C154C985F⟩⟩]) (by decide)

namespace json

theorem indent_number (l : List Char) (h : Spec.isNumberText l = true) (dst : List Char)
    (depth : Nat) :
    l.foldl (appendIndent_step [] [' ', ' ']) ⟨dst, false, depth, false, false⟩
      = ⟨dst ++ l, false, depth, false, false⟩ := by
  induction l generalizing dst with
  | nil => simp
  | cons c cs ih =>
    simp only [Spec.isNumberText, List.all_cons, Bool.and_eq_true, decide_eq_true_eq] at h
    have hcs : Spec.isNumberText cs = true := by
      simp only [Spec.isNumberText]
      exact h.2
    have hstep : appendIndent_step [] [' ', ' '] ⟨dst, false, depth, false, false⟩ c
        = ⟨dst ++ [c], false, depth, false, false⟩ := by
      have hc := h.1
      simp only [String.toList, List.mem_cons, List.mem_singleton, List.not_mem_nil,
        or_false] at hc
      rcases hc with rfl | rfl | rfl | rfl | rfl | rfl | rfl | rfl | rfl | rfl | rfl | rfl |
        rfl | rfl | rfl <;> simp [appendIndent_step]
    rw [List.foldl_cons, hstep, ih hcs]
    simp

theorem indent_string_body (cs : List Char) (esc : Bool) (h : Spec.endsAtQuote cs esc = true)
    (dst : List Char) (ni : Bool) (depth : Nat) :
    cs.foldl (appendIndent_step [] [' ', ' ']) ⟨dst, ni, depth, true, esc⟩
      = ⟨dst ++ cs, ni, depth, false, false⟩ := by
  induction cs generalizing esc dst with
  | nil => simp [Spec.endsAtQuote] at h
  | cons c cs ih =>
    cases esc with
    | true =>
      simp only [Spec.endsAtQuote] at h
      rw [List.foldl_cons]
      have : appendIndent_step [] [' ', ' '] ⟨dst, ni, depth, true, true⟩ c
          = ⟨dst ++ [c], ni, depth, true, false⟩ := by simp [appendIndent_step]
      rw [this, ih false h]
      simp
    | false =>
      simp only [Spec.endsAtQuote] at h
      rw [List.foldl_cons]
      by_cases hb : c = '\\'
      · rw [if_pos hb] at h
        have : appendIndent_step [] [' ', ' '] ⟨dst, ni, depth, true, false⟩ c
            = ⟨dst ++ [c], ni, depth, true, true⟩ := by simp [appendIndent_step, hb]
        rw [this, ih true h]
        simp
      · rw [if_neg hb] at h
        by_cases hq : c = '"'
        · rw [if_pos hq] at h
          have hnil : cs = [] := List.isEmpty_iff.mp h
          subst hnil
          simp [appendIndent_step, hq]
        · rw [if_neg hq] at h
          have : appendIndent_step [] [' ', ' '] ⟨dst, ni, depth, true, false⟩ c
              = ⟨dst ++ [c], ni, depth, true, false⟩ := by simp [appendIndent_step, hb, hq]
          rw [this, ih false h]
          simp

theorem indent_string (l : List Char) (h : Spec.isStringText l = true) (dst : List Char)
    (depth : Nat) :
    l.foldl (appendIndent_step [] [' ', ' ']) ⟨dst, false, depth, false, false⟩
      = ⟨dst ++ l, false, depth, false, false⟩ := by
  cases l with
  | nil => simp [Spec.isStringText] at h
  | cons c cs =>
    by_cases hq : c = '"'
    · subst hq
      simp only [Spec.isStringText] at h
      rw [List.foldl_cons]
      have : appendIndent_step [] [' ', ' '] ⟨dst, false, depth, false, false⟩ '"'
          = ⟨dst ++ ['"'], false, depth, true, false⟩ := by simp [appendIndent_step]
      rw [this, indent_string_body cs false h]
      simp
    · exfalso
      unfold Spec.isStringText at h
      split at h
      · rename_i heq
        simp only [List.cons.injEq] at heq
        exact hq heq.1
      · cases h

theorem indent_open (dst : List Char) :
    "\x7b\"num_code\":".toList.foldl (appendIndent_step [] [' ', ' '])
        ⟨dst, false, 1, false, false⟩
      = ⟨dst ++ "\x7b\n    \"num_code\": ".toList, false, 2, false, false⟩ := by
  simp [String.toList, appendIndent_step, appendNewline, List.replicate]

theorem indent_member2 (dst : List Char) :
    ",\"char_code\":".toList.foldl (appendIndent_step [] [' ', ' '])
        ⟨dst, false, 2, false, false⟩
      = ⟨dst ++ ",\n    \"char_code\": ".toList, false, 2, false, false⟩ := by
  simp [String.toList, appendIndent_step, appendNewline, List.replicate]

theorem indent_member3 (dst : List Char) :
    ",\"value\":".toList.foldl (appendIndent_step [] [' ', ' '])
        ⟨dst, false, 2, false, false⟩
      = ⟨dst ++ ",\n    \"value\": ".toList, false, 2, false, false⟩ := by
  simp [String.toList, appendIndent_step, appendNewline, List.replicate]

theorem indent_close (dst : List Char) :
    "\x7d".toList.foldl (appendIndent_step [] [' ', ' ']) ⟨dst, false, 2, false, false⟩
      = ⟨dst ++ "\n  \x7d".toList, false, 1, false, false⟩ := by
  simp [String.toList, appendIndent_step, appendNewline, List.replicate]

end json

namespace json

theorem indent_object (enc : Encoders) (r : Record)
    (hint : Spec.isNumberText (enc.int r.ID) = true)
    (hstr : Spec.isStringText (enc.string r.Name) = true)
    (hflt : Spec.isNumberText (enc.float r.Value) = true) (dst : List Char) :
    ("\x7b\"num_code\":".toList ++ enc.int r.ID ++ ",\"char_code\":".toList
        ++ enc.string r.Name ++ ",\"value\":".toList ++ enc.float r.Value
        ++ "\x7d".toList).foldl (appendIndent_step [] [' ', ' '])
        ⟨dst ++ "  ".toList, false, 1, false, false⟩
      = ⟨dst ++ Spec.objectLines enc r, false, 1, false, false⟩ := by
  simp only [List.foldl_append]
  rw [indent_open, indent_number _ hint, indent_member2, indent_string _ hstr, indent_member3,
    indent_number _ hflt, indent_close]
  simp only [Spec.objectLines, String.toList, List.append_assoc, List.cons_append,
    List.nil_append]

theorem indent_open_first (dst : List Char) :
    "\x7b\"num_code\":".toList.foldl (appendIndent_step [] [' ', ' '])
        ⟨dst, true, 0, false, false⟩
      = "\x7b\"num_code\":".toList.foldl (appendIndent_step [] [' ', ' '])
        ⟨dst ++ "\n  ".toList, false, 1, false, false⟩ := by
  simp [String.toList, appendIndent_step, appendNewline, List.replicate]

theorem arrayLines_cons (enc : Encoders) (r : Record) (rs : List Record) :
    Spec.arrayLines enc (r :: rs)
      = Spec.objectLines enc r ++ rs.flatMap (fun x => ",\n".toList ++ Spec.objectLines enc x) := by
  induction rs generalizing r with
  | nil => simp [Spec.arrayLines]
  | cons x xs ih =>
    rw [Spec.arrayLines, ih x]
    · simp [List.flatMap_cons, List.append_assoc]
    · simp

/-- The elements after the first: the encoder writes them, and the indentation puts
each object on lines of its own after a comma. -/
theorem indent_rest (enc : Encoders) (rs : List Record)
    (hfin : ∀ r ∈ rs, float64.isFinite r.Value = true)
    (hint : ∀ r ∈ rs, Spec.isNumberText (enc.int r.ID) = true)
    (hstr : ∀ r ∈ rs, Spec.isStringText (enc.string r.Name) = true)
    (hflt : ∀ r ∈ rs, Spec.isNumberText (enc.float r.Value) = true) :
    ∃ b, arrayEncoder_loop enc rs false = .ok b ∧
      ∀ dst, b.foldl (appendIndent_step [] [' ', ' ']) ⟨dst, false, 1, false, false⟩
        = ⟨dst ++ rs.flatMap (fun x => ",\n".toList ++ Spec.objectLines enc x),
            false, 1, false, false⟩ := by
  induction rs with
  | nil => exact ⟨[], rfl, fun dst => by simp⟩
  | cons r rs ih =>
    obtain ⟨b, hb, hrun⟩ := ih (fun x hx => hfin x (List.mem_cons_of_mem _ hx))
      (fun x hx => hint x (List.mem_cons_of_mem _ hx))
      (fun x hx => hstr x (List.mem_cons_of_mem _ hx))
      (fun x hx => hflt x (List.mem_cons_of_mem _ hx))
    have hr := List.mem_cons_self r rs
    refine ⟨_, by
      unfold arrayEncoder_loop
      rw [structEncoder_finite enc r (hfin r hr), hb], ?_⟩
    intro dst
    have hcomma : appendIndent_step [] [' ', ' '] ⟨dst, false, 1, false, false⟩ ','
        = ⟨(dst ++ ",\n".toList) ++ "  ".toList, false, 1, false, false⟩ := by
      simp [String.toList, appendIndent_step, appendNewline, List.replicate]
    simp only [Bool.false_eq_true, if_false, List.append_assoc, List.singleton_append,
      List.foldl_cons, List.foldl_append]
    rw [hcomma]
    have hobj := indent_object enc r (hint r hr) (hstr r hr) (hflt r hr) (dst ++ ",\n".toList)
    simp only [List.foldl_append] at hobj
    rw [hobj, hrun]
    simp [List.flatMap_cons, List.append_assoc]

theorem Marshal_indented (enc : Encoders) (r : Record) (rs : List Record)
    (hfin : ∀ x ∈ r :: rs, float64.isFinite x.Value = true)
    (hint : ∀ x ∈ r :: rs, Spec.isNumberText (enc.int x.ID) = true)
    (hstr : ∀ x ∈ r :: rs, Spec.isStringText (enc.string x.Name) = true)
    (hflt : ∀ x ∈ r :: rs, Spec.isNumberText (enc.float x.Value) = true) :
    MarshalIndent enc (some (r :: rs)) "" "  " = .ok (Spec.indentedArray enc (r :: rs)) := by
  obtain ⟨b, hb, hrun⟩ := indent_rest enc rs (fun x hx => hfin x (List.mem_cons_of_mem _ hx))
    (fun x hx => hint x (List.mem_cons_of_mem _ hx))
    (fun x hx => hstr x (List.mem_cons_of_mem _ hx))
    (fun x hx => hflt x (List.mem_cons_of_mem _ hx))
  have hr := List.mem_cons_self r rs
  unfold MarshalIndent Marshal
  simp only
  unfold arrayEncoder_loop
  rw [structEncoder_finite enc r (hfin r hr), hb]
  simp only [if_true, List.nil_append]
  refine congrArg Except.ok (congrArg String.mk ?_)
  unfold appendIndent
  have hpre : "".toList = ([] : List Char) := rfl
  have hind : "  ".toList = [' ', ' '] := rfl
  have hopen : appendIndent_step [] [' ', ' '] ⟨[], false, 0, false, false⟩ '['
      = ⟨"[".toList, true, 0, false, false⟩ := by
    simp [String.toList, appendIndent_step]
  have hclose : ∀ dst, appendIndent_step [] [' ', ' '] ⟨dst, false, 1, false, false⟩ ']'
      = ⟨dst ++ "\n]".toList, false, 0, false, false⟩ := by
    intro dst
    simp [String.toList, appendIndent_step, appendNewline, List.replicate]
  have hjoin : "[".toList ++ "\n  ".toList = "[\n".toList ++ "  ".toList := rfl
  have hobj := indent_object enc r (hint r hr) (hstr r hr) (hflt r hr) "[\n".toList
  simp only [List.foldl_append] at hobj
  rw [hpre, hind]
  simp only [List.cons_append, List.foldl_cons, List.foldl_append, List.foldl_nil]
  rw [hopen, indent_open_first, hjoin, hobj, hrun, hclose]
  simp only [arrayLines_cons, List.append_assoc]

end json

/-- C9: for a non-empty slice of records with finite values, whose scalar fields the
encoders write as number texts and as a quoted string, the text `saveAsJSON`
writes is the array of the records in descending order of their values: the
records are those given, each as often as given, every record's value is at least
that of the next, the brackets stand on lines of their own, and each record is an
object whose members `num_code`, `char_code` and `value` stand in this order on
lines of their own, indented by two spaces for each level of nesting. -/
theorem C9_indented_output (env : Env) (items : List Record) (path : String)
    (hne : items ≠ [])
    (hfin : ∀ r ∈ items, float64.isFinite r.Value = true)
    (hint : ∀ r ∈ items, Spec.isNumberText (env.enc.int r.ID) = true)
    (hstr : ∀ r ∈ items, Spec.isStringText (env.enc.string r.Name) = true)
    (hflt : ∀ r ∈ items, Spec.isNumberText (env.enc.float r.Value) = true)
    (hmk : env.MkdirAll (env.Dir path) = none)
    (hwr : ∀ data, env.WriteFile path data = none) :
    ∃ out, saveAsJSON_sorted (some items) = some out ∧ out.Perm items ∧
      List.Chain' (fun a b => float64.ge a.Value b.Value = true) out ∧
      json.MarshalIndent env.enc (saveAsJSON_sorted (some items)) "" "  "
        = .ok (Spec.indentedArray env.enc out) ∧
      saveAsJSON env (some items) path
        = ([Effect.MkdirAll (env.Dir path),
            Effect.WriteFile path (Spec.indentedArray env.enc out)], none) := by
  have hperm := sort.Slice_perm saveAsJSON_less items
  have hnan : ∀ r ∈ items, math.IsNaN r.Value = false := by
    intro r hr
    have := hfin r hr
    simp only [float64.isFinite, Bool.and_eq_true, Bool.not_eq_true'] at this
    exact this.2
  have hm : json.MarshalIndent env.enc (saveAsJSON_sorted (some items)) "" "  "
      = .ok (Spec.indentedArray env.enc (sort.Slice saveAsJSON_less items)) := by
    simp only [saveAsJSON_sorted, Option.map_some']
    cases hs : sort.Slice saveAsJSON_less items with
    | nil =>
      rw [hs] at hperm
      exact absurd hperm.symm.eq_nil hne
    | cons r rs =>
      rw [hs] at hperm
      exact json.Marshal_indented env.enc r rs
        (fun x hx => hfin x (hperm.subset hx)) (fun x hx => hint x (hperm.subset hx))
        (fun x hx => hstr x (hperm.subset hx)) (fun x hx => hflt x (hperm.subset hx))
  refine ⟨sort.Slice saveAsJSON_less items, rfl, hperm, Slice_descending items hnan, hm, ?_⟩
  unfold saveAsJSON
  simp only [hmk, hm, hwr]

theorem C9_indented_output_witness :
    ∃ out, saveAsJSON_sorted (some [⟨840, "USD", ⟨0x4052DA8C154C985F⟩⟩,
        ⟨978, "EUR", ⟨0x40568C63F141205C⟩⟩]) = some out ∧
      out.Perm [⟨840, "USD", ⟨0x4052DA8C154C985F⟩⟩, ⟨978, "EUR", ⟨0x40568C63F141205C⟩⟩] ∧
      List.Chain' (fun a b => float64.ge a.Value b.Value = true) out ∧
      json.MarshalIndent Example.enc
          (saveAsJSON_sorted (some [⟨840, "USD", ⟨0x4052DA8C154C985F⟩⟩,
            ⟨978, "EUR", ⟨0x40568C63F141205C⟩⟩])) "" "  "
        = .ok (Spec.indentedArray Example.enc out) ∧
      saveAsJSON (Example.env [] Example.enc)
          (some [⟨840, "USD", ⟨0x4052DA8C154C985F⟩⟩, ⟨978, "EUR", ⟨0x40568C63F141205C⟩⟩])
          "out/output.json"
        = ([Effect.MkdirAll "out",
            Effect.WriteFile "out/output.json" (Spec.indentedArray Example.enc out)], none) :=
  C9_indented_output (Example.env [] Example.enc)
    [⟨840, "USD", ⟨0x4052DA8C154C985F⟩⟩, ⟨978, "EUR", ⟨0x40568C63F141205C⟩⟩] "out/output.json"
    (by decide) (by decide) (by decide) (by decide) (by decide) rfl (fun _ => rfl)

namespace strconv

theorem or_32_eq (n k : Nat) (hk : k.testBit 5 = false) (h : n ||| 32 = k ||| 32) :
    n = k ∨ n = k ||| 32 := by
  have h32 : ∀ i, i ≠ 5 → Nat.testBit 32 i = false := by
    intro i hi
    exact Nat.testBit_two_pow_of_ne (n := 5) (fun h => hi h.symm)
  have hbit : ∀ i, (n.testBit i || Nat.testBit 32 i) = (k.testBit i || Nat.testBit 32 i) := by
    intro i
    rw [← Nat.testBit_or, ← Nat.testBit_or, h]
  by_cases hb : n.testBit 5 = true
  · right
    apply Nat.eq_of_testBit_eq
    intro i
    rw [Nat.testBit_or]
    by_cases hi : i = 5
    · subst hi
      rw [hb]
      simp [show Nat.testBit 32 5 = true by decide]
    · have := hbit i
      rw [h32 i hi] at this ⊢
      simpa using this
  · left
    apply Nat.eq_of_testBit_eq
    intro i
    by_cases hi : i = 5
    · subst hi
      rw [hk]
      simpa using hb
    · have := hbit i
      rw [h32 i hi] at this
      simpa using this

/-- A character whose small letter has the code `k + 32` is the letter with the code
`k` or the one with the code `k + 32`. -/
theorem lower_eq (c : Char) (k : Nat) (hk : k.testBit 5 = false) (h : lower c = k ||| 32) :
    c.toNat = k ∨ c.toNat = k ||| 32 :=
  or_32_eq c.toNat k hk h

theorem lower_eq_e (c : Char) (h : lower c = 'e'.toNat) : c = 'e' ∨ c = 'E' := by
  rcases lower_eq c 69 (by decide) h with h2 | h2
  · exact Or.inr (char_eq_of_toNat c 'E' h2)
  · exact Or.inl (char_eq_of_toNat c 'e' h2)

theorem lower_eq_x (c : Char) (h : lower c = 'x'.toNat) : c = 'x' ∨ c = 'X' := by
  rcases lower_eq c 88 (by decide) h with h2 | h2
  · exact Or.inr (char_eq_of_toNat c 'X' h2)
  · exact Or.inl (char_eq_of_toNat c 'x' h2)

theorem lower_eq_p (c : Char) (h : lower c = 'p'.toNat) : c = 'p' ∨ c = 'P' := by
  rcases lower_eq c 80 (by decide) h with h2 | h2
  · exact Or.inr (char_eq_of_toNat c 'P' h2)
  · exact Or.inl (char_eq_of_toNat c 'p' h2)

theorem lower_eq_b (c : Char) (h : lower c = 'b'.toNat) : c = 'b' ∨ c = 'B' := by
  rcases lower_eq c 66 (by decide) h with h2 | h2
  · exact Or.inr (char_eq_of_toNat c 'B' h2)
  · exact Or.inl (char_eq_of_toNat c 'b' h2)

theorem lower_eq_o (c : Char) (h : lower c = 'o'.toNat) : c = 'o' ∨ c = 'O' := by
  rcases lower_eq c 79 (by decide) h with h2 | h2
  · exact Or.inr (char_eq_of_toNat c 'O' h2)
  · exact Or.inl (char_eq_of_toNat c 'o' h2)

/-- The test of `readFloat` for a hexadecimal letter holds of the letters `a` to `f`
and `A` to `F`. -/
theorem lower_hex_iff (c : Char) :
    ('a'.toNat ≤ lower c ∧ lower c ≤ 'f'.toNat) ↔
      (('a'.toNat ≤ c.toNat ∧ c.toNat ≤ 'f'.toNat) ∨ ('A'.toNat ≤ c.toNat ∧ c.toNat ≤ 'F'.toNat)) := by
  have ha : 'a'.toNat = 97 := by decide
  have hf : 'f'.toNat = 102 := by decide
  have hA : 'A'.toNat = 65 := by decide
  have hF : 'F'.toNat = 70 := by decide
  rw [ha, hf, hA, hF]
  constructor
  · rintro ⟨h1, h2⟩
    generalize hv : lower c = v at h1 h2
    interval_cases v
    · rcases lower_eq c 65 (by decide) hv with h | h <;> rw [h] <;> decide
    · rcases lower_eq c 66 (by decide) hv with h | h <;> rw [h] <;> decide
    · rcases lower_eq c 67 (by decide) hv with h | h <;> rw [h] <;> decide
    · rcases lower_eq c 68 (by decide) hv with h | h <;> rw [h] <;> decide
    · rcases lower_eq c 69 (by decide) hv with h | h <;> rw [h] <;> decide
    · rcases lower_eq c 70 (by decide) hv with h | h <;> rw [h] <;> decide
  · intro h
    unfold lower
    generalize c.toNat = n at h
    rcases h with ⟨h1, h2⟩ | ⟨h1, h2⟩ <;> interval_cases n <;> decide

theorem isDigit_iff (c : Char) : Spec.isDigit c = true ↔ ('0' ≤ c ∧ c ≤ '9') := by
  simp [Spec.isDigit]

/-- The digits of base ten, as the digit loop of `readFloat` tests them. -/
theorem isDigit_base (c : Char) :
    Spec.isDigit c = true ↔
      (('0' ≤ c ∧ c ≤ '9') ∨ ((10 : Nat) = 16 ∧ 'a'.toNat ≤ lower c ∧ lower c ≤ 'f'.toNat)) := by
  rw [isDigit_iff]
  constructor
  · exact Or.inl
  · rintro (h | ⟨h, _⟩)
    · exact h
    · exact absurd h (by decide)

/-- The digits of base sixteen, as the digit loop of `readFloat` tests them. -/
theorem isHexDigit_base (c : Char) :
    Spec.isHexDigit c = true ↔
      (('0' ≤ c ∧ c ≤ '9') ∨ ((16 : Nat) = 16 ∧ 'a'.toNat ≤ lower c ∧ lower c ≤ 'f'.toNat)) := by
  unfold Spec.isHexDigit
  simp only [Bool.or_eq_true, decide_eq_true_eq, isDigit_iff, true_and, lower_hex_iff]
  tauto

theorem dropUnderscores_underscore (cs : List Char) :
    Spec.dropUnderscores ('_' :: cs) = Spec.dropUnderscores cs := by
  simp [Spec.dropUnderscores]

theorem dropUnderscores_cons (c : Char) (cs : List Char) (h : c ≠ '_') :
    Spec.dropUnderscores (c :: cs) = c :: Spec.dropUnderscores cs := by
  simp [Spec.dropUnderscores, h]

theorem dropUnderscores_eq_self (l : List Char) (h : '_' ∉ l) : Spec.dropUnderscores l = l := by
  unfold Spec.dropUnderscores
  rw [List.filter_eq_self]
  intro c hc
  simp only [ne_eq, decide_eq_true_eq]
  intro hcu
  exact h (hcu ▸ hc)

/-- After the period the digit loop reads the digits that follow, underscores
passed over, and stops. -/
theorem readFloat_digits_after_dot (b : Nat) (dig : Char → Bool)
    (hdig : ∀ c, dig c = true ↔
      (('0' ≤ c ∧ c ≤ '9') ∨ (b = 16 ∧ 'a'.toNat ≤ lower c ∧ lower c ≤ 'f'.toNat)))
    (hnodot : dig '.' = false) (l : List Char) (st : floatDigits) (hdot : st.sawdot = true) :
    Spec.dropUnderscores (readFloat_digits b l st).2 = (Spec.dropUnderscores l).dropWhile dig ∧
      (readFloat_digits b l st).1.sawdigits
        = (st.sawdigits || !((Spec.dropUnderscores l).takeWhile dig).isEmpty) := by
  induction l generalizing st with
  | nil => simp [readFloat_digits, Spec.dropUnderscores]
  | cons c cs ih =>
    unfold readFloat_digits
    by_cases hc : c = '_'
    · subst hc
      rw [if_pos rfl, dropUnderscores_underscore]
      exact ih { st with underscores := true } hdot
    · rw [if_neg hc, dropUnderscores_cons c cs hc]
      by_cases hp : c = '.'
      · subst hp
        rw [if_pos rfl, if_pos hdot, dropUnderscores_cons _ _ hc]
        simp [List.dropWhile, List.takeWhile, hnodot]
      · rw [if_neg hp]
        by_cases hd : '0' ≤ c ∧ c ≤ '9'
        · rw [if_pos hd]
          have hsd : dig c = true := (hdig c).mpr (Or.inl hd)
          split
          · obtain ⟨e1, e2⟩ := ih { st with sawdigits := true, dp := st.dp - 1 } hdot
            rw [e1, e2]
            simp [List.dropWhile, List.takeWhile, hsd]
          · obtain ⟨e1, e2⟩ := ih { st with
              sawdigits := true, nd := st.nd + 1,
              mantissa := st.mantissa * b + (c.toNat - '0'.toNat) } hdot
            rw [e1, e2]
            simp [List.dropWhile, List.takeWhile, hsd]
        · rw [if_neg hd]
          by_cases hx : b = 16 ∧ 'a'.toNat ≤ lower c ∧ lower c ≤ 'f'.toNat
          · rw [if_pos hx]
            have hsd : dig c = true := (hdig c).mpr (Or.inr hx)
            obtain ⟨e1, e2⟩ := ih { st with
              sawdigits := true, nd := st.nd + 1,
              mantissa := st.mantissa * 16 + (lower c - 'a'.toNat + 10) } hdot
            rw [e1, e2]
            simp [List.dropWhile, List.takeWhile, hsd]
          · rw [if_neg hx]
            have hsd : dig c = false := by
              cases h : dig c with
              | false => rfl
              | true =>
                rcases (hdig c).mp h with h1 | h1
                · exact absurd h1 hd
                · exact absurd h1 hx
            rw [dropUnderscores_cons _ _ hc]
            simp [List.dropWhile, List.takeWhile, hsd]

/-- The digit loop reads a mantissa, underscores passed over, and leaves what
follows it. -/
theorem readFloat_digits_mantissa (b : Nat) (dig : Char → Bool)
    (hdig : ∀ c, dig c = true ↔
      (('0' ≤ c ∧ c ≤ '9') ∨ (b = 16 ∧ 'a'.toNat ≤ lower c ∧ lower c ≤ 'f'.toNat)))
    (hnodot : dig '.' = false) (l : List Char) (st : floatDigits) (hdot : st.sawdot = false) :
    Spec.dropUnderscores (readFloat_digits b l st).2
        = Spec.afterMantissa dig (Spec.dropUnderscores l) ∧
      (readFloat_digits b l st).1.sawdigits
        = (st.sawdigits || Spec.mantissaHasDigit dig (Spec.dropUnderscores l)) := by
  induction l generalizing st with
  | nil => simp [readFloat_digits, Spec.afterMantissa, Spec.mantissaHasDigit, Spec.dropUnderscores]
  | cons c cs ih =>
    unfold readFloat_digits
    by_cases hc : c = '_'
    · subst hc
      rw [if_pos rfl, dropUnderscores_underscore]
      exact ih { st with underscores := true } hdot
    · rw [if_neg hc, dropUnderscores_cons c cs hc]
      by_cases hp : c = '.'
      · subst hp
        rw [if_pos rfl, if_neg (by simp [hdot])]
        obtain ⟨e1, e2⟩ := readFloat_digits_after_dot b dig hdig hnodot cs
          { st with sawdot := true, dp := st.nd } rfl
        rw [e1, e2]
        simp [Spec.afterMantissa, Spec.mantissaHasDigit, List.dropWhile, List.takeWhile, hnodot]
      · rw [if_neg hp]
        have hafter_digit : dig c = true →
            Spec.afterMantissa dig (c :: Spec.dropUnderscores cs)
              = Spec.afterMantissa dig (Spec.dropUnderscores cs) := by
          intro hsd
          simp [Spec.afterMantissa, List.dropWhile, hsd]
        have hhas_digit : dig c = true →
            Spec.mantissaHasDigit dig (c :: Spec.dropUnderscores cs) = true := by
          intro hsd
          unfold Spec.mantissaHasDigit
          split <;> simp [List.takeWhile, hsd]
        by_cases hd : '0' ≤ c ∧ c ≤ '9'
        · rw [if_pos hd]
          have hsd : dig c = true := (hdig c).mpr (Or.inl hd)
          split
          · obtain ⟨e1, e2⟩ := ih { st with sawdigits := true, dp := st.dp - 1 } hdot
            rw [e1, e2, hafter_digit hsd, hhas_digit hsd]
            simp
          · obtain ⟨e1, e2⟩ := ih { st with
              sawdigits := true, nd := st.nd + 1,
              mantissa := st.mantissa * b + (c.toNat - '0'.toNat) } hdot
            rw [e1, e2, hafter_digit hsd, hhas_digit hsd]
            simp
        · rw [if_neg hd]
          by_cases hx : b = 16 ∧ 'a'.toNat ≤ lower c ∧ lower c ≤ 'f'.toNat
          · rw [if_pos hx]
            have hsd : dig c = true := (hdig c).mpr (Or.inr hx)
            obtain ⟨e1, e2⟩ := ih { st with
              sawdigits := true, nd := st.nd + 1,
              mantissa := st.mantissa * 16 + (lower c - 'a'.toNat + 10) } hdot
            rw [e1, e2, hafter_digit hsd, hhas_digit hsd]
            simp
          · rw [if_neg hx]
            have hsd : dig c = false := by
              cases h : dig c with
              | false => rfl
              | true =>
                rcases (hdig c).mp h with h1 | h1
                · exact absurd h1 hd
                · exact absurd h1 hx
            rw [dropUnderscores_cons _ _ hc]
            have hafter : Spec.afterMantissa dig (c :: Spec.dropUnderscores cs)
                = c :: Spec.dropUnderscores cs := by
              unfold Spec.afterMantissa
              simp only [List.dropWhile, hsd]
              split
              · rename_i heq
                simp only [List.cons.injEq] at heq
                exact absurd heq.1 hp
              · rfl
            have hhas : Spec.mantissaHasDigit dig (c :: Spec.dropUnderscores cs) = false := by
              unfold Spec.mantissaHasDigit
              simp only [List.dropWhile, hsd]
              split
              · rename_i heq
                simp only [List.cons.injEq] at heq
                exact absurd heq.1 hp
              · simp [List.takeWhile, hsd]
            rw [hafter, hhas]
            simp

/-- The digit loop sets its underscore flag when it passes over an underscore, and
never clears it. -/
theorem readFloat_digits_underscores (b : Nat) (l : List Char) (st : floatDigits) :
    (st.underscores = true → (readFloat_digits b l st).1.underscores = true) ∧
      ('_' ∈ l → (readFloat_digits b l st).1.underscores = true
        ∨ '_' ∈ (readFloat_digits b l st).2) := by
  induction l generalizing st with
  | nil => simp [readFloat_digits]
  | cons c cs ih =>
    unfold readFloat_digits
    by_cases hc : c = '_'
    · subst hc
      rw [if_pos rfl]
      have h := (ih { st with underscores := true }).1 rfl
      exact ⟨fun _ => h, fun _ => Or.inl h⟩
    · rw [if_neg hc]
      have hmem : '_' ∈ c :: cs → '_' ∈ cs := by
        intro h
        rcases List.mem_cons.mp h with h1 | h1
        · exact absurd h1.symm hc
        · exact h1
      by_cases hp : c = '.'
      · rw [if_pos hp]
        split
        · exact ⟨fun h => h, fun h => Or.inr h⟩
        · have h := ih { st with sawdot := true, dp := st.nd }
          exact ⟨fun hu => h.1 hu, fun hm => h.2 (hmem hm)⟩
      · rw [if_neg hp]
        split
        · split
          · have h := ih { st with sawdigits := true, dp := st.dp - 1 }
            exact ⟨fun hu => h.1 hu, fun hm => h.2 (hmem hm)⟩
          · have h := ih { st with
              sawdigits := true, nd := st.nd + 1,
              mantissa := st.mantissa * b + (c.toNat - '0'.toNat) }
            exact ⟨fun hu => h.1 hu, fun hm => h.2 (hmem hm)⟩
        · split
          · have h := ih { st with
              sawdigits := true, nd := st.nd + 1,
              mantissa := st.mantissa * 16 + (lower c - 'a'.toNat + 10) }
            exact ⟨fun hu => h.1 hu, fun hm => h.2 (hmem hm)⟩
          · exact ⟨fun h => h, fun h => Or.inr h⟩

/-- The exponent loop reads digits, underscores passed over, and keeps account of
the underscores. -/
theorem readFloat_exp_spec (l : List Char) (e : Nat) (u : Bool) :
    Spec.dropUnderscores (readFloat_exp l e u).2.2
        = (Spec.dropUnderscores l).dropWhile Spec.isDigit ∧
      (u = true → (readFloat_exp l e u).2.1 = true) ∧
      ('_' ∈ l → (readFloat_exp l e u).2.1 = true ∨ '_' ∈ (readFloat_exp l e u).2.2) := by
  induction l generalizing e u with
  | nil => simp [readFloat_exp, Spec.dropUnderscores]
  | cons c cs ih =>
    unfold readFloat_exp
    by_cases hc : c = '_'
    · subst hc
      rw [if_pos rfl, dropUnderscores_underscore]
      obtain ⟨h1, h2, _⟩ := ih e true
      exact ⟨h1, fun _ => h2 rfl, fun _ => Or.inl (h2 rfl)⟩
    · rw [if_neg hc, dropUnderscores_cons c cs hc]
      have hmem : '_' ∈ c :: cs → '_' ∈ cs := by
        intro h
        rcases List.mem_cons.mp h with h1 | h1
        · exact absurd h1.symm hc
        · exact h1
      by_cases hd : '0' ≤ c ∧ c ≤ '9'
      · rw [if_pos hd]
        obtain ⟨h1, h2, h3⟩ := ih (if e < 10000 then e * 10 + (c.toNat - '0'.toNat) else e) u
        refine ⟨?_, h2, fun hm => h3 (hmem hm)⟩
        rw [h1]
        simp [List.dropWhile, Spec.isDigit, hd]
      · rw [if_neg hd]
        refine ⟨?_, fun h => h, fun h => Or.inr h⟩
        rw [dropUnderscores_cons c cs hc]
        simp [List.dropWhile, Spec.isDigit, hd]

end strconv

namespace strconv

theorem mem_dropSign (x : Char) (l : List Char) (h : x ∈ Spec.dropSign l) : x ∈ l := by
  cases l with
  | nil => exact h
  | cons c cs =>
    simp only [Spec.dropSign] at h
    split at h
    · exact List.mem_cons_of_mem _ h
    · exact h

theorem mem_dropSign_of_mem (l : List Char) (h : '_' ∈ l) : '_' ∈ Spec.dropSign l := by
  cases l with
  | nil => exact h
  | cons c cs =>
    simp only [Spec.dropSign]
    split
    · rename_i hsign
      rcases List.mem_cons.mp h with h1 | h1
      · rcases hsign with hc | hc <;> rw [hc] at h1 <;> exact absurd h1 (by decide)
      · exact h1
    · exact h

/-- Leaving out the underscores and dropping the sign can be done in either order
when the first character is no underscore. -/
theorem dropSign_dropUnderscores (c : Char) (cs : List Char) (hc : c ≠ '_') :
    Spec.dropSign (Spec.dropUnderscores (c :: cs))
      = Spec.dropUnderscores (Spec.dropSign (c :: cs)) := by
  rw [dropUnderscores_cons c cs hc]
  simp only [Spec.dropSign]
  split
  · rfl
  · rw [dropUnderscores_cons c cs hc]

theorem readFloat_done_ok (s : List Char) (st : floatDigits) (dp : Int)
    (neg hex u : Bool) (n : Nat) (h : (readFloat_done s st dp neg hex u n).ok = true) :
    (readFloat_done s st dp neg hex u n).n = n ∧ (u = true → underscoreOK (s.take n) = true) := by
  unfold readFloat_done at h ⊢
  split
  · rename_i hc
    rw [if_pos hc] at h
    simp [readFloat_fail] at h
  · rename_i hc
    refine ⟨rfl, fun hu => ?_⟩
    cases hk : underscoreOK (s.take n) with
    | true => rfl
    | false => exact absurd ⟨hu, by simp [hk]⟩ hc

theorem dropWhile_eq_nil_all (l : List Char) (h : l.dropWhile Spec.isDigit = []) :
    l.all Spec.isDigit = true := by
  induction l with
  | nil => rfl
  | cons c cs ih =>
    by_cases hd : Spec.isDigit c = true
    · simp only [List.dropWhile, hd] at h
      simp [hd, ih h]
    · simp only [Bool.not_eq_true] at hd
      simp [List.dropWhile, hd] at h

/-- An exponent that `readFloat` reads to the end of the string is, the underscores
left out, the exponent of a numeral of the base; and when an underscore was passed
over, `underscoreOK` held of the string. -/
theorem readFloat_exponent_spec (s : List Char) (hs : s ≠ []) (st : floatDigits) (dp : Int)
    (neg hex : Bool) (rest : List Char)
    (hok : (readFloat_exponent s st dp neg hex rest).ok = true)
    (hn : (readFloat_exponent s st dp neg hex rest).n = s.length) :
    (if hex then Spec.isBinaryExponent (Spec.dropUnderscores rest)
      else Spec.isExponentPart (Spec.dropUnderscores rest)) = true ∧
    ((st.underscores = true ∨ '_' ∈ rest) → underscoreOK s = true) := by
  have hslen : 0 < s.length := List.length_pos.mpr hs
  have hnone : ∀ r : List Char, hex = false →
      (readFloat_done s st dp neg hex st.underscores (s.length - r.length)).ok = true →
      (readFloat_done s st dp neg hex st.underscores (s.length - r.length)).n = s.length →
      r = [] ∧ (st.underscores = true → underscoreOK s = true) := by
    intro r _ h1 h2
    obtain ⟨e1, e2⟩ := readFloat_done_ok _ _ _ _ _ _ _ h1
    rw [e1] at h2
    have hr : r = [] := List.length_eq_zero.mp (by omega)
    refine ⟨hr, fun hu => ?_⟩
    have := e2 hu
    rw [hr] at this
    simpa using this
  unfold readFloat_exponent at hok hn
  simp only at hok hn
  cases rest with
  | nil =>
    simp only at hok hn
    cases hex with
    | true => simp [readFloat_fail] at hok
    | false =>
      simp only [Bool.false_eq_true, if_false] at hok hn ⊢
      obtain ⟨_, h2⟩ := hnone [] rfl hok hn
      refine ⟨rfl, ?_⟩
      rintro (hu | hm)
      · exact h2 hu
      · cases hm
  | cons c s4 =>
    simp only at hok hn
    by_cases he : lower c = (if hex = true then 'p'.toNat else 'e'.toNat)
    · rw [if_pos he] at hok hn
      have hcu : c ≠ '_' := by
        intro h
        subst h
        cases hex <;> exact absurd he (by decide)
      cases s4 with
      | nil => simp [readFloat_fail] at hok
      | cons c1 s5 =>
        simp only at hok hn
        have hs6 : (if c1 = '+' ∨ c1 = '-' then s5 else c1 :: s5) = Spec.dropSign (c1 :: s5) := rfl
        rw [hs6] at hok hn
        cases h6 : Spec.dropSign (c1 :: s5) with
        | nil => rw [h6] at hok; simp [readFloat_fail] at hok
        | cons c2 s7 =>
          rw [h6] at hok hn
          simp only at hok hn
          split at hok
          · simp [readFloat_fail] at hok
          · rename_i hdig
            rw [if_neg hdig] at hn
            have hc2 : '0' ≤ c2 ∧ c2 ≤ '9' := by
              constructor
              · exact not_lt.mp (fun h => hdig (Or.inl h))
              · exact not_lt.mp (fun h => hdig (Or.inr h))
            have hc2u : c2 ≠ '_' := by
              intro h
              rw [h] at hc2
              exact absurd hc2.2 (by decide)
            have hc1u : c1 ≠ '_' := by
              intro h
              subst h
              simp only [Spec.dropSign] at h6
              rw [if_neg (by decide)] at h6
              simp only [List.cons.injEq] at h6
              exact hc2u h6.1.symm
            obtain ⟨e1, e2⟩ := readFloat_done_ok _ _ _ _ _ _ _ hok
            rw [e1] at hn
            obtain ⟨x1, x2, x3⟩ := readFloat_exp_spec (c2 :: s7) 0 st.underscores
            have hnil : (readFloat_exp (c2 :: s7) 0 st.underscores).2.2 = [] :=
              List.length_eq_zero.mp (by omega)
            rw [hnil] at x1 x3 hn
            have hall := dropWhile_eq_nil_all _ x1.symm
            have hexp : Spec.dropSign (Spec.dropUnderscores (c1 :: s5))
                = Spec.dropUnderscores (c2 :: s7) := by
              rw [dropSign_dropUnderscores c1 s5 hc1u, h6]
            have hne : Spec.dropUnderscores (c2 :: s7) ≠ [] := by
              rw [dropUnderscores_cons c2 s7 hc2u]
              simp
            constructor
            · rw [dropUnderscores_cons c _ hcu]
              cases hex with
              | true =>
                simp only [if_true] at he ⊢
                show (decide (c = 'p' ∨ c = 'P')
                  && decide (Spec.dropSign (Spec.dropUnderscores (c1 :: s5)) ≠ [])
                  && (Spec.dropSign (Spec.dropUnderscores (c1 :: s5))).all Spec.isDigit) = true
                rw [hexp, hall]
                simp [hne, lower_eq_p c he]
              | false =>
                simp only [Bool.false_eq_true, if_false] at he ⊢
                show (decide (c = 'e' ∨ c = 'E')
                  && decide (Spec.dropSign (Spec.dropUnderscores (c1 :: s5)) ≠ [])
                  && (Spec.dropSign (Spec.dropUnderscores (c1 :: s5))).all Spec.isDigit) = true
                rw [hexp, hall]
                simp [hne, lower_eq_e c he]
            · intro hu
              have hflag : (readFloat_exp (c2 :: s7) 0 st.underscores).2.1 = true := by
                rcases hu with hu | hm
                · exact x2 hu
                · have h1 : '_' ∈ c1 :: s5 := by
                    rcases List.mem_cons.mp hm with h | h
                    · exact absurd h.symm hcu
                    · exact h
                  have h2 : '_' ∈ c2 :: s7 := by
                    rw [← h6]
                    exact mem_dropSign_of_mem _ h1
                  rcases x3 h2 with h | h
                  · exact h
                  · cases h
              have := e2 hflag
              rw [hnil] at this
              simpa using this
    · rw [if_neg he] at hok hn
      cases hex with
      | true => simp [readFloat_fail] at hok
      | false =>
        simp only [Bool.false_eq_true, if_false] at hok hn
        obtain ⟨h1, _⟩ := hnone (c :: s4) rfl hok hn
        cases h1

/-- The function `underscoreOK` rejects a string that starts with an underscore. -/
theorem underscoreOK_underscore (cs : List Char) : underscoreOK ('_' :: cs) = false := by
  unfold underscoreOK
  simp only
  rw [if_neg (by decide)]
  cases cs with
  | nil => simp [underscoreOK_loop]
  | cons c1 cs =>
    simp only
    rw [if_neg (by simp)]
    unfold underscoreOK_loop
    rw [if_neg (by decide), if_pos rfl, if_pos (by decide)]

/-- What `readFloat` accepts in full is, the underscores left out, a decimal numeral
or a hexadecimal floating-point literal; and when the string has an underscore,
`underscoreOK` holds of it. -/
theorem readFloat_accepts (s : String)
    (hok : (readFloat s.toList).ok = true) (hn : (readFloat s.toList).n = s.toList.length) :
    (Spec.isDecimalNumeral (Spec.withoutUnderscores s) = true
      ∨ Spec.isHexFloat (Spec.withoutUnderscores s) = true) ∧
    ('_' ∈ s.toList → underscoreOK s.toList = true) := by
  unfold readFloat at hok hn
  cases hl : s.toList with
  | nil => rw [hl] at hok; simp [readFloat_fail] at hok
  | cons c cs =>
    rw [hl] at hok hn
    simp only at hok hn
    have hs1 : (if c = '+' ∨ c = '-' then cs else c :: cs) = Spec.dropSign (c :: cs) := rfl
    rw [hs1] at hok hn
    generalize hs1def : Spec.dropSign (c :: cs) = s1 at hok hn
    generalize hrdef : readFloat_digits (if readFloat_hex s1 = true then 16 else 10)
      (if readFloat_hex s1 = true then s1.drop 2 else s1) ⟨false, false, 0, 0, 0, false⟩ = r
      at hok hn
    split at hok
    · simp [readFloat_fail] at hok
    · rename_i hsd
      rw [if_neg hsd] at hn
      simp only [Bool.not_eq_true', Bool.not_eq_false] at hsd
      obtain ⟨hexp, hflag⟩ := readFloat_exponent_spec (c :: cs) (by simp) r.1 _ _ _ r.2 hok hn
      have hund : '_' ∈ c :: cs → underscoreOK (c :: cs) = true := by
        intro hm
        apply hflag
        have hm1 : '_' ∈ s1 := by
          rw [← hs1def]
          exact mem_dropSign_of_mem _ hm
        have hm2 : '_' ∈ (if readFloat_hex s1 = true then s1.drop 2 else s1) := by
          split
          · rename_i hh
            unfold readFloat_hex at hh
            split at hh
            · rename_i c0 c1 c2 rest
              simp only [decide_eq_true_eq] at hh
              rcases List.mem_cons.mp hm1 with h | h
              · rw [hh.1] at h
                exact absurd h (by decide)
              · rcases List.mem_cons.mp h with h' | h'
                · rw [← h'] at hh
                  exact absurd hh.2 (by decide)
                · exact h'
            · cases hh
          · exact hm1
        have := (readFloat_digits_underscores (if readFloat_hex s1 = true then 16 else 10)
          (if readFloat_hex s1 = true then s1.drop 2 else s1) ⟨false, false, 0, 0, 0, false⟩).2 hm2
        rw [hrdef] at this
        exact this
      refine ⟨?_, hund⟩
      have hcu : c ≠ '_' := by
        intro h
        subst h
        have := hund (List.mem_cons_self _ _)
        rw [underscoreOK_underscore] at this
        cases this
      have hstrip : Spec.dropSign (Spec.withoutUnderscores s).toList = Spec.dropUnderscores s1 := by
        show Spec.dropSign (Spec.dropUnderscores s.toList) = _
        rw [hl, dropSign_dropUnderscores c cs hcu, hs1def]
      cases hh : readFloat_hex s1 with
      | false =>
        left
        rw [hh] at hrdef hexp
        simp only [Bool.false_eq_true, if_false] at hrdef hexp
        obtain ⟨e1, e2⟩ := readFloat_digits_mantissa 10 Spec.isDigit isDigit_base (by decide) s1
          ⟨false, false, 0, 0, 0, false⟩ rfl
        rw [hrdef] at e1 e2
        simp only [Bool.false_or] at e2
        unfold Spec.isDecimalNumeral
        rw [hstrip, ← e2, hsd, ← e1, hexp]
        rfl
      | true =>
        right
        rw [hh] at hrdef hexp
        simp only [if_true] at hrdef hexp
        unfold readFloat_hex at hh
        split at hh
        · rename_i c0 c1 c2 rest
          simp only [decide_eq_true_eq] at hh
          simp only [List.drop_succ_cons, List.drop_zero] at hrdef
          obtain ⟨e1, e2⟩ := readFloat_digits_mantissa 16 Spec.isHexDigit isHexDigit_base
            (by decide) (c2 :: rest) ⟨false, false, 0, 0, 0, false⟩ rfl
          rw [hrdef] at e1 e2
          simp only [Bool.false_or] at e2
          have hc0 : c0 ≠ '_' := by rw [hh.1]; decide
          have hc1 : c1 ≠ '_' := by
            intro h
            rw [h] at hh
            exact absurd hh.2 (by decide)
          unfold Spec.isHexFloat
          rw [hstrip, dropUnderscores_cons c0 _ hc0, dropUnderscores_cons c1 _ hc1]
          simp only
          rw [← e2, hsd, ← e1, hexp]
          rcases lower_eq_x c1 hh.2 with h | h <;> simp [hh.1, h]
        · cases hh

end strconv

namespace strconv

/-- Where the loop of `underscoreOK` accepts, every underscore stands between two
digits; after an underscore the loop accepts only with a digit next. -/
theorem underscoreOK_loop_spec (hex : Bool) (dig : Char → Bool)
    (hdig : ∀ c, dig c = true ↔
      (('0' ≤ c ∧ c ≤ '9') ∨ (hex = true ∧ 'a'.toNat ≤ lower c ∧ lower c ≤ 'f'.toNat)))
    (hus : dig '_' = false) (l : List Char) (saw : Char)
    (h : underscoreOK_loop hex l saw = true) :
    (saw = '_' → ∃ d cs, l = d :: cs ∧ dig d = true) ∧
      Spec.separatesDigits dig (decide (saw = '0')) l = true := by
  induction l generalizing saw with
  | nil =>
    simp only [underscoreOK_loop, ne_eq, decide_not, Bool.not_eq_true', decide_eq_false_iff_not] at h
    exact ⟨fun hs => absurd hs h, rfl⟩
  | cons c cs ih =>
    unfold underscoreOK_loop at h
    by_cases hd : ('0' ≤ c ∧ c ≤ '9') ∨ (hex = true ∧ 'a'.toNat ≤ lower c ∧ lower c ≤ 'f'.toNat)
    · rw [if_pos hd] at h
      have hsd : dig c = true := (hdig c).mpr hd
      have hcu : c ≠ '_' := by
        intro hc
        rw [hc, hus] at hsd
        cases hsd
      refine ⟨fun _ => ⟨c, cs, rfl, hsd⟩, ?_⟩
      unfold Spec.separatesDigits
      rw [if_neg hcu, hsd]
      exact (ih '0' h).2
    · rw [if_neg hd] at h
      have hsd : dig c = false := by
        cases hx : dig c with
        | false => rfl
        | true => exact absurd ((hdig c).mp hx) hd
      by_cases hc : c = '_'
      · rw [if_pos hc] at h
        by_cases hs : saw = '0'
        · rw [if_neg (by simp [hs])] at h
          obtain ⟨h1, h2⟩ := ih '_' h
          obtain ⟨d, cs', hcs, hdd⟩ := h1 rfl
          refine ⟨fun hsaw => ?_, ?_⟩
          · rw [hs] at hsaw
            exact absurd hsaw (by decide)
          · unfold Spec.separatesDigits
            rw [if_pos hc]
            have h2' : Spec.separatesDigits dig false cs = true := h2
            rw [h2', hcs]
            simp [hs, hdd]
        · rw [if_pos hs] at h
          cases h
      · rw [if_neg hc] at h
        by_cases hs : saw = '_'
        · rw [if_pos hs] at h
          cases h
        · rw [if_neg hs] at h
          refine ⟨fun hsaw => absurd hsaw hs, ?_⟩
          unfold Spec.separatesDigits
          rw [if_neg hc, hsd]
          exact (ih '!' h).2

theorem isDigit_flag (c : Char) :
    Spec.isDigit c = true ↔
      (('0' ≤ c ∧ c ≤ '9') ∨ (false = true ∧ 'a'.toNat ≤ lower c ∧ lower c ≤ 'f'.toNat)) := by
  rw [isDigit_iff]
  simp

theorem isHexDigit_flag (c : Char) :
    Spec.isHexDigit c = true ↔
      (('0' ≤ c ∧ c ≤ '9') ∨ (true = true ∧ 'a'.toNat ≤ lower c ∧ lower c ≤ 'f'.toNat)) := by
  rw [isHexDigit_base]
  simp

theorem underscoreOK_body (l : List Char)
    (h : (match l with
      | c0 :: c1 :: cs =>
        if c0 = '0' ∧ (lower c1 = 'b'.toNat ∨ lower c1 = 'o'.toNat ∨ lower c1 = 'x'.toNat) then
          underscoreOK_loop (lower c1 = 'x'.toNat) cs '0'
        else underscoreOK_loop false (c0 :: c1 :: cs) '^'
      | s => underscoreOK_loop false s '^') = true) :
    Spec.unsignedSeparatesDigits l = true := by
  unfold Spec.unsignedSeparatesDigits
  match l, h with
  | [], h => exact (underscoreOK_loop_spec false Spec.isDigit isDigit_flag (by decide) _ _ h).2
  | [c0], h => exact (underscoreOK_loop_spec false Spec.isDigit isDigit_flag (by decide) _ _ h).2
  | c0 :: c1 :: cs, h =>
    simp only at h ⊢
    by_cases hpre : c0 = '0' ∧
        (lower c1 = 'b'.toNat ∨ lower c1 = 'o'.toNat ∨ lower c1 = 'x'.toNat)
    · rw [if_pos hpre] at h
      by_cases hx : lower c1 = 'x'.toNat
      · have hc1 := lower_eq_x c1 hx
        rw [if_pos ⟨hpre.1, hc1⟩]
        simp only [hx, decide_True] at h
        exact (underscoreOK_loop_spec true Spec.isHexDigit isHexDigit_flag (by decide) _ _ h).2
      · have hnx : ¬ (c1 = 'x' ∨ c1 = 'X') := by
          rintro (hc | hc) <;> subst hc <;> exact hx (by decide)
        rw [if_neg (fun hh => hnx hh.2)]
        have hbo : c1 = 'b' ∨ c1 = 'B' ∨ c1 = 'o' ∨ c1 = 'O' := by
          rcases hpre.2 with hb | ho | hx'
          · rcases lower_eq_b c1 hb with hh | hh
            · exact Or.inl hh
            · exact Or.inr (Or.inl hh)
          · rcases lower_eq_o c1 ho with hh | hh
            · exact Or.inr (Or.inr (Or.inl hh))
            · exact Or.inr (Or.inr (Or.inr hh))
          · exact absurd hx' hx
        rw [if_pos ⟨hpre.1, hbo⟩]
        simp only [hx, decide_False] at h
        exact (underscoreOK_loop_spec false Spec.isDigit isDigit_flag (by decide) _ _ h).2
    · rw [if_neg hpre] at h
      have h1 : ¬ (c0 = '0' ∧ (c1 = 'x' ∨ c1 = 'X')) := by
        rintro ⟨h0, hc | hc⟩ <;> subst hc <;> exact hpre ⟨h0, Or.inr (Or.inr (by decide))⟩
      have h2 : ¬ (c0 = '0' ∧ (c1 = 'b' ∨ c1 = 'B' ∨ c1 = 'o' ∨ c1 = 'O')) := by
        rintro ⟨h0, hc | hc | hc | hc⟩ <;> subst hc
        · exact hpre ⟨h0, Or.inl (by decide)⟩
        · exact hpre ⟨h0, Or.inl (by decide)⟩
        · exact hpre ⟨h0, Or.inr (Or.inl (by decide))⟩
        · exact hpre ⟨h0, Or.inr (Or.inl (by decide))⟩
      rw [if_neg h1, if_neg h2]
      exact (underscoreOK_loop_spec false Spec.isDigit isDigit_flag (by decide) _ _ h).2

/-- Where `underscoreOK` holds, the underscores of the string separate digits. -/
theorem underscoreOK_spec (s : String) (h : underscoreOK s.toList = true) :
    Spec.underscoresSeparateDigits s = true := by
  unfold underscoreOK at h
  unfold Spec.underscoresSeparateDigits
  cases hl : s.toList with
  | nil =>
    rw [hl] at h
    exact underscoreOK_body [] h
  | cons c cs =>
    rw [hl] at h
    simp only at h
    simp only [Spec.dropSign]
    by_cases hc : c = '+' ∨ c = '-'
    · rw [if_pos hc.symm] at h
      rw [if_pos hc]
      exact underscoreOK_body cs h
    · rw [if_neg (fun hh => hc hh.symm)] at h
      rw [if_neg hc]
      exact underscoreOK_body (c :: cs) h

end strconv

theorem withoutUnderscores_eq_self (s : String) (h : '_' ∉ s.toList) :
    Spec.withoutUnderscores s = s := by
  unfold Spec.withoutUnderscores
  rw [strconv.dropUnderscores_eq_self _ h]
  rfl

/-- A string that `strconv.ParseFloat` accepts is a spelling of an infinity or of NaN,
a decimal numeral, a hexadecimal floating-point literal, or one of the latter two
written with underscores that separate digits. -/
theorem ParseFloat_success_spelling (s : String) (h : (strconv.ParseFloat s).2 = none) :
    Spec.isSpecialSpelling s = true ∨ Spec.isDecimalNumeral s = true
      ∨ Spec.isHexFloat s = true ∨ Spec.isUnderscored s = true := by
  cases hsp : strconv.special s.toList with
  | some wn => exact Or.inl (ParseFloat_special_spelling s wn hsp h)
  | none =>
    right
    unfold strconv.ParseFloat at h
    simp only at h
    split at h
    · simp at h
    · rename_i hcond
      simp only [Option.map_eq_none'] at h
      have hlen : (strconv.atof64 s.toList).2.1 = s.length := by
        by_contra hne
        exact hcond ⟨hne, Or.inl h⟩
      unfold strconv.atof64 at h hlen
      rw [hsp] at h hlen
      simp only at h hlen
      split at h
      · simp at h
      · rename_i hok
        rw [if_neg hok] at hlen
        simp only [Bool.not_eq_true', Bool.not_eq_false] at hok
        obtain ⟨hform, hund⟩ := strconv.readFloat_accepts s hok hlen
        by_cases hm : '_' ∈ s.toList
        · right; right
          unfold Spec.isUnderscored
          rw [strconv.underscoreOK_spec s (hund hm)]
          have hm' : decide ('_' ∈ s.toList) = true := decide_eq_true hm
          rw [hm']
          rcases hform with hf | hf <;> rw [hf] <;> simp
        · rw [withoutUnderscores_eq_self s hm] at hform
          rcases hform with hf | hf
          · exact Or.inl hf
          · exact Or.inr (Or.inl hf)

/-- C5 (amended): if `s` with every comma replaced by a period is no decimal numeral,
nor (in any letter case) a spelling of an infinity or of NaN, nor a hexadecimal
floating-point literal, nor one of these numerals written with underscores that
separate digits, then `FloatValue.UnmarshalXML` fails with an error and leaves the
value as it was; so it does on `"abc"` and on `"1,2,3"`. -/
theorem C5_rejects_what_is_no_numeral (f : FloatValue) (s : String)
    (hdec : Spec.isDecimalNumeral (Spec.commasToPeriods s) = false)
    (hspecial : Spec.isSpecialSpelling (Spec.commasToPeriods s) = false)
    (hhex : Spec.isHexFloat (Spec.commasToPeriods s) = false)
    (hund : Spec.isUnderscored (Spec.commasToPeriods s) = false) :
    ((FloatValue.UnmarshalXML f (.ok s)).1 = f ∧ (FloatValue.UnmarshalXML f (.ok s)).2 ≠ none) ∧
    ((FloatValue.UnmarshalXML f (.ok "abc")).1 = f ∧
      (FloatValue.UnmarshalXML f (.ok "abc")).2 ≠ none) ∧
    ((FloatValue.UnmarshalXML f (.ok "1,2,3")).1 = f ∧
      (FloatValue.UnmarshalXML f (.ok "1,2,3")).2 ≠ none) := by
  have hgen : ∀ t : String, Spec.isDecimalNumeral (Spec.commasToPeriods t) = false →
      Spec.isSpecialSpelling (Spec.commasToPeriods t) = false →
      Spec.isHexFloat (Spec.commasToPeriods t) = false →
      Spec.isUnderscored (Spec.commasToPeriods t) = false →
      (FloatValue.UnmarshalXML f (.ok t)).1 = f ∧ (FloatValue.UnmarshalXML f (.ok t)).2 ≠ none := by
    intro t h1 h2 h3 h4
    apply UnmarshalXML_failure
    intro hnone
    rcases ParseFloat_success_spelling _ hnone with h | h | h | h
    · rw [h2] at h; cases h
    · rw [h1] at h; cases h
    · rw [h3] at h; cases h
    · rw [h4] at h; cases h
  exact ⟨hgen s hdec hspecial hhex hund,
    hgen "abc" (by decide) (by decide) (by decide) (by decide),
    hgen "1,2,3" (by decide) (by decide) (by decide) (by decide)⟩

theorem C5_rejects_what_is_no_numeral_witness :
    ((FloatValue.UnmarshalXML ⟨7⟩ (.ok "0x_1,8p")).1 = ⟨7⟩ ∧
      (FloatValue.UnmarshalXML ⟨7⟩ (.ok "0x_1,8p")).2 ≠ none) ∧
    ((FloatValue.UnmarshalXML ⟨7⟩ (.ok "abc")).1 = ⟨7⟩ ∧
      (FloatValue.UnmarshalXML ⟨7⟩ (.ok "abc")).2 ≠ none) ∧
    ((FloatValue.UnmarshalXML ⟨7⟩ (.ok "1,2,3")).1 = ⟨7⟩ ∧
      (FloatValue.UnmarshalXML ⟨7⟩ (.ok "1,2,3")).2 ≠ none) :=
  C5_rejects_what_is_no_numeral ⟨7⟩ "0x_1,8p" (by decide) (by decide) (by decide) (by decide)
